import Mathlib

/-!
# Inline-stack handler of `util/symbolize/addr2line_inlinestack.cc`

A shallow embedding of the subprogram records and their member functions
(`SetSingletonRangeLow`, `SetSingletonRangeHigh`, `CallsiteFilename`), of
`SortAndMerge`, of `SubprogramContains`, of the bad-DIE filter
`FindBadSubprograms`, of the split-unit clean-up `CleanupUnusedSubprograms`,
of `GetDeclaration`, and of the handler state with `StartCompilationUnit`,
`StartDIE`, `EndDIE`, `NeedSplitDebugInfo`, `ProcessAttributeString`,
`ProcessAttributeUnsigned`, `ProcessAttributeSigned`,
`PopulateSubprogramsByAddress` and `GetSubprogramForAddress`, followed by the
properties proved about them.

Modelling conventions.

* Addresses, DIE offsets and line numbers are `uint64` in the source and
  `Nat` here; the sums the embedded functions compute on them (in
  `SetSingletonRangeHigh` and for the references relative to the unit in
  `ProcessAttributeUnsigned`) are taken modulo `2 ^ 64`, and the `int64` data
  of `ProcessAttributeSigned` is an `Int`.  The counter `overlap_count_` is a
  `Nat` as well.
* A `SubprogramInfo *` is a `Ptr` (a natural number, the address of the
  record) and the records live in a `Heap`, a total function from pointers to
  records.  A null pointer is `none`.
* A `std::set<T>` is the ascending duplicate-free list of its elements, an
  iterator into it is the suffix that starts at the element it designates.
* A `std::map<uint64, SubprogramInfo *>` is the list of its entries; in a map
  of the program the keys are ascending and distinct.
* A loop with a `break` is a recursive function that returns at the `break`.
* The two `while` loops that need not end (the work list of
  `CleanupUnusedSubprograms`, the chain of `GetDeclaration`) take a bound on
  their iterations and return `none` when it is reached; dereferencing the
  result of a failed `find`, a failed `CHECK` and `back()` of an empty vector
  return `none` too.
* The headers are not among the sources: the enumerations of
  `dwarf2enums.h`, the constructor of `SubprogramInfo`, the class
  `NonOverlappingRangeMap` and the collaborators of the handler (file and
  directory tables, range decoder, section map, line reader) are modelled
  from the specification, each under a comment that says so.
* The callbacks that the DWARF reader makes on the handler during one
  traversal are a list of `DieEvent`, delivered in order by `deliverAll`.
-/

namespace Addr2line

/-! ## Data model -/

/-- An address range `[first, second)`, the `std::pair<uint64, uint64>` of
`AddressRangeList::RangeList`. -/
abbrev Range := Nat × Nat

/-- The address of a `SubprogramInfo` record. -/
abbrev Ptr := Nat

/-- The data members of `SubprogramInfo`.  The three `const char *` members
are `none` when null. -/
structure SubprogramInfo where
  input_file_index : Int
  offset : Nat
  parent : Option Ptr
  inlined : Bool
  name : String
  callsite_directory : Option String
  callsite_filename : Option String
  comp_directory : Option String
  callsite_line : Nat
  callsite_discr : Nat
  abstract_origin : Nat
  specification : Nat
  address_ranges : List Range
  used : Bool
deriving DecidableEq, Repr

/-- The records in memory. -/
abbrev Heap := Ptr → SubprogramInfo

/-- A `std::set` of pointers or of addresses: ascending, without duplicates. -/
abbrev NatSet := List Nat

/-- The member function `std::set::insert`. -/
def setInsert (a : Nat) : NatSet → NatSet
  | [] => [a]
  | b :: s => if a < b then a :: b :: s else if a = b then b :: s else b :: setInsert a s

/-- The member function `std::set::erase` by key. -/
def setErase (a : Nat) (s : NatSet) : NatSet :=
  s.filter (fun b => decide (b ≠ a))

/-! ## SortAndMerge -/

/-- The order `operator<=` of `std::pair`: lexicographic. -/
def pairLe (p q : Range) : Prop :=
  p.1 < q.1 ∨ (p.1 = q.1 ∧ p.2 ≤ q.2)

instance pairLe_decidable : DecidableRel pairLe := fun p q =>
  inferInstanceAs (Decidable (p.1 < q.1 ∨ (p.1 = q.1 ∧ p.2 ≤ q.2)))

instance pairLe_total : IsTotal Range pairLe where
  total p q := by
    unfold pairLe
    omega

instance pairLe_trans : IsTrans Range pairLe where
  trans p q r := by
    unfold pairLe
    omega

/-- The call `std::sort(rangelist.begin(), rangelist.end())`: the ascending
arrangement of the list under the pair order. -/
def sortRanges (rangelist : List Range) : List Range :=
  rangelist.insertionSort pairLe

/-- One iteration of the loop of `SortAndMerge`: `merged.back()` is the last
element of the list. -/
def mergeStep (merged : List Range) (range : Range) : List Range :=
  match merged.getLast? with
  | none => merged ++ [range]
  | some back =>
    if range.1 ≥ back.2 then merged ++ [range]
    else merged.dropLast ++ [(back.1, max range.2 back.2)]

/-- The function `InlineStackHandler::SortAndMerge`, with the member
`overlap_count_` passed in and returned. -/
def SortAndMerge (overlap_count : Nat) (rangelist : List Range) : List Range × Nat :=
  let sorted := sortRanges rangelist
  let merged := sorted.foldl mergeStep []
  (merged, if merged.length < sorted.length then overlap_count + 1 else overlap_count)

/-! ## SubprogramContains -/

/-- The inner loop of `SubprogramContains`: whether some range of `a`
encloses `b_range`. -/
def containsRange (b_range : Range) : List Range → Bool
  | [] => false
  | a_range :: rest =>
    if a_range.1 ≤ b_range.1 ∧ a_range.2 ≥ b_range.2 then true
    else containsRange b_range rest

/-- The outer loop of `SubprogramContains`, over the ranges of `b`. -/
def containsLoop (a_ranges : List Range) : List Range → Bool
  | [] => true
  | b_range :: rest =>
    if !containsRange b_range a_ranges then false
    else containsLoop a_ranges rest

/-- The function `SubprogramContains(a, b)`. -/
def SubprogramContains (a b : SubprogramInfo) : Bool :=
  containsLoop a.address_ranges b.address_ranges

/-! ## FindBadSubprograms -/

/-- Rule 1, the loop over the ranges of one record (it stops at the first
range that starts below the first load segment). -/
def rule1Ranges (vaddr_of_first_load_segment : Nat) (subprog : Ptr) :
    List Range → NatSet → NatSet
  | [], bad_subprograms => bad_subprograms
  | range :: rest, bad_subprograms =>
    if range.1 < vaddr_of_first_load_segment then setInsert subprog bad_subprograms
    else rule1Ranges vaddr_of_first_load_segment subprog rest bad_subprograms

/-- Rule 1, the body of the loop over `subprogram_insert_order_`. -/
def rule1Step (heap : Heap) (vaddr_of_first_load_segment : Nat) (bad_subprograms : NatSet)
    (subprog : Ptr) : NatSet :=
  rule1Ranges vaddr_of_first_load_segment subprog (heap subprog).address_ranges bad_subprograms

/-- Rule 1, the loop over `subprogram_insert_order_`. -/
def rule1 (heap : Heap) (vaddr_of_first_load_segment : Nat) (order : List Ptr)
    (bad_subprograms : NatSet) : NatSet :=
  order.foldl (rule1Step heap vaddr_of_first_load_segment) bad_subprograms

/-- Inserts the start of every range of one record into `start_addresses`. -/
def insertStarts : List Range → NatSet → NatSet
  | [], start_addresses => start_addresses
  | range :: rest, start_addresses => insertStarts rest (setInsert range.1 start_addresses)

/-- The body of the loop that collects the start addresses. -/
def collectStep (heap : Heap) (bad_subprograms : NatSet) (start_addresses : NatSet)
    (subprog : Ptr) : NatSet :=
  if (heap subprog).inlined then start_addresses
  else if subprog ∈ bad_subprograms then start_addresses
  else insertStarts (heap subprog).address_ranges start_addresses

/-- The loop that collects the start addresses of the non-inlined records
that are not bad. -/
def collectStarts (heap : Heap) (order : List Ptr) (bad_subprograms : NatSet) : NatSet :=
  order.foldl (collectStep heap bad_subprograms) []

/-- The member function `std::set::lower_bound`: the iterator to the first
element that is not below `min_address`, as the suffix starting there. -/
def lower_bound (min_address : Nat) : NatSet → NatSet
  | [] => []
  | s :: rest => if s < min_address then lower_bound min_address rest else s :: rest

/-- Rule 2, the loop over the ranges of one record. -/
def rule2Ranges (start_addresses : NatSet) (subprog : Ptr) :
    List Range → NatSet → NatSet
  | [], bad_subprograms => bad_subprograms
  | range :: rest, bad_subprograms =>
    let min_address := range.1
    let max_address := range.2
    let closest_match := lower_bound min_address start_addresses
    let closest_match :=
      match closest_match with
      | s :: next => if s = min_address then next else closest_match
      | [] => closest_match
    match closest_match with
    | s :: _ =>
      if s < max_address then setInsert subprog bad_subprograms
      else rule2Ranges start_addresses subprog rest bad_subprograms
    | [] => rule2Ranges start_addresses subprog rest bad_subprograms

/-- Rule 2, the body of the loop over `subprogram_insert_order_`. -/
def rule2Step (heap : Heap) (start_addresses : NatSet) (bad_subprograms : NatSet)
    (subprog : Ptr) : NatSet :=
  if (heap subprog).inlined then bad_subprograms
  else if subprog ∈ bad_subprograms then bad_subprograms
  else rule2Ranges start_addresses subprog (heap subprog).address_ranges bad_subprograms

/-- Rule 2, the loop over `subprogram_insert_order_`. -/
def rule2 (heap : Heap) (start_addresses : NatSet) (order : List Ptr)
    (bad_subprograms : NatSet) : NatSet :=
  order.foldl (rule2Step heap start_addresses) bad_subprograms

/-- The map `subprogram_index` of rule 3.  It is only ever read and written
through `operator[]`, so it is the function giving the set stored under each
key (the empty set under a key never written). -/
abbrev SubprogramIndex := Nat → NatSet

/-- The statement `subprogram_index[key].erase(p)`. -/
def indexErase (index : SubprogramIndex) (key : Nat) (p : Ptr) : SubprogramIndex :=
  fun k => if k = key then setErase p (index k) else index k

/-- The statement `subprogram_index[key].insert(p)`. -/
def indexInsert (index : SubprogramIndex) (key : Nat) (p : Ptr) : SubprogramIndex :=
  fun k => if k = key then setInsert p (index k) else index k

/-- Rule 3, the loop over the records indexed under one range start.  The
result is `keep_subprog` and `overlapping_subprograms`. -/
def rule3Others (heap : Heap) (subprog : Ptr) : List Ptr → NatSet → Bool × NatSet
  | [], overlapping_subprograms => (true, overlapping_subprograms)
  | other_subprog :: rest, overlapping_subprograms =>
    if SubprogramContains (heap other_subprog) (heap subprog) then
      (false, overlapping_subprograms)
    else rule3Others heap subprog rest (setInsert other_subprog overlapping_subprograms)

/-- Rule 3, the loop over the ranges of the current record. -/
def rule3Ranges (heap : Heap) (index : SubprogramIndex) (subprog : Ptr) :
    List Range → NatSet → Bool × NatSet
  | [], overlapping_subprograms => (true, overlapping_subprograms)
  | range :: rest, overlapping_subprograms =>
    match rule3Others heap subprog (index range.1) overlapping_subprograms with
    | (false, overlapping) => (false, overlapping)
    | (true, overlapping) => rule3Ranges heap index subprog rest overlapping

/-- Rule 3, removing one evicted record from the index under each of its
range starts. -/
def eraseRanges (bad : Ptr) : List Range → SubprogramIndex → SubprogramIndex
  | [], index => index
  | other_range :: rest, index => eraseRanges bad rest (indexErase index other_range.1 bad)

/-- Rule 3, the loop over `overlapping_subprograms`. -/
def evict (heap : Heap) : List Ptr → SubprogramIndex × NatSet → SubprogramIndex × NatSet
  | [], st => st
  | bad :: rest, st =>
    evict heap rest (eraseRanges bad (heap bad).address_ranges st.1, setInsert bad st.2)

/-- Rule 3, entering the current record under each of its range starts. -/
def insertRanges (subprog : Ptr) : List Range → SubprogramIndex → SubprogramIndex
  | [], index => index
  | range :: rest, index => insertRanges subprog rest (indexInsert index range.1 subprog)

/-- Rule 3, the body of the loop over `subprogram_insert_order_`; the state
is `subprogram_index` and `bad_subprograms`. -/
def rule3Step (heap : Heap) (st : SubprogramIndex × NatSet) (subprog : Ptr) :
    SubprogramIndex × NatSet :=
  if (heap subprog).inlined then st
  else if (heap subprog).address_ranges.length = 0 then st
  else if subprog ∈ st.2 then st
  else
    match rule3Ranges heap st.1 subprog (heap subprog).address_ranges [] with
    | (true, overlapping_subprograms) =>
      let st1 := evict heap overlapping_subprograms st
      (insertRanges subprog (heap subprog).address_ranges st1.1, st1.2)
    | (false, _) => (st.1, setInsert subprog st.2)

/-- Rule 3, the loop over `subprogram_insert_order_`. -/
def rule3 (heap : Heap) (order : List Ptr) (bad_subprograms : NatSet) : NatSet :=
  (order.foldl (rule3Step heap) (fun _ => [], bad_subprograms)).2

/-- Rule 4, the body of the backwards scan. -/
def rule4Step (heap : Heap) (bad_subprograms : NatSet) (subprog : Ptr) : NatSet :=
  match (heap subprog).parent with
  | none => bad_subprograms
  | some parent =>
    if parent ∈ bad_subprograms ∨ SubprogramContains (heap parent) (heap subprog) = false then
      setInsert subprog bad_subprograms
    else bad_subprograms

/-- Rule 4, the scan of `subprogram_insert_order_` from `rbegin()` to `rend()`. -/
def rule4 (heap : Heap) (order : List Ptr) (bad_subprograms : NatSet) : NatSet :=
  order.reverse.foldl (rule4Step heap) bad_subprograms

/-- The function `InlineStackHandler::FindBadSubprograms`: `order` is
`subprogram_insert_order_`, the last argument is the set the caller passes
in, the result is that set on return. -/
def FindBadSubprograms (heap : Heap) (vaddr_of_first_load_segment : Nat)
    (order : List Ptr) (bad_subprograms : NatSet) : NatSet :=
  let bad1 := rule1 heap vaddr_of_first_load_segment order bad_subprograms
  let start_addresses := collectStarts heap order bad1
  let bad2 := rule2 heap start_addresses order bad1
  let bad3 := rule3 heap order bad2
  rule4 heap order bad3

/-! ## CleanupUnusedSubprograms -/

/-- A `SubprogramsByOffsetMap`, the list of the entries (DIE offset, record)
of the `std::map`, in key order. -/
abbrev SubprogramsByOffsetMap := List (Nat × Ptr)

/-- The expression `subprograms_by_offset->find(key)->second`; `none` when
`find` returns `end()`, which the source dereferences without a test. -/
def mapFind (key : Nat) : SubprogramsByOffsetMap → Option Ptr
  | [] => none
  | e :: rest => if e.1 = key then some e.2 else mapFind key rest

/-- The member function `set_used` applied to the record at `p`. -/
def setUsed (heap : Heap) (p : Ptr) : Heap :=
  fun q => if q = p then { heap q with used := true } else heap q

/-- The first loop of `CleanupUnusedSubprograms`: the used records of the
map are pushed on the work list.  The work list is kept with `back()` at the
head of the list. -/
def initialWorklist (heap : Heap) (subprograms_by_offset : SubprogramsByOffsetMap) :
    List Ptr :=
  subprograms_by_offset.foldl (fun worklist offset_subprogram =>
    if (heap offset_subprogram.2).used then offset_subprogram.2 :: worklist
    else worklist) []

/-- The block run for `specification` and again for `abstract_origin` in
the work-list loop: a non-zero offset is looked up, and an unused target is
marked used and pushed. -/
def markTarget (subprograms_by_offset : SubprogramsByOffsetMap) (target : Nat)
    (st : Heap × List Ptr) : Option (Heap × List Ptr) :=
  if target ≠ 0 then
    match mapFind target subprograms_by_offset with
    | none => none
    | some info =>
      if !(st.1 info).used then some (setUsed st.1 info, info :: st.2)
      else some st
  else some st

/-- The loop `while (worklist.size())`, with a bound on the number of
iterations; `none` when the bound is reached or a lookup fails. -/
def worklistLoop (subprograms_by_offset : SubprogramsByOffsetMap) :
    Nat → Heap → List Ptr → Option Heap
  | _, heap, [] => some heap
  | 0, _, _ :: _ => none
  | fuel + 1, heap, info :: worklist =>
    let specification := (heap info).specification
    let abstract_origin := (heap info).abstract_origin
    match markTarget subprograms_by_offset specification (heap, worklist) with
    | none => none
    | some st1 =>
      match markTarget subprograms_by_offset abstract_origin st1 with
      | none => none
      | some st2 => worklistLoop subprograms_by_offset fuel st2.1 st2.2

/-- The function `InlineStackHandler::CleanupUnusedSubprograms` on the map
`subprograms_by_offset_maps_.back()`: the result is the memory, where more
records are used, and the map that replaces the old one. -/
def CleanupUnusedSubprograms (fuel : Nat) (heap : Heap)
    (subprograms_by_offset : SubprogramsByOffsetMap) :
    Option (Heap × SubprogramsByOffsetMap) :=
  match worklistLoop subprograms_by_offset fuel heap
      (initialWorklist heap subprograms_by_offset) with
  | none => none
  | some heap1 =>
    some (heap1, subprograms_by_offset.filter (fun offset_subprogram =>
      (heap1 offset_subprogram.2).used))

/-! ## GetDeclaration -/

/-- The loop of `GetDeclaration`, with a bound on the number of times its
condition is evaluated; `none` when the bound is reached or a lookup fails. -/
def declarationLoop (heap : Heap) (subprograms_by_offset : SubprogramsByOffsetMap) :
    Nat → Ptr → Option Ptr
  | 0, _ => none
  | fuel + 1, declaration =>
    if (heap declaration).name = "" ∨ (heap declaration).callsite_line = 0 then
      let specification := (heap declaration).specification
      if specification ≠ 0 then
        match mapFind specification subprograms_by_offset with
        | none => none
        | some next => declarationLoop heap subprograms_by_offset fuel next
      else
        let abstract_origin := (heap declaration).abstract_origin
        if abstract_origin ≠ 0 then
          match mapFind abstract_origin subprograms_by_offset with
          | none => none
          | some next => declarationLoop heap subprograms_by_offset fuel next
        else some declaration
    else some declaration

/-- The function `InlineStackHandler::GetDeclaration`; `none` also when the
`CHECK` on `input_file_index` fails (a negative `int` compared with the
unsigned size is above it). -/
def GetDeclaration (fuel : Nat) (heap : Heap)
    (subprograms_by_offset_maps : List SubprogramsByOffsetMap) (subprog : Ptr) :
    Option Ptr :=
  let input_file_index := (heap subprog).input_file_index
  if 0 ≤ input_file_index ∧ input_file_index < subprograms_by_offset_maps.length then
    match subprograms_by_offset_maps.get? input_file_index.toNat with
    | none => none
    | some subprograms_by_offset => declarationLoop heap subprograms_by_offset fuel subprog
  else none

/-! ## Auxiliary definitions used in the proofs -/

/-- Inclusion of sets. -/
def SetLe (s t : NatSet) : Prop := ∀ x, x ∈ s → x ∈ t

/-- The fold of `collectStarts`, from any initial set. -/
def collectStartsFrom (heap : Heap) (bad : NatSet) (order : List Ptr) (init : NatSet) : NatSet :=
  order.foldl (collectStep heap bad) init

/-- The test of rule 2 on one range: the iterator reached by `lower_bound`
and the conditional increment designates an element below `hi`. -/
def closestBelow (S : NatSet) (lo hi : Nat) : Bool :=
  match (match lower_bound lo S with
    | s :: next => if s = lo then next else lower_bound lo S
    | [] => lower_bound lo S) with
  | s :: _ => decide (s < hi)
  | [] => false

/-- The merge loop once `merged` is non-empty, with `merged.back()` held
apart as `cur`; used only in proofs. -/
def mergeFrom (cur : Range) : List Range → List Range
  | [] => [cur]
  | r :: rest =>
    if r.1 ≥ cur.2 then cur :: mergeFrom r rest
    else mergeFrom (cur.1, max r.2 cur.2) rest

/-- The invariant of rule 3 over the records processed so far: a processed
record that is not inlined and not bad is indexed under each of its range
starts, and no two such records share a range start. -/
def Rule3Inv (heap : Heap) (seen : List Ptr) (st : SubprogramIndex × NatSet) : Prop :=
  (∀ a ∈ seen, (heap a).inlined = false → a ∉ st.2 →
    ∀ r ∈ (heap a).address_ranges, a ∈ st.1 r.1) ∧
  (∀ a ∈ seen, ∀ b ∈ seen, a ≠ b → (heap a).inlined = false → (heap b).inlined = false →
    a ∉ st.2 → b ∉ st.2 →
    ∀ ra ∈ (heap a).address_ranges, ∀ rb ∈ (heap b).address_ranges, ra.1 ≠ rb.1)

/-! ## Statement-level definitions -/

/-- The list is leaf-to-root: every record of the list that has a parent
occurs at a place with no occurrence of that parent before it. -/
def LeafToRoot (heap : Heap) (order : List Ptr) : Prop :=
  ∀ r ∈ order, ∀ p, (heap r).parent = some p →
    ∃ before after, order = before ++ r :: after ∧ p ∉ before

/-- The record `r` of the list has parent `p`. -/
def ParentIn (heap : Heap) (order : List Ptr) (r p : Ptr) : Prop :=
  r ∈ order ∧ (heap r).parent = some p

/-- One specification or abstract_origin hop: the record `p` refers by a
non-zero offset to the record `q` of the map. -/
def Hop (heap : Heap) (m : SubprogramsByOffsetMap) (p q : Ptr) : Prop :=
  ((heap p).specification ≠ 0 ∧ mapFind (heap p).specification m = some q) ∨
  ((heap p).abstract_origin ≠ 0 ∧ mapFind (heap p).abstract_origin m = some q)

/-- The record `q` is reachable in zero or more hops from a used record of
the map. -/
def Live (heap : Heap) (m : SubprogramsByOffsetMap) (q : Ptr) : Prop :=
  ∃ e ∈ m, (heap e.2).used = true ∧ Relation.ReflTransGen (Hop heap m) e.2 q

/-- Every non-zero specification and abstract_origin offset of a record of
the map is a key of the map. -/
def Resolves (heap : Heap) (m : SubprogramsByOffsetMap) : Prop :=
  ∀ e ∈ m,
    ((heap e.2).specification ≠ 0 → (mapFind (heap e.2).specification m).isSome = true) ∧
    ((heap e.2).abstract_origin ≠ 0 → (mapFind (heap e.2).abstract_origin m).isSome = true)

instance Resolves_decidable (heap : Heap) (m : SubprogramsByOffsetMap) :
    Decidable (Resolves heap m) := by
  unfold Resolves
  infer_instance

/-- The number of entries of the map whose record is not used. -/
def unusedCount (heap : Heap) (m : SubprogramsByOffsetMap) : Nat :=
  m.countP (fun e => !(heap e.2).used)

/-- The invariant of the work-list loop of `CleanupUnusedSubprograms`, with
`heap0` the memory at the call. -/
structure CleanupInv (heap0 : Heap) (m : SubprogramsByOffsetMap) (heap : Heap)
    (worklist : List Ptr) : Prop where
  frame : ∀ p, heap p = heap0 p ∨ heap p = { heap0 p with used := true }
  listed : ∀ p ∈ worklist, (∃ e ∈ m, e.2 = p) ∧ (heap p).used = true
  sound : ∀ e ∈ m, (heap e.2).used = true → Live heap0 m e.2
  closed : ∀ e ∈ m, (heap e.2).used = true →
    e.2 ∈ worklist ∨ ∀ q, Hop heap0 m e.2 q → (heap q).used = true

/-- The stopping condition of `GetDeclaration` in the words of the
specification: the record has a name and a call-site line, or it has neither
a specification nor an abstract origin. -/
def declStops (heap : Heap) (d : Ptr) : Prop :=
  ((heap d).name ≠ "" ∧ (heap d).callsite_line ≠ 0) ∨
  ((heap d).specification = 0 ∧ (heap d).abstract_origin = 0)

instance declStops_decidable (heap : Heap) (d : Ptr) : Decidable (declStops heap d) := by
  unfold declStops
  infer_instance

/-- The next record on the reference chain: the specification when it is
non-zero, otherwise the abstract origin. -/
def nextOnChain (heap : Heap) (m : SubprogramsByOffsetMap) (d : Ptr) : Option Ptr :=
  if (heap d).specification ≠ 0 then mapFind (heap d).specification m
  else if (heap d).abstract_origin ≠ 0 then mapFind (heap d).abstract_origin m
  else none

/-- The record reached after `n` hops on the reference chain from `d`. -/
def chainAt (heap : Heap) (m : SubprogramsByOffsetMap) : Nat → Ptr → Option Ptr
  | 0, d => some d
  | n + 1, d =>
    match nextOnChain heap m d with
    | none => none
    | some next => chainAt heap m n next

/-- The record `d` is the first record on the reference chain from `subprog`
that meets the stopping condition, and it is `n` hops away. -/
def FirstStop (heap : Heap) (m : SubprogramsByOffsetMap) (subprog : Ptr) (n : Nat)
    (d : Ptr) : Prop :=
  chainAt heap m n subprog = some d ∧ declStops heap d ∧
  ∀ k < n, ∀ e ∈ chainAt heap m k subprog, ¬ declStops heap e

/-! ## Example records -/

/-- A record with every field unset. -/
def blankInfo : SubprogramInfo :=
  { input_file_index := 0, offset := 0, parent := none, inlined := false, name := "",
    callsite_directory := none, callsite_filename := none, comp_directory := none,
    callsite_line := 0, callsite_discr := 0, abstract_origin := 0, specification := 0,
    address_ranges := [], used := false }

/-- The memory that holds the listed records at the listed addresses. -/
def heapOfList (l : List (Ptr × SubprogramInfo)) : Heap :=
  fun p => (l.lookup p).getD blankInfo

/-- A top-level record that covers `[lo, hi)`. -/
def topLevelInfo (lo hi : Nat) : SubprogramInfo :=
  { blankInfo with address_ranges := [(lo, hi)] }

/-- An inlined record with the given parent that covers `[lo, hi)`. -/
def inlinedInfo (parent : Ptr) (lo hi : Nat) : SubprogramInfo :=
  { blankInfo with address_ranges := [(lo, hi)], inlined := true, parent := some parent }

/-- A record with the given used flag and reference offsets. -/
def referringInfo (used : Bool) (specification abstract_origin : Nat) : SubprogramInfo :=
  { blankInfo with used := used, specification := specification,
                   abstract_origin := abstract_origin }

/-- Scenario 5: `X` (at 21) is used and has `Y` as specification, `Y` (at
22) is unused and has `Z` (at 23) as abstract origin, `W` (at 24) is unused
and nothing refers to it. -/
def cleanupHeap : Heap := heapOfList
  [(21, referringInfo true 200 0),
   (22, referringInfo false 0 300),
   (23, referringInfo false 0 0),
   (24, referringInfo false 0 0)]

/-- The offset map of scenario 5: `X`, `Y`, `Z`, `W` at offsets 100 to 400. -/
def cleanupMap : SubprogramsByOffsetMap := [(100, 21), (200, 22), (300, 23), (400, 24)]

/-- A record with a name and a call-site line on top of `referringInfo`. -/
def namedInfo (name : String) (callsite_line specification abstract_origin : Nat) :
    SubprogramInfo :=
  { referringInfo false specification abstract_origin with
    name := name, callsite_line := callsite_line }

/-- Records for `GetDeclaration`: 21 refers to 22 by specification, 22 to
23 by abstract origin, 23 has a name and a line; 25 has a name, a line and a
specification. -/
def declarationHeap : Heap := heapOfList
  [(21, referringInfo true 200 0),
   (22, referringInfo false 0 300),
   (23, namedInfo "f" 7 0 0),
   (25, namedInfo "g" 3 200 0)]

/-- The offset map of the records of `declarationHeap`. -/
def declarationMap : SubprogramsByOffsetMap := [(100, 21), (200, 22), (300, 23), (500, 25)]

/-- Top-level records 1 to 7 and inlined records 8 to 11. -/
def exampleHeap : Heap := heapOfList
  [(1, topLevelInfo 0x1000 0x1100),
   (2, topLevelInfo 0x1050 0x1060),
   (3, topLevelInfo 0x2000 0x2100),
   (4, topLevelInfo 0x2000 0x2040),
   (5, topLevelInfo 0x3000 0x3040),
   (6, topLevelInfo 0x3000 0x3080),
   (7, topLevelInfo 0x100 0x200),
   (8, inlinedInfo 3 0x2010 0x2020),
   (9, inlinedInfo 8 0x2012 0x2014),
   (10, inlinedInfo 4 0x2000 0x2010),
   (11, inlinedInfo 10 0x2002 0x2004)]

/-- The record that the loop of `GetDeclaration` holds after `n` hops from
`subprog`; `none` when the loop has stopped before or a lookup has failed. -/
def followAt (heap : Heap) (m : SubprogramsByOffsetMap) (subprog : Ptr) : Nat → Option Ptr
  | 0 => some subprog
  | n + 1 =>
    match followAt heap m subprog n with
    | none => none
    | some d => if declStops heap d then none else nextOnChain heap m d

/-- The chain that `GetDeclaration` follows from `subprog` has no cycle: no
record is held after two different numbers of hops. -/
def NoCycle (heap : Heap) (m : SubprogramsByOffsetMap) (subprog : Ptr) : Prop :=
  ∀ i j d, followAt heap m subprog i = some d → followAt heap m subprog j = some d → i = j

/-! ## SubprogramInfo member functions -/

/-- The member function `SubprogramInfo::SetSingletonRangeLow`; `none` when
`CHECK_EQ(1, address_ranges_.size())` fails. -/
def SetSingletonRangeLow (info : SubprogramInfo) (addr : Nat) : Option SubprogramInfo :=
  match info.address_ranges with
  | [] => some { info with address_ranges := [(addr, 0)] }
  | [range] => some { info with address_ranges := [(addr, range.2)] }
  | _ :: _ :: _ => none

/-- The member function `SubprogramInfo::SetSingletonRangeHigh`; the sum is
a `uint64` sum, `none` when `CHECK_EQ(1, address_ranges_.size())` fails. -/
def SetSingletonRangeHigh (info : SubprogramInfo) (addr : Nat) (is_offset : Bool) :
    Option SubprogramInfo :=
  match info.address_ranges with
  | [] => some { info with address_ranges := [(0, addr)] }
  | [range] =>
    if is_offset then some { info with address_ranges := [(range.1, (range.1 + addr) % 2 ^ 64)] }
    else some { info with address_ranges := [(range.1, addr)] }
  | _ :: _ :: _ => none

/-- The final step of `CallsiteFilename`: the file name is appended when it
is not null and an empty result is replaced by `"??"`. -/
def callsiteFilenameTail (info : SubprogramInfo) (rval : String) : String :=
  let rval :=
    match info.callsite_filename with
    | some callsite_filename => rval ++ callsite_filename
    | none => rval
  if rval = "" then "??" else rval

/-- The member function `SubprogramInfo::CallsiteFilename`; `none` when the
`CHECK` that forbids `with_comp_dir` together with `basenames_only` fails. -/
def CallsiteFilename (info : SubprogramInfo) (basenames_only with_comp_dir : Bool) :
    Option String :=
  if basenames_only then
    if with_comp_dir then none
    else some (callsiteFilenameTail info "")
  else
    let rval := ""
    let rval :=
      match with_comp_dir, info.comp_directory with
      | true, some comp_directory => (rval ++ comp_directory) ++ "/"
      | _, _ => rval
    let rval :=
      match info.callsite_directory with
      | some callsite_directory => (rval ++ callsite_directory) ++ "/"
      | none => rval
    some (callsiteFilenameTail info rval)

/-- A record with a call-site directory and no call-site file name. -/
def directoryOnlyInfo : SubprogramInfo :=
  { blankInfo with callsite_directory := some "dir" }

/-! ## The handler state -/

/-- Modelled from the spec: the enumeration `DwarfTag` of `dwarf2enums.h`,
which is not among the sources: the four tags that `StartDIE` and `EndDIE`
tell apart, and one constructor for every other tag. -/
inductive DwarfTag where
  | DW_TAG_subprogram
  | DW_TAG_inlined_subroutine
  | DW_TAG_skeleton_unit
  | DW_TAG_compile_unit
  | other (code : Nat)
deriving DecidableEq, Repr

/-- Modelled from the spec: the enumeration `DwarfAttribute` of
`dwarf2enums.h`, which is not among the sources: the attributes that the
handler tells apart, and one constructor for every other attribute. -/
inductive DwarfAttribute where
  | DW_AT_name
  | DW_AT_linkage_name
  | DW_AT_MIPS_linkage_name
  | DW_AT_comp_dir
  | DW_AT_call_file
  | DW_AT_call_line
  | DW_AT_GNU_discriminator
  | DW_AT_abstract_origin
  | DW_AT_specification
  | DW_AT_low_pc
  | DW_AT_high_pc
  | DW_AT_ranges
  | DW_AT_decl_line
  | DW_AT_stmt_list
  | DW_AT_str_offsets_base
  | DW_AT_GNU_addr_base
  | DW_AT_addr_base
  | DW_AT_GNU_ranges_base
  | DW_AT_rnglists_base
  | other (code : Nat)
deriving DecidableEq, Repr

/-- Modelled from the spec: the enumeration `DwarfForm` of `dwarf2enums.h`,
which is not among the sources: the forms that the handler tells apart, and
one constructor for every other form. -/
inductive DwarfForm where
  | DW_FORM_addr
  | DW_FORM_data1
  | DW_FORM_data2
  | DW_FORM_data4
  | DW_FORM_data8
  | DW_FORM_sec_offset
  | DW_FORM_ref_addr
  | DW_FORM_ref4
  | DW_FORM_rnglistx
  | DW_FORM_implicit_const
  | DW_FORM_string
  | other (code : Nat)
deriving DecidableEq, Repr

/-- Modelled from the spec: the class `NonOverlappingRangeMap` of
`nonoverlapping_range_map.h`, which is not among the sources (section 4.5,
AddressIndex): a map whose keys are half-open intervals `[lo,hi)` no two of
which intersect and whose values are record references, with the counter of
overlaps that `insert_ranges` increments. -/
structure AddressIndex where
  entries : List (Range × Ptr)
  overlaps : Nat
deriving DecidableEq, Repr

/-- Modelled from the spec: the parts of the interval `piece` that the key
`key` does not cover. -/
def subtractRange (key piece : Range) : List Range :=
  (if piece.1 < min piece.2 key.1 then [(piece.1, min piece.2 key.1)] else []) ++
  (if max piece.1 key.2 < piece.2 then [(max piece.1 key.2, piece.2)] else [])

/-- Modelled from the spec: the parts of an incoming range that no key of
the map covers. -/
def uncovered (entries : List (Range × Ptr)) (range : Range) : List Range :=
  entries.foldl (fun pieces e => pieces.flatMap (subtractRange e.1))
    (if range.1 < range.2 then [range] else [])

/-- Modelled from the spec: `insert_ranges` for one range (section 4.5): "if
an incoming range overlaps an existing one, increment an overlap counter and
keep the first inserter".  Where a key already covers an address the first
inserter stays; the parts of the incoming range that no key covers are
entered, as the lookup of the innermost record at an address of a parent that
was inserted after its inlined children requires (section 4.8). -/
def InsertRange (index : AddressIndex) (range : Range) (value : Ptr) : AddressIndex :=
  let pieces := uncovered index.entries range
  { entries := index.entries ++ pieces.map (fun piece => (piece, value)),
    overlaps :=
      if range.1 < range.2 ∧ pieces ≠ [range] then index.overlaps + 1 else index.overlaps }

/-- Modelled from the spec: `insert_ranges(ranges, value)`, the member
function `InsertRangeList`: each range is inserted in turn. -/
def InsertRangeList (index : AddressIndex) (ranges : List Range) (value : Ptr) :
    AddressIndex :=
  ranges.foldl (fun index range => InsertRange index range value) index

/-- Modelled from the spec: `find(addr)`, the member function `Find`
followed by `->second`: the value of the key that contains `addr`, `none` for
`End()`. -/
def AddressIndex.Find (index : AddressIndex) (addr : Nat) : Option Ptr :=
  (index.entries.find? (fun e => decide (e.1.1 ≤ addr ∧ addr < e.1.2))).map Prod.snd

/-- The data members of `InlineStackHandler` that the embedded member
functions read or write.  The vectors used as stacks (`die_stack_`,
`subprogram_stack_`, `compilation_unit_comp_dir_`) have `back()` at the head
of the list; `subprogram_insert_order_` is in order of insertion.  The bases
`addr_base_`, `ranges_base_` and `str_offset_base_` are zero unless set. -/
structure InlineStackHandler where
  heap : Heap
  vaddr_of_first_load_segment : Nat
  die_stack : List DwarfTag
  subprogram_stack : List Ptr
  subprogram_insert_order : List Ptr
  subprograms_by_offset_maps : List SubprogramsByOffsetMap
  input_file_index : Int
  compilation_unit_offset : Nat
  compilation_unit_base : Nat
  have_two_level_line_tables : Bool
  subprogram_added_by_cu : Bool
  compilation_unit_comp_dir : List String
  dwarf_version : Nat
  overlap_count : Nat
  subprograms_by_address : AddressIndex
  addr_base : Nat := 0
  ranges_base : Nat := 0
  str_offset_base : Nat := 0

/-- Modelled from the spec: the constructor
`SubprogramInfo(input_file_index, offset, parent, inlined)` of
`addr2line_inlinestack.h`, which is not among the sources: the four arguments
are stored and every other member is unset (section 3.1). -/
def newSubprogramInfo (input_file_index : Int) (offset : Nat) (parent : Option Ptr)
    (inlined : Bool) : SubprogramInfo :=
  { input_file_index := input_file_index, offset := offset, parent := parent,
    inlined := inlined, name := "", callsite_directory := none, callsite_filename := none,
    comp_directory := none, callsite_line := 0, callsite_discr := 0, abstract_origin := 0,
    specification := 0, address_ranges := [], used := false }

/-- The member function `std::map::insert`: an entry whose key is present
is left as it is. -/
def mapInsert (key : Nat) (p : Ptr) : SubprogramsByOffsetMap → SubprogramsByOffsetMap
  | [] => [(key, p)]
  | e :: rest =>
    if key < e.1 then (key, p) :: e :: rest
    else if key = e.1 then e :: rest
    else e :: mapInsert key p rest

/-- The store of a record at an address. -/
def heapStore (heap : Heap) (p : Ptr) (info : SubprogramInfo) : Heap :=
  fun q => if q = p then info else heap q

/-- The function `InlineStackHandler::NeedSplitDebugInfo`. -/
def NeedSplitDebugInfo (h : InlineStackHandler) : Bool :=
  !h.subprogram_added_by_cu

/-- The function `InlineStackHandler::StartDIE`.  The argument `attrs` is not
used by the source and is left out; `child` is the address that
`new SubprogramInfo` returns.  The result is `none` when
`subprograms_by_offset_maps_[input_file_index_]` is out of range. -/
def StartDIE (h : InlineStackHandler) (offset : Nat) (tag : DwarfTag) (child : Ptr) :
    Option (InlineStackHandler × Bool) :=
  let h1 := { h with die_stack := tag :: h.die_stack }
  if tag = DwarfTag.DW_TAG_subprogram ∨ tag = DwarfTag.DW_TAG_inlined_subroutine then
    if h1.have_two_level_line_tables then some (h1, false)
    else
      let inlined := decide (tag = DwarfTag.DW_TAG_inlined_subroutine)
      let parent := h1.subprogram_stack.head?
      let info := newSubprogramInfo h1.input_file_index offset parent inlined
      let info :=
        match h1.compilation_unit_comp_dir with
        | comp_dir :: _ => { info with comp_directory := some comp_dir }
        | [] => info
      if 0 ≤ h1.input_file_index then
        match h1.subprograms_by_offset_maps.get? h1.input_file_index.toNat with
        | none => none
        | some subprograms_by_offset =>
          some ({ h1 with
                  heap := heapStore h1.heap child info,
                  subprograms_by_offset_maps :=
                    h1.subprograms_by_offset_maps.set h1.input_file_index.toNat
                      (mapInsert offset child subprograms_by_offset),
                  subprogram_stack := child :: h1.subprogram_stack,
                  subprogram_added_by_cu := true }, true)
      else none
  else if tag = DwarfTag.DW_TAG_skeleton_unit ∨ tag = DwarfTag.DW_TAG_compile_unit then
    some (h1, true)
  else some (h1, false)

/-- The function `InlineStackHandler::EndDIE` (its argument is not used);
`none` when `back()` or `front()` is taken of an empty vector. -/
def EndDIE (h : InlineStackHandler) (_offset : Nat) : Option InlineStackHandler :=
  match h.die_stack with
  | [] => none
  | die :: die_rest =>
    let h1 := { h with die_stack := die_rest }
    if (die = DwarfTag.DW_TAG_subprogram ∨ die = DwarfTag.DW_TAG_inlined_subroutine) ∧
        h1.have_two_level_line_tables = false then
      match h1.subprogram_stack.getLast?, h1.subprogram_stack with
      | some front, back :: stack_rest =>
        let heap1 := if (h1.heap front).used then setUsed h1.heap back else h1.heap
        let order1 :=
          if (heap1 front).used then h1.subprogram_insert_order ++ [back]
          else h1.subprogram_insert_order
        some { h1 with heap := heap1, subprogram_insert_order := order1,
                       subprogram_stack := stack_rest }
      | _, _ => none
    else some h1

/-- The function `InlineStackHandler::ProcessAttributeString` (the offset
and the form are not used). -/
def ProcessAttributeString (h : InlineStackHandler) (_offset : Nat)
    (attr : DwarfAttribute) (_form : DwarfForm) (data : String) : InlineStackHandler :=
  let h1 :=
    if attr = DwarfAttribute.DW_AT_comp_dir then
      { h with compilation_unit_comp_dir := data :: h.compilation_unit_comp_dir }
    else h
  match h1.subprogram_stack with
  | [] => h1
  | back :: _ =>
    if attr = DwarfAttribute.DW_AT_MIPS_linkage_name ∨
        attr = DwarfAttribute.DW_AT_linkage_name then
      { h1 with heap := heapStore h1.heap back { h1.heap back with name := data } }
    else if attr = DwarfAttribute.DW_AT_name ∧ (h1.heap back).name = "" then
      { h1 with heap := heapStore h1.heap back { h1.heap back with name := data } }
    else h1

/-- The function `InlineStackHandler::PopulateSubprogramsByAddress` (the
member `address_ranges_`, which it sets to null, and the log line are left
out). -/
def PopulateSubprogramsByAddress (h : InlineStackHandler) : InlineStackHandler :=
  let bad_subprograms :=
    FindBadSubprograms h.heap h.vaddr_of_first_load_segment h.subprogram_insert_order []
  let subprograms_by_address :=
    h.subprogram_insert_order.foldl (fun index subprog =>
      if subprog ∈ bad_subprograms then index
      else InsertRangeList index (h.heap subprog).address_ranges subprog)
      h.subprograms_by_address
  { h with subprograms_by_address := subprograms_by_address, subprogram_insert_order := [] }

/-- The function `InlineStackHandler::GetSubprogramForAddress`; `none` is
`NULL`. -/
def GetSubprogramForAddress (h : InlineStackHandler) (address : Nat) : Option Ptr :=
  h.subprograms_by_address.Find address

/-- A handler right after construction, over the given memory. -/
def initialHandler (heap : Heap) (vaddr_of_first_load_segment : Nat) : InlineStackHandler :=
  { heap := heap, vaddr_of_first_load_segment := vaddr_of_first_load_segment,
    die_stack := [], subprogram_stack := [], subprogram_insert_order := [],
    subprograms_by_offset_maps := [], input_file_index := -1, compilation_unit_offset := 0,
    compilation_unit_base := 0, have_two_level_line_tables := false,
    subprogram_added_by_cu := false, compilation_unit_comp_dir := [], dwarf_version := 0,
    overlap_count := 0, subprograms_by_address := { entries := [], overlaps := 0 } }

/-- A handler inside a compilation unit whose line table is two-level: one
offset map, a compile-unit DIE open, no subprogram added yet. -/
def twoLevelHandler : InlineStackHandler :=
  { initialHandler exampleHeap 0x1000 with
    die_stack := [DwarfTag.DW_TAG_compile_unit], subprograms_by_offset_maps := [[]],
    input_file_index := 0, have_two_level_line_tables := true }

/-- A handler with record 3 of the example on top of the subprogram stack. -/
def namingHandler : InlineStackHandler :=
  { initialHandler exampleHeap 0x1000 with
    die_stack := [DwarfTag.DW_TAG_subprogram, DwarfTag.DW_TAG_compile_unit],
    subprogram_stack := [3], subprograms_by_offset_maps := [[(0x30, 3)]],
    input_file_index := 0 }

/-- The attribute is one of the two linkage-name attributes. -/
def isLinkageName (attr : DwarfAttribute) : Bool :=
  decide (attr = DwarfAttribute.DW_AT_MIPS_linkage_name ∨
    attr = DwarfAttribute.DW_AT_linkage_name)

/-- The delivery of a sequence of string attributes (attribute, data) to the
handler by `ProcessAttributeString`. -/
def processStrings (h : InlineStackHandler) (offset : Nat) (form : DwarfForm)
    (attrs : List (DwarfAttribute × String)) : InlineStackHandler :=
  attrs.foldl (fun h a => ProcessAttributeString h offset a.1 form a.2) h

/-- The name of the top record after one name attribute, from its name
before. -/
def stepName (name : String) (a : DwarfAttribute × String) : String :=
  if isLinkageName a.1 = true then a.2
  else if a.1 = DwarfAttribute.DW_AT_name ∧ name = "" then a.2
  else name

/-- The value of the last linkage-name attribute of the sequence. -/
def lastLinkageName (attrs : List (DwarfAttribute × String)) : Option String :=
  (attrs.filter (fun a => isLinkageName a.1)).getLast?.map Prod.snd

/-- The first non-empty value of the sequence, the empty string when there
is none. -/
def firstNonEmpty (attrs : List (DwarfAttribute × String)) : String :=
  ((attrs.map Prod.snd).find? (fun s => decide (s ≠ ""))).getD ""

/-- The attributes of the sequence that arrive after its last linkage-name
attribute; the whole sequence when it has none. -/
def afterLastLinkageName (attrs : List (DwarfAttribute × String)) :
    List (DwarfAttribute × String) :=
  (attrs.reverse.takeWhile (fun a => !isLinkageName a.1)).reverse

/-- A nested record: `P` (at 33, offset 100) is an unused top-level record,
`Y` (at 32, offset 200) is an unused record whose parent is `P`, and `X` (at
31, offset 300) is a used record whose abstract origin is `Y`. -/
def nestedHeap : Heap := heapOfList
  [(31, referringInfo true 0 200),
   (32, { referringInfo false 0 0 with parent := some 33 }),
   (33, referringInfo false 0 0)]

/-- The offset map of the records of `nestedHeap`. -/
def nestedMap : SubprogramsByOffsetMap := [(100, 33), (200, 32), (300, 31)]

/-- A used parent and its used child: `P` (at 41, offset 100) and `C` (at
42, offset 200, parent `P`). -/
def familyHeap : Heap := heapOfList
  [(41, referringInfo true 0 0),
   (42, { referringInfo true 0 0 with parent := some 41 })]

/-- The offset map of the records of `familyHeap`. -/
def familyMap : SubprogramsByOffsetMap := [(100, 41), (200, 42)]

/-- The non-bad records of the insertion order that have a range containing
`pc`, in order of insertion. -/
def coveringRecords (h : InlineStackHandler) (pc : Nat) : List Ptr :=
  h.subprogram_insert_order.filter (fun subprog =>
    decide (subprog ∉ FindBadSubprograms h.heap h.vaddr_of_first_load_segment
      h.subprogram_insert_order []) &&
    (h.heap subprog).address_ranges.any (fun range => decide (range.1 ≤ pc ∧ pc < range.2)))

/-- A handler at the end of ingestion: record 3 of the example and the
record 8 inlined into it, in insertion order (leaf first). -/
def nestedInlineHandler : InlineStackHandler :=
  { initialHandler exampleHeap 0x1000 with subprogram_insert_order := [8, 3] }

/-! ## Rule 3 with the enumeration order of the pointer sets left open -/

/-- Rule 3, the loop over the ranges of the current record, where the set of
records indexed under a range start is enumerated in the order `enum` gives
instead of the order of the addresses. -/
def rule3RangesWith (enum : NatSet → List Ptr) (heap : Heap) (index : SubprogramIndex)
    (subprog : Ptr) : List Range → NatSet → Bool × NatSet
  | [], overlapping_subprograms => (true, overlapping_subprograms)
  | range :: rest, overlapping_subprograms =>
    match rule3Others heap subprog (enum (index range.1)) overlapping_subprograms with
    | (false, overlapping) => (false, overlapping)
    | (true, overlapping) => rule3RangesWith enum heap index subprog rest overlapping

/-- Rule 3, the body of the loop over `subprogram_insert_order_`, where the
sets `subprogram_index[range.first]` and `overlapping_subprograms` are
enumerated in the order `enum` gives. -/
def rule3StepWith (enum : NatSet → List Ptr) (heap : Heap) (st : SubprogramIndex × NatSet)
    (subprog : Ptr) : SubprogramIndex × NatSet :=
  if (heap subprog).inlined then st
  else if (heap subprog).address_ranges.length = 0 then st
  else if subprog ∈ st.2 then st
  else
    match rule3RangesWith enum heap st.1 subprog (heap subprog).address_ranges [] with
    | (true, overlapping_subprograms) =>
      let st1 := evict heap (enum overlapping_subprograms) st
      (insertRanges subprog (heap subprog).address_ranges st1.1, st1.2)
    | (false, _) => (st.1, setInsert subprog st.2)

/-- Rule 3 under the enumeration `enum`. -/
def rule3With (enum : NatSet → List Ptr) (heap : Heap) (order : List Ptr)
    (bad_subprograms : NatSet) : NatSet :=
  (order.foldl (rule3StepWith enum heap) (fun _ => [], bad_subprograms)).2

/-- The function `FindBadSubprograms` under the enumeration `enum` of the
pointer sets of rule 3; with `enum` the identity it is `FindBadSubprograms`. -/
def FindBadSubprogramsWith (enum : NatSet → List Ptr) (heap : Heap)
    (vaddr_of_first_load_segment : Nat) (order : List Ptr) (bad_subprograms : NatSet) :
    NatSet :=
  let bad1 := rule1 heap vaddr_of_first_load_segment order bad_subprograms
  let start_addresses := collectStarts heap order bad1
  let bad2 := rule2 heap start_addresses order bad1
  let bad3 := rule3With enum heap order bad2
  rule4 heap order bad3

/-- An enumeration of the sets: each set is listed with exactly its
members. -/
def Enumerates (enum : NatSet → List Ptr) : Prop :=
  ∀ (s : NatSet) (x : Ptr), x ∈ enum s ↔ x ∈ s

/-- The three outcomes of one step of rule 3 from the state `st` at the
record `p`, as a relation to the state `res` after the step. -/
def Rule3Outcome (heap : Heap) (st : SubprogramIndex × NatSet) (p : Ptr)
    (res : SubprogramIndex × NatSet) : Prop :=
  (((heap p).inlined = true ∨ (heap p).address_ranges = [] ∨ p ∈ st.2) ∧ res = st) ∨
  ((heap p).inlined = false ∧ (heap p).address_ranges ≠ [] ∧ p ∉ st.2 ∧
    (∃ r ∈ (heap p).address_ranges, ∃ o ∈ st.1 r.1,
      SubprogramContains (heap o) (heap p) = true) ∧
    res = (st.1, setInsert p st.2)) ∨
  ((heap p).inlined = false ∧ (heap p).address_ranges ≠ [] ∧ p ∉ st.2 ∧
    (∀ r ∈ (heap p).address_ranges, ∀ o ∈ st.1 r.1,
      SubprogramContains (heap o) (heap p) = false) ∧
    ∃ ov : List Ptr, (∀ x, x ∈ ov ↔ ∃ r ∈ (heap p).address_ranges, x ∈ st.1 r.1) ∧
      res = (insertRanges p (heap p).address_ranges (evict heap ov st).1,
        (evict heap ov st).2))

/-- Two states of rule 3 with the same members: the same records under each
key of the index and the same bad records. -/
def SameMembers (st st1 : SubprogramIndex × NatSet) : Prop :=
  (∀ k x, x ∈ st.1 k ↔ x ∈ st1.1 k) ∧ (∀ x, x ∈ st.2 ↔ x ∈ st1.2)

/-- Three top-level records: 51 covers `[0x100,0x110)`, 52 covers
`[0x200,0x210)`, and 53 covers `[0x100,0x108)` and `[0x200,0x208)`, so that 53
shares a range start with each of the other two. -/
def duplicateHeap : Heap := heapOfList
  [(51, topLevelInfo 0x100 0x110),
   (52, topLevelInfo 0x200 0x210),
   (53, { blankInfo with address_ranges := [(0x100, 0x108), (0x200, 0x208)] })]

/-! ## Covered addresses -/

/-- The address `x` lies in some range `[lo, hi)` of the list. -/
def Covered (ranges : List Range) (x : Nat) : Prop :=
  ∃ r ∈ ranges, r.1 ≤ x ∧ x < r.2

instance Covered_decidable (ranges : List Range) (x : Nat) : Decidable (Covered ranges x) := by
  unfold Covered
  infer_instance

/-- A function whose range list is the output of `SortAndMerge` on two
ranges that touch: `[0x1000, 0x1040)` and `[0x1040, 0x1080)`. -/
def adjacentParent : SubprogramInfo :=
  { blankInfo with address_ranges := (SortAndMerge 0 [(0x1000, 0x1040), (0x1040, 0x1080)]).1 }

/-- A record whose range list is the output of `SortAndMerge` on the one
range `[0x1000, 0x1080)`. -/
def spanningChild : SubprogramInfo :=
  { blankInfo with address_ranges := (SortAndMerge 0 [(0x1000, 0x1080)]).1 }

/-! ## The attribute callbacks with numeric data -/

/-- Modelled from the spec: the collaborators that the handler holds by
pointer and whose classes are not among the sources (section 3.3 and the
component RangeDecoder): the file table (pairs of directory index and name)
and the directory table of the current unit, null as `none`; the optional set
of sampled function addresses; the two decoders of range lists and the index
lookup of `.debug_rnglists`; which of the sections `.debug_line`,
`.debug_line_str`, `.debug_str` and `.debug_str_offsets` the section map
holds; and the answer `have_two_level_line_tables()` of the line reader
started at an offset of `.debug_line` with a string-offsets base. -/
structure Collaborators where
  file_names : Option (List (Int × Option String))
  directory_names : Option (List (Option String))
  sampled_functions : Option (List Nat)
  ReadRangeList : Nat → Nat → Nat → List Range
  GetRngListsElementOffsetByIndex : Nat → Nat → Nat
  ReadDwarfRngListwithOffsetArray : Nat → Nat → Nat → Nat → List Range
  has_debug_line : Bool
  has_debug_line_str : Bool
  has_debug_str : Bool
  has_debug_str_offsets : Bool
  have_two_level_line_tables : Nat → Nat → Bool

/-- The store of a record of the subprogram stack. -/
def storeRecord (h : InlineStackHandler) (p : Ptr) (info : SubprogramInfo) :
    InlineStackHandler :=
  { h with heap := heapStore h.heap p info }

/-- The body shared by the case `DW_AT_call_file` of both numeric callbacks,
after the test of the file number: `index` is in the range of the file table.
The top of the subprogram stack is `subprogram_stack_.back()`; `none` when the
stack is empty. -/
def setCallsiteFile (c : Collaborators) (h : InlineStackHandler)
    (file_names : List (Int × Option String)) (index : Nat) : Option InlineStackHandler :=
  match file_names.get? index with
  | none => none
  | some file =>
    match h.subprogram_stack with
    | [] => none
    | back :: _ =>
      let info := h.heap back
      let info :=
        match c.directory_names with
        | some directory_names =>
          if 0 ≤ file.1 ∧ file.1.toNat < directory_names.length then
            { info with callsite_directory := (directory_names.get? file.1.toNat).join }
          else info
        | none => info
      some (storeRecord h back { info with callsite_filename := file.2 })

/-- The loops of the case `DW_AT_ranges` that mark the top-level record used:
with a set of sampled functions, when some range starts at a sampled address;
without one, when some range does not start at zero. -/
def rangesMarkUsed (c : Collaborators) (ranges : List Range) : Bool :=
  match c.sampled_functions with
  | some sampled_functions => ranges.any (fun range => decide (range.1 ∈ sampled_functions))
  | none => ranges.any (fun range => decide (range.1 ≠ 0))

/-- The branch of `ProcessAttributeUnsigned` taken when the subprogram stack
is not empty; `back` is its top. -/
def processSubprogramAttribute (c : Collaborators) (h : InlineStackHandler) (back : Ptr)
    (attr : DwarfAttribute) (form : DwarfForm) (data : Nat) : Option InlineStackHandler :=
  let isData124 := form = DwarfForm.DW_FORM_data1 ∨ form = DwarfForm.DW_FORM_data2 ∨
    form = DwarfForm.DW_FORM_data4
  match attr with
  | DwarfAttribute.DW_AT_call_file =>
    if data = 0 then some h
    else
      match c.file_names with
      | none => none
      | some file_names =>
        if data ≥ file_names.length then some h
        else setCallsiteFile c h file_names data
  | DwarfAttribute.DW_AT_GNU_addr_base => some { h with addr_base := data }
  | DwarfAttribute.DW_AT_addr_base => some { h with addr_base := data }
  | DwarfAttribute.DW_AT_GNU_ranges_base => some { h with ranges_base := data }
  | DwarfAttribute.DW_AT_rnglists_base => some { h with ranges_base := data }
  | DwarfAttribute.DW_AT_call_line =>
    if isData124 then some (storeRecord h back { h.heap back with callsite_line := data })
    else none
  | DwarfAttribute.DW_AT_GNU_discriminator =>
    if isData124 then some (storeRecord h back { h.heap back with callsite_discr := data })
    else none
  | DwarfAttribute.DW_AT_abstract_origin =>
    if form = DwarfForm.DW_FORM_ref_addr then
      some (storeRecord h back { h.heap back with abstract_origin := data })
    else if form = DwarfForm.DW_FORM_ref4 then
      some (storeRecord h back
        { h.heap back with abstract_origin := (h.compilation_unit_offset + data) % 2 ^ 64 })
    else none
  | DwarfAttribute.DW_AT_specification =>
    if form = DwarfForm.DW_FORM_ref_addr then
      some (storeRecord h back { h.heap back with specification := data })
    else if form = DwarfForm.DW_FORM_ref4 then
      some (storeRecord h back
        { h.heap back with specification := (h.compilation_unit_offset + data) % 2 ^ 64 })
    else none
  | DwarfAttribute.DW_AT_low_pc =>
    match SetSingletonRangeLow (h.heap back) data with
    | none => none
    | some info =>
      let h1 := storeRecord h back info
      if h1.subprogram_stack.length ≠ 1 then some h1
      else
        match h1.subprogram_stack.getLast? with
        | none => none
        | some front =>
          match c.sampled_functions with
          | some sampled_functions =>
            if data ∈ sampled_functions then some { h1 with heap := setUsed h1.heap front }
            else some h1
          | none =>
            if data ≠ 0 then some { h1 with heap := setUsed h1.heap front }
            else some h1
  | DwarfAttribute.DW_AT_high_pc =>
    match SetSingletonRangeHigh (h.heap back) data (decide (form ≠ DwarfForm.DW_FORM_addr)) with
    | none => none
    | some info => some (storeRecord h back info)
  | DwarfAttribute.DW_AT_ranges =>
    if (h.heap back).address_ranges.length = 0 then
      let decoded : Option (List Range) :=
        if form = DwarfForm.DW_FORM_sec_offset ∨ form = DwarfForm.DW_FORM_data4 ∨
            form = DwarfForm.DW_FORM_data8 then
          some (c.ReadRangeList data h.compilation_unit_base h.dwarf_version)
        else if form = DwarfForm.DW_FORM_rnglistx then
          some (c.ReadDwarfRngListwithOffsetArray
            (c.GetRngListsElementOffsetByIndex h.ranges_base data)
            h.compilation_unit_base h.addr_base h.ranges_base)
        else none
      match decoded with
      | none => none
      | some ranges =>
        match h.subprogram_stack.getLast? with
        | none => none
        | some front =>
          let heap1 :=
            if h.subprogram_stack.length = 1 ∧ rangesMarkUsed c ranges = true then
              setUsed h.heap front
            else h.heap
          let sorted_ranges := SortAndMerge h.overlap_count ranges
          some { h with
            heap := heapStore heap1 back { heap1 back with address_ranges := sorted_ranges.1 },
            overlap_count := sorted_ranges.2 }
    else none
  | DwarfAttribute.DW_AT_decl_line =>
    match h.die_stack with
    | [] => none
    | die :: _ =>
      if die = DwarfTag.DW_TAG_subprogram then
        some (storeRecord h back { h.heap back with callsite_line := data })
      else some h
  | _ => some h

/-- The branch of `ProcessAttributeUnsigned` taken when the subprogram stack
is empty and the innermost open DIE is a compilation or skeleton unit.  In the
case `DW_AT_stmt_list` the iterator of `.debug_line_str` is dereferenced when
`.debug_str` or `.debug_str_offsets` is present: `none` when it is the end
iterator, and when the `CHECK` of `.debug_line` fails. -/
def processUnitAttribute (c : Collaborators) (h : InlineStackHandler)
    (attr : DwarfAttribute) (form : DwarfForm) (data : Nat) : Option InlineStackHandler :=
  match attr with
  | DwarfAttribute.DW_AT_low_pc => some { h with compilation_unit_base := data }
  | DwarfAttribute.DW_AT_stmt_list =>
    if c.has_debug_line = false then none
    else if (c.has_debug_str = true ∨ c.has_debug_str_offsets = true) ∧
        c.has_debug_line_str = false then none
    else
      some { h with
        have_two_level_line_tables := c.have_two_level_line_tables data h.str_offset_base }
  | DwarfAttribute.DW_AT_str_offsets_base => some { h with str_offset_base := data }
  | DwarfAttribute.DW_AT_ranges =>
    if form = DwarfForm.DW_FORM_sec_offset ∨ form = DwarfForm.DW_FORM_data4 ∨
        form = DwarfForm.DW_FORM_data8 then
      some { h with ranges_base := data }
    else none
  | DwarfAttribute.DW_AT_GNU_ranges_base => some { h with ranges_base := data }
  | DwarfAttribute.DW_AT_rnglists_base => some { h with ranges_base := data }
  | DwarfAttribute.DW_AT_GNU_addr_base => some { h with addr_base := data }
  | DwarfAttribute.DW_AT_addr_base => some { h with addr_base := data }
  | _ => some h

/-- The function `InlineStackHandler::ProcessAttributeUnsigned` (the offset
is not used); `none` when a `CHECK` fails, when `back()` of the empty DIE
stack is taken or when a null or end pointer is dereferenced. -/
def ProcessAttributeUnsigned (c : Collaborators) (h : InlineStackHandler) (_offset : Nat)
    (attr : DwarfAttribute) (form : DwarfForm) (data : Nat) : Option InlineStackHandler :=
  match h.subprogram_stack with
  | back :: _ => processSubprogramAttribute c h back attr form data
  | [] =>
    match h.die_stack with
    | [] => none
    | die :: _ =>
      if die = DwarfTag.DW_TAG_compile_unit ∨ die = DwarfTag.DW_TAG_skeleton_unit then
        processUnitAttribute c h attr form data
      else some h

/-- The function `InlineStackHandler::ProcessAttributeSigned` (the offset is
not used).  The function does not test whether the subprogram stack is empty:
`none` when `subprogram_stack_.back()` is taken of the empty stack, when a
`CHECK` fails or when the null file table is dereferenced.  The comparison
`data >= file_names_->size()` is made in the unsigned type, where a negative
`data` is a large number; the line is stored as the `uint64` of `data`. -/
def ProcessAttributeSigned (c : Collaborators) (h : InlineStackHandler) (_offset : Nat)
    (attr : DwarfAttribute) (form : DwarfForm) (data : Int) : Option InlineStackHandler :=
  match attr with
  | DwarfAttribute.DW_AT_call_file =>
    if form = DwarfForm.DW_FORM_implicit_const then
      if data = 0 then some h
      else
        match c.file_names with
        | none => none
        | some file_names =>
          if (data % 2 ^ 64).toNat ≥ file_names.length then some h
          else setCallsiteFile c h file_names (data % 2 ^ 64).toNat
    else none
  | DwarfAttribute.DW_AT_call_line =>
    if form = DwarfForm.DW_FORM_implicit_const then
      match h.subprogram_stack with
      | [] => none
      | back :: _ =>
        some (storeRecord h back { h.heap back with callsite_line := (data % 2 ^ 64).toNat })
    else none
  | _ => some h

/-- The function `InlineStackHandler::StartCompilationUnit` (the address
size, the offset size and the unit length are not used); `none` when
`CHECK(subprogram_stack_.empty())` fails.  The new offset map is pushed at the
back of the vector of maps. -/
def StartCompilationUnit (h : InlineStackHandler) (offset : Nat) (dwarf_version : Nat) :
    Option (InlineStackHandler × Bool) :=
  if h.subprogram_stack = [] then
    let h1 :=
      { h with compilation_unit_offset := offset, compilation_unit_base := 0,
               have_two_level_line_tables := false, subprogram_added_by_cu := false }
    let h2 :=
      if h1.input_file_index = -1 then
        { h1 with input_file_index := 0,
                  subprograms_by_offset_maps := h1.subprograms_by_offset_maps ++ [[]] }
      else h1
    some ({ h2 with dwarf_version := dwarf_version }, true)
  else none
/-! ## The sequence of callbacks of one traversal -/

/-- One callback of the DWARF reader on the handler; `child` of `StartDIE` is
the address that `new SubprogramInfo` returns if the callback allocates. -/
inductive DieEvent where
  | StartDIE (offset : Nat) (tag : DwarfTag) (child : Ptr)
  | ProcessAttributeUnsigned (offset : Nat) (attr : DwarfAttribute) (form : DwarfForm)
      (data : Nat)
  | ProcessAttributeSigned (offset : Nat) (attr : DwarfAttribute) (form : DwarfForm)
      (data : Int)
  | ProcessAttributeString (offset : Nat) (attr : DwarfAttribute) (form : DwarfForm)
      (data : String)
  | EndDIE (offset : Nat)

/-- The handler after one callback; `none` when the callback fails. -/
def deliver (c : Collaborators) (h : InlineStackHandler) : DieEvent → Option InlineStackHandler
  | DieEvent.StartDIE offset tag child => (StartDIE h offset tag child).map Prod.fst
  | DieEvent.ProcessAttributeUnsigned offset attr form data =>
    ProcessAttributeUnsigned c h offset attr form data
  | DieEvent.ProcessAttributeSigned offset attr form data =>
    ProcessAttributeSigned c h offset attr form data
  | DieEvent.ProcessAttributeString offset attr form data =>
    some (ProcessAttributeString h offset attr form data)
  | DieEvent.EndDIE offset => EndDIE h offset

/-- The handler after a sequence of callbacks, delivered in order. -/
def deliverAll (c : Collaborators) (h : InlineStackHandler) :
    List DieEvent → Option InlineStackHandler
  | [] => some h
  | e :: events =>
    match deliver c h e with
    | none => none
    | some h1 => deliverAll c h1 events

/-- The addresses that the allocations of a sequence of callbacks return: one
for every `StartDIE` of a subprogram or an inlined subroutine. -/
def allocations : List DieEvent → List Ptr
  | [] => []
  | DieEvent.StartDIE _ tag child :: events =>
    if tag = DwarfTag.DW_TAG_subprogram ∨ tag = DwarfTag.DW_TAG_inlined_subroutine then
      child :: allocations events
    else allocations events
  | _ :: events => allocations events

/-- The record `r` stands in the list before the record `p`. -/
def Precedes (order : List Ptr) (r p : Ptr) : Prop :=
  ∃ l1 l2 l3, order = l1 ++ r :: (l2 ++ p :: l3)

/-- The insertion order lists no record twice, and every listed record that
has a parent stands before its parent, which is listed too. -/
def ParentsFollow (heap : Heap) (order : List Ptr) : Prop :=
  order.Nodup ∧ ∀ r ∈ order, ∀ p, (heap r).parent = some p → Precedes order r p

/-- Every record of the subprogram stack has the record below it as parent,
and the bottom record has none. -/
def StackChain (heap : Heap) : List Ptr → Prop
  | [] => True
  | s :: rest => (heap s).parent = rest.head? ∧ StackChain heap rest

/-- The invariant of the traversal over the addresses `taken` so far: the
stack and the insertion order hold taken addresses, each once and none in
both; the stack is a parent chain; a listed record has its parent on the
stack or later in the list; and when a listed record has its parent on the
stack, the bottom of the stack is used. -/
structure TraversalInv (taken : List Ptr) (h : InlineStackHandler) : Prop where
  order_nodup : h.subprogram_insert_order.Nodup
  stack_nodup : h.subprogram_stack.Nodup
  stack_not_listed : ∀ x ∈ h.subprogram_stack, x ∉ h.subprogram_insert_order
  stack_taken : ∀ x ∈ h.subprogram_stack, x ∈ taken
  order_taken : ∀ x ∈ h.subprogram_insert_order, x ∈ taken
  chain : StackChain h.heap h.subprogram_stack
  parents : ∀ r ∈ h.subprogram_insert_order, ∀ p, (h.heap r).parent = some p →
    p ∈ h.subprogram_stack ∨ Precedes h.subprogram_insert_order r p
  front_used : (∃ r ∈ h.subprogram_insert_order, ∃ p ∈ h.subprogram_stack,
      (h.heap r).parent = some p) →
    ∃ front, h.subprogram_stack.getLast? = some front ∧ (h.heap front).used = true

/-- The callback left the stack, the insertion order and every parent link
as they were, and cleared no `used` flag. -/
def SameShape (h h1 : InlineStackHandler) : Prop :=
  h1.subprogram_stack = h.subprogram_stack ∧
  h1.subprogram_insert_order = h.subprogram_insert_order ∧
  ∀ p, (h1.heap p).parent = (h.heap p).parent ∧
    ((h.heap p).used = true → (h1.heap p).used = true)

/-- Collaborators of a unit with two files in one directory, no set of
sampled functions, empty range lists and a one-level line table. -/
def exampleCollaborators : Collaborators :=
  { file_names := some [(0, some "unit.cc"), (0, some "inline.h")],
    directory_names := some [some "/src"],
    sampled_functions := none,
    ReadRangeList := fun _ _ _ => [],
    GetRngListsElementOffsetByIndex := fun _ _ => 0,
    ReadDwarfRngListwithOffsetArray := fun _ _ _ _ => [],
    has_debug_line := true, has_debug_line_str := true, has_debug_str := true,
    has_debug_str_offsets := false,
    have_two_level_line_tables := fun _ _ => false }

/-- A handler inside a compilation unit with a one-level line table: one
offset map, the compile-unit DIE open, the subprogram stack empty. -/
def unitHandler : InlineStackHandler :=
  { initialHandler (heapOfList []) 0x1000 with
    die_stack := [DwarfTag.DW_TAG_compile_unit], subprograms_by_offset_maps := [[]],
    input_file_index := 0 }

/-- The callbacks of a compile unit with one function at `[0x1000, 0x1100)`,
a subroutine inlined into it at `[0x1010, 0x1040)` and a subroutine inlined
into that one at `[0x1020, 0x1030)`; the records are allocated at 1, 2, 3. -/
def nestedEvents : List DieEvent :=
  [DieEvent.StartDIE 0x0b DwarfTag.DW_TAG_compile_unit 0,
   DieEvent.ProcessAttributeUnsigned 0x0b DwarfAttribute.DW_AT_stmt_list
     DwarfForm.DW_FORM_sec_offset 0,
   DieEvent.StartDIE 0x2d DwarfTag.DW_TAG_subprogram 1,
   DieEvent.ProcessAttributeString 0x2d DwarfAttribute.DW_AT_name DwarfForm.DW_FORM_string
     "outer",
   DieEvent.ProcessAttributeUnsigned 0x2d DwarfAttribute.DW_AT_low_pc DwarfForm.DW_FORM_addr
     0x1000,
   DieEvent.ProcessAttributeUnsigned 0x2d DwarfAttribute.DW_AT_high_pc
     DwarfForm.DW_FORM_data4 0x100,
   DieEvent.StartDIE 0x4a DwarfTag.DW_TAG_inlined_subroutine 2,
   DieEvent.ProcessAttributeUnsigned 0x4a DwarfAttribute.DW_AT_low_pc DwarfForm.DW_FORM_addr
     0x1010,
   DieEvent.ProcessAttributeUnsigned 0x4a DwarfAttribute.DW_AT_high_pc
     DwarfForm.DW_FORM_data4 0x30,
   DieEvent.ProcessAttributeUnsigned 0x4a DwarfAttribute.DW_AT_call_file
     DwarfForm.DW_FORM_data1 1,
   DieEvent.ProcessAttributeSigned 0x4a DwarfAttribute.DW_AT_call_line
     DwarfForm.DW_FORM_implicit_const 12,
   DieEvent.StartDIE 0x60 (DwarfTag.other 0x0b) 0,
   DieEvent.StartDIE 0x66 DwarfTag.DW_TAG_inlined_subroutine 3,
   DieEvent.ProcessAttributeUnsigned 0x66 DwarfAttribute.DW_AT_low_pc DwarfForm.DW_FORM_addr
     0x1020,
   DieEvent.ProcessAttributeUnsigned 0x66 DwarfAttribute.DW_AT_high_pc
     DwarfForm.DW_FORM_data4 0x10,
   DieEvent.EndDIE 0x66,
   DieEvent.EndDIE 0x60,
   DieEvent.EndDIE 0x4a,
   DieEvent.EndDIE 0x2d]

/-- The handler after `StartCompilationUnit` at offset 0 with DWARF version 5
on a new handler. -/
def nestedStart : InlineStackHandler :=
  { initialHandler (heapOfList []) 0x1000 with
    input_file_index := 0, subprograms_by_offset_maps := [[]], dwarf_version := 5 }

/-- The handler after the callbacks `nestedEvents`. -/
def nestedFinal : InlineStackHandler :=
  (deliverAll exampleCollaborators nestedStart nestedEvents).getD nestedStart

/-! ## Properties of SortAndMerge -/

theorem mergeStep_snoc (pre : List Range) (cur r : Range) :
    mergeStep (pre ++ [cur]) r =
      if r.1 ≥ cur.2 then pre ++ [cur] ++ [r] else pre ++ [(cur.1, max r.2 cur.2)] := by
  simp [mergeStep, List.getLast?_append, List.dropLast_append_of_ne_nil]

theorem foldl_mergeStep_snoc (rest : List Range) :
    ∀ (pre : List Range) (cur : Range),
      List.foldl mergeStep (pre ++ [cur]) rest = pre ++ mergeFrom cur rest := by
  induction rest with
  | nil => intro pre cur; simp [mergeFrom]
  | cons r rest ih =>
    intro pre cur
    rw [List.foldl_cons, mergeStep_snoc]
    by_cases h : r.1 ≥ cur.2
    · simp only [h, if_true, mergeFrom]
      rw [ih (pre ++ [cur]) r]
      simp
    · simp only [h, if_false, mergeFrom]
      rw [ih pre (cur.1, max r.2 cur.2)]

theorem foldl_mergeStep_cons (r : Range) (rest : List Range) :
    List.foldl mergeStep [] (r :: rest) = mergeFrom r rest := by
  have h := foldl_mergeStep_snoc rest [] r
  simpa [mergeStep] using h

/-- The head of `mergeFrom cur rest` starts where `cur` starts and ends no
earlier than `cur`. -/
theorem mergeFrom_head (rest : List Range) :
    ∀ cur : Range, ∃ h tl, mergeFrom cur rest = (cur.1, h) :: tl ∧ cur.2 ≤ h := by
  induction rest with
  | nil => intro cur; exact ⟨cur.2, [], rfl, le_refl _⟩
  | cons r rest ih =>
    intro cur
    by_cases h : r.1 ≥ cur.2
    · exact ⟨cur.2, mergeFrom r rest, by simp [mergeFrom, h], le_refl _⟩
    · obtain ⟨h', tl, e, hle⟩ := ih (cur.1, max r.2 cur.2)
      refine ⟨h', tl, by simp [mergeFrom, h, e], ?_⟩
      exact le_trans (le_max_right _ _) hle

/-- Consecutive ranges produced by the merge loop are ordered by start and
the earlier one ends at or before the start of the later one. -/
theorem mergeFrom_chain (rest : List Range) :
    ∀ cur : Range, (∀ r ∈ rest, cur.1 ≤ r.1) → rest.Pairwise (fun p q => p.1 ≤ q.1) →
      (mergeFrom cur rest).Chain' (fun p q => p.1 ≤ q.1 ∧ p.2 ≤ q.1) := by
  induction rest with
  | nil => intro cur _ _; simp [mergeFrom]
  | cons r rest ih =>
    intro cur hcur hpw
    rw [List.pairwise_cons] at hpw
    by_cases h : r.1 ≥ cur.2
    · simp only [mergeFrom, h, if_true]
      obtain ⟨h', tl, e, _⟩ := mergeFrom_head rest r
      have hc := ih r hpw.1 hpw.2
      rw [e] at hc ⊢
      exact List.Chain'.cons ⟨hcur r (List.mem_cons_self _ _), h⟩ hc
    · simp only [mergeFrom, h, if_false]
      exact ih (cur.1, max r.2 cur.2)
        (fun x hx => hcur x (List.mem_cons_of_mem _ hx)) hpw.2

theorem sortRanges_sorted (xs : List Range) : (sortRanges xs).Sorted pairLe :=
  List.sorted_insertionSort pairLe xs

theorem pairLe_fst {p q : Range} (h : pairLe p q) : p.1 ≤ q.1 := by
  unfold pairLe at h
  omega

/-- The merge loop keeps the pair order between consecutive ranges. -/
theorem mergeFrom_lex (rest : List Range) :
    ∀ cur : Range, rest.Sorted pairLe → (∀ r ∈ rest, cur.1 ≤ r.1) →
      (cur.1 < cur.2 ∨ ∀ r ∈ rest, pairLe cur r) →
      (mergeFrom cur rest).Chain' pairLe := by
  induction rest with
  | nil => intro cur _ _ _; simp [mergeFrom]
  | cons r rest ih =>
    intro cur hs hcur hor
    have hs' := List.pairwise_cons.mp hs
    by_cases h : r.1 ≥ cur.2
    · simp only [mergeFrom, h, if_true]
      obtain ⟨h', tl, e, hle⟩ := mergeFrom_head rest r
      have hc := ih r hs'.2 (fun x hx => pairLe_fst (hs'.1 x hx)) (Or.inr hs'.1)
      rw [e] at hc ⊢
      refine List.Chain'.cons ?_ hc
      rcases hor with hlt | hall
      · left
        show cur.1 < r.1
        omega
      · have := hall r (List.mem_cons_self _ _)
        unfold pairLe at this ⊢
        simp only
        omega
    · simp only [mergeFrom, h, if_false]
      refine ih (cur.1, max r.2 cur.2) hs'.2
        (fun x hx => hcur x (List.mem_cons_of_mem _ hx)) (Or.inl ?_)
      have h1 := hcur r (List.mem_cons_self _ _)
      have h2 : cur.2 ≤ max r.2 cur.2 := le_max_right _ _
      show cur.1 < max r.2 cur.2
      omega

/-- On a list whose consecutive ranges do not overlap the merge loop pushes
every range. -/
theorem mergeFrom_of_chain (rest : List Range) :
    ∀ cur : Range, List.Chain (fun p q => p.1 ≤ q.1 ∧ p.2 ≤ q.1) cur rest →
      mergeFrom cur rest = cur :: rest := by
  induction rest with
  | nil => intro cur _; rfl
  | cons r rest ih =>
    intro cur hc
    rw [List.chain_cons] at hc
    have h : r.1 ≥ cur.2 := hc.1.2
    simp only [mergeFrom, h, if_true]
    rw [ih r hc.2]

theorem foldl_mergeStep_sorted (xs : List Range) (hs : xs.Sorted pairLe) :
    (xs.foldl mergeStep []).Chain' pairLe ∧
      (xs.foldl mergeStep []).Chain' (fun p q => p.1 ≤ q.1 ∧ p.2 ≤ q.1) := by
  cases xs with
  | nil => simp
  | cons r rest =>
    rw [foldl_mergeStep_cons]
    have hs' := List.pairwise_cons.mp hs
    exact ⟨mergeFrom_lex rest r hs'.2 (fun x hx => pairLe_fst (hs'.1 x hx)) (Or.inr hs'.1),
      mergeFrom_chain rest r (fun x hx => pairLe_fst (hs'.1 x hx))
        (hs'.2.imp (fun h => pairLe_fst h))⟩

theorem foldl_mergeStep_of_chain (ys : List Range)
    (hc : ys.Chain' (fun p q => p.1 ≤ q.1 ∧ p.2 ≤ q.1)) :
    ys.foldl mergeStep [] = ys := by
  cases ys with
  | nil => rfl
  | cons r rest =>
    rw [foldl_mergeStep_cons]
    exact mergeFrom_of_chain rest r hc

/-- C2. The list returned by `SortAndMerge` is sorted by start and disjoint:
of two consecutive ranges `p`, `q` of the output, `p.lo ≤ q.lo` and
`p.hi ≤ q.lo`; the same holds of any two ranges `p` before `q`. -/
theorem SortAndMerge_sorted_disjoint (overlap_count : Nat) (rangelist : List Range) :
    (SortAndMerge overlap_count rangelist).1.Chain' (fun p q => p.1 ≤ q.1 ∧ p.2 ≤ q.1) ∧
    (SortAndMerge overlap_count rangelist).1.Pairwise (fun p q => p.1 ≤ q.1 ∧ p.2 ≤ q.1) := by
  have hc := (foldl_mergeStep_sorted (sortRanges rangelist) (sortRanges_sorted rangelist)).2
  haveI : IsTrans Range (fun p q => p.1 ≤ q.1 ∧ p.2 ≤ q.1) :=
    ⟨fun a b c h1 h2 => ⟨le_trans h1.1 h2.1, le_trans h1.2 h2.1⟩⟩
  exact ⟨hc, List.chain'_iff_pairwise.mp hc⟩

/-- C3. `SortAndMerge` is idempotent: applied to its own output it returns
that output unchanged and leaves the overlap counter as it was. -/
theorem SortAndMerge_idempotent (overlap_count overlap_count2 : Nat) (xs : List Range) :
    SortAndMerge overlap_count2 (SortAndMerge overlap_count xs).1 =
      ((SortAndMerge overlap_count xs).1, overlap_count2) := by
  obtain ⟨hlex, hch⟩ := foldl_mergeStep_sorted (sortRanges xs) (sortRanges_sorted xs)
  have hsorted : ((sortRanges xs).foldl mergeStep []).Sorted pairLe :=
    List.chain'_iff_pairwise.mp hlex
  have hsort : sortRanges ((sortRanges xs).foldl mergeStep []) =
      (sortRanges xs).foldl mergeStep [] := List.Sorted.insertionSort_eq hsorted
  simp only [SortAndMerge, hsort, foldl_mergeStep_of_chain _ hch, lt_irrefl, if_false]

/-! ## Sets and folds -/

theorem mem_setInsert (a x : Nat) (s : NatSet) : x ∈ setInsert a s ↔ x = a ∨ x ∈ s := by
  induction s with
  | nil => simp [setInsert]
  | cons b s ih =>
    unfold setInsert
    by_cases h1 : a < b
    · simp [h1]
    · by_cases h2 : a = b
      · subst h2
        simp
      · simp only [h1, h2, if_false, List.mem_cons, ih]
        tauto

theorem mem_setErase (a x : Nat) (s : NatSet) : x ∈ setErase a s ↔ x ∈ s ∧ x ≠ a := by
  simp [setErase]

theorem setInsert_sorted (a : Nat) (s : NatSet) (hs : s.Sorted (· < ·)) :
    (setInsert a s).Sorted (· < ·) := by
  induction s with
  | nil => simp [setInsert]
  | cons b s ih =>
    have hs' := List.pairwise_cons.mp hs
    unfold setInsert
    by_cases h1 : a < b
    · simp only [h1, if_true]
      refine List.pairwise_cons.mpr ⟨?_, hs⟩
      intro x hx
      rcases List.mem_cons.mp hx with rfl | hx
      · exact h1
      · exact lt_trans h1 (hs'.1 x hx)
    · by_cases h2 : a = b
      · subst h2
        simp only [lt_irrefl, if_false, if_true]
        exact hs
      · simp only [h1, h2, if_false]
        refine List.pairwise_cons.mpr ⟨?_, ih hs'.2⟩
        intro x hx
        rcases (mem_setInsert a x s).mp hx with rfl | hx
        · omega
        · exact hs'.1 x hx

/-- A fold whose step only enlarges the state (in the sense of `le`) ends
above its start, and above the state reached right after any element. -/
theorem foldl_visit {σ α : Type} (f : σ → α → σ) (le : σ → σ → Prop)
    (hrefl : ∀ s, le s s) (htrans : ∀ a b c, le a b → le b c → le a c)
    (hmono : ∀ s a, le s (f s a)) :
    ∀ (l : List α) (s : σ), le s (l.foldl f s) ∧
      ∀ x ∈ l, ∃ s1, le s s1 ∧ le (f s1 x) (l.foldl f s) := by
  intro l
  induction l with
  | nil => intro s; exact ⟨hrefl s, by simp⟩
  | cons a l ih =>
    intro s
    obtain ⟨h1, h2⟩ := ih (f s a)
    refine ⟨htrans _ _ _ (hmono s a) h1, ?_⟩
    intro x hx
    rcases List.mem_cons.mp hx with rfl | hx
    · exact ⟨s, hrefl s, h1⟩
    · obtain ⟨s1, hs1, hs2⟩ := h2 x hx
      exact ⟨s1, htrans _ _ _ (hmono s a) hs1, hs2⟩

/-- Every member of the result of a fold over sets was in the initial set or
was added by the step at some element of the list. -/
theorem foldl_origin {α : Type} (f : NatSet → α → NatSet) (Q : α → Nat → Prop)
    (hstep : ∀ s a x, x ∈ f s a → x ∈ s ∨ Q a x) :
    ∀ (l : List α) (s : NatSet) (x : Nat), x ∈ l.foldl f s → x ∈ s ∨ ∃ a ∈ l, Q a x := by
  intro l
  induction l with
  | nil => intro s x hx; exact Or.inl hx
  | cons a l ih =>
    intro s x hx
    rcases ih (f s a) x hx with h | ⟨b, hb, hq⟩
    · rcases hstep s a x h with h | h
      · exact Or.inl h
      · exact Or.inr ⟨a, List.mem_cons_self _ _, h⟩
    · exact Or.inr ⟨b, List.mem_cons_of_mem _ hb, hq⟩

theorem SetLe.refl (s : NatSet) : SetLe s s := fun _ h => h

theorem SetLe.trans (a b c : NatSet) (h1 : SetLe a b) (h2 : SetLe b c) : SetLe a c :=
  fun x h => h2 x (h1 x h)

theorem setLe_setInsert (a : Nat) (s : NatSet) : SetLe s (setInsert a s) :=
  fun x h => (mem_setInsert a x s).mpr (Or.inr h)

/-! ## Rule 1 -/

theorem mem_rule1Ranges (v p : Nat) (rs : List Range) (bad : NatSet) (x : Nat) :
    x ∈ rule1Ranges v p rs bad ↔ x ∈ bad ∨ (x = p ∧ ∃ r ∈ rs, r.1 < v) := by
  induction rs with
  | nil => simp [rule1Ranges]
  | cons r rs ih =>
    unfold rule1Ranges
    by_cases h : r.1 < v
    · simp only [h, if_true, mem_setInsert]
      constructor
      · rintro (rfl | hx)
        · exact Or.inr ⟨rfl, r, List.mem_cons_self _ _, h⟩
        · exact Or.inl hx
      · rintro (hx | ⟨rfl, _⟩)
        · exact Or.inr hx
        · exact Or.inl rfl
    · simp only [h, if_false, ih, List.mem_cons]
      constructor
      · rintro (hx | ⟨rfl, r', hr', hlt⟩)
        · exact Or.inl hx
        · exact Or.inr ⟨rfl, r', Or.inr hr', hlt⟩
      · rintro (hx | ⟨rfl, r', hr', hlt⟩)
        · exact Or.inl hx
        · rcases hr' with rfl | hr'
          · exact absurd hlt h
          · exact Or.inr ⟨rfl, r', hr', hlt⟩

theorem rule1_mono (heap : Heap) (v : Nat) (order : List Ptr) (bad : NatSet) :
    SetLe bad (rule1 heap v order bad) :=
  (foldl_visit (rule1Step heap v) SetLe SetLe.refl SetLe.trans
    (fun s a x hx => (mem_rule1Ranges v a _ s x).mpr (Or.inl hx)) order bad).1

theorem rule1_hit (heap : Heap) (v : Nat) (order : List Ptr) (bad : NatSet) (p : Ptr)
    (hp : p ∈ order) (hr : ∃ r ∈ (heap p).address_ranges, r.1 < v) :
    p ∈ rule1 heap v order bad := by
  obtain ⟨s1, _, h2⟩ := (foldl_visit (rule1Step heap v) SetLe SetLe.refl SetLe.trans
    (fun s a x hx => (mem_rule1Ranges v a (heap a).address_ranges s x).mpr (Or.inl hx))
    order bad).2 p hp
  exact h2 p ((mem_rule1Ranges v p _ s1 p).mpr (Or.inr ⟨rfl, hr⟩))

theorem rule1_origin (heap : Heap) (v : Nat) (order : List Ptr) (bad : NatSet) (x : Nat)
    (hx : x ∈ rule1 heap v order bad) :
    x ∈ bad ∨ (x ∈ order ∧ ∃ r ∈ (heap x).address_ranges, r.1 < v) := by
  rcases foldl_origin (rule1Step heap v)
    (fun a x => x = a ∧ ∃ r ∈ (heap a).address_ranges, r.1 < v)
    (fun s a x hx => (mem_rule1Ranges v a (heap a).address_ranges s x).mp hx) order bad x hx
    with h | ⟨a, ha, rfl, hr⟩
  · exact Or.inl h
  · exact Or.inr ⟨ha, hr⟩

/-! ## Rule 2 -/

theorem mem_insertStarts (rs : List Range) :
    ∀ (s : NatSet) (x : Nat), x ∈ insertStarts rs s ↔ x ∈ s ∨ ∃ r ∈ rs, r.1 = x := by
  induction rs with
  | nil => intro s x; simp [insertStarts]
  | cons r rs ih =>
    intro s x
    simp only [insertStarts, ih, mem_setInsert, List.mem_cons]
    constructor
    · rintro ((rfl | hx) | ⟨r', hr', he⟩)
      · exact Or.inr ⟨r, Or.inl rfl, rfl⟩
      · exact Or.inl hx
      · exact Or.inr ⟨r', Or.inr hr', he⟩
    · rintro (hx | ⟨r', rfl | hr', he⟩)
      · exact Or.inl (Or.inr hx)
      · exact Or.inl (Or.inl he.symm)
      · exact Or.inr ⟨r', hr', he⟩

theorem insertStarts_sorted (rs : List Range) :
    ∀ s : NatSet, s.Sorted (· < ·) → (insertStarts rs s).Sorted (· < ·) := by
  induction rs with
  | nil => intro s hs; exact hs
  | cons r rs ih => intro s hs; exact ih _ (setInsert_sorted r.1 s hs)

theorem mem_collectStartsFrom (heap : Heap) (bad : NatSet) (order : List Ptr) :
    ∀ (init : NatSet) (x : Nat), x ∈ collectStartsFrom heap bad order init ↔
      x ∈ init ∨ ∃ q ∈ order, (heap q).inlined = false ∧ q ∉ bad ∧
        ∃ r ∈ (heap q).address_ranges, r.1 = x := by
  induction order with
  | nil => intro init x; simp [collectStartsFrom]
  | cons p order ih =>
    intro init x
    have hunf : collectStartsFrom heap bad (p :: order) init =
        collectStartsFrom heap bad order (collectStep heap bad init p) := rfl
    rw [hunf, ih]
    unfold collectStep
    by_cases h1 : (heap p).inlined = true
    · simp only [h1, if_true, List.mem_cons]
      constructor
      · rintro (hx | ⟨q, hq, hrest⟩)
        · exact Or.inl hx
        · exact Or.inr ⟨q, Or.inr hq, hrest⟩
      · rintro (hx | ⟨q, rfl | hq, hni, hrest⟩)
        · exact Or.inl hx
        · rw [h1] at hni; exact absurd hni (by simp)
        · exact Or.inr ⟨q, hq, hni, hrest⟩
    · have h1' : (heap p).inlined = false := by simpa using h1
      by_cases h2 : p ∈ bad
      · simp only [h1', h2, if_true, List.mem_cons, Bool.false_eq_true, if_false]
        constructor
        · rintro (hx | ⟨q, hq, hrest⟩)
          · exact Or.inl hx
          · exact Or.inr ⟨q, Or.inr hq, hrest⟩
        · rintro (hx | ⟨q, rfl | hq, hni, hnb, hrest⟩)
          · exact Or.inl hx
          · exact absurd h2 hnb
          · exact Or.inr ⟨q, hq, hni, hnb, hrest⟩
      · simp only [h1', h2, List.mem_cons, Bool.false_eq_true, if_false, mem_insertStarts]
        constructor
        · rintro ((hx | hr) | ⟨q, hq, hrest⟩)
          · exact Or.inl hx
          · exact Or.inr ⟨p, Or.inl rfl, h1', h2, hr⟩
          · exact Or.inr ⟨q, Or.inr hq, hrest⟩
        · rintro (hx | ⟨q, rfl | hq, hni, hnb, hrest⟩)
          · exact Or.inl (Or.inl hx)
          · exact Or.inl (Or.inr hrest)
          · exact Or.inr ⟨q, hq, hni, hnb, hrest⟩

theorem collectStartsFrom_sorted (heap : Heap) (bad : NatSet) (order : List Ptr) :
    ∀ init : NatSet, init.Sorted (· < ·) →
      (collectStartsFrom heap bad order init).Sorted (· < ·) := by
  induction order with
  | nil => intro init h; exact h
  | cons p order ih =>
    intro init h
    have hunf : collectStartsFrom heap bad (p :: order) init =
        collectStartsFrom heap bad order (collectStep heap bad init p) := rfl
    rw [hunf]
    apply ih
    unfold collectStep
    split
    · exact h
    · split
      · exact h
      · exact insertStarts_sorted _ _ h

theorem mem_collectStarts (heap : Heap) (order : List Ptr) (bad : NatSet) (x : Nat) :
    x ∈ collectStarts heap order bad ↔
      ∃ q ∈ order, (heap q).inlined = false ∧ q ∉ bad ∧
        ∃ r ∈ (heap q).address_ranges, r.1 = x := by
  have h := mem_collectStartsFrom heap bad order [] x
  simpa [collectStartsFrom, collectStarts] using h

theorem collectStarts_sorted (heap : Heap) (order : List Ptr) (bad : NatSet) :
    (collectStarts heap order bad).Sorted (· < ·) :=
  collectStartsFrom_sorted heap bad order [] List.sorted_nil

theorem lower_bound_eq_filter (lo : Nat) (S : NatSet) (hS : S.Sorted (· < ·)) :
    lower_bound lo S = S.filter (fun x => decide (lo ≤ x)) := by
  induction S with
  | nil => rfl
  | cons s rest ih =>
    have hS' := List.pairwise_cons.mp hS
    unfold lower_bound
    by_cases h : s < lo
    · have h' : ¬ lo ≤ s := by omega
      simp only [h, if_true, List.filter_cons, h', decide_False, Bool.false_eq_true, if_false]
      exact ih hS'.2
    · have h' : lo ≤ s := by omega
      simp only [h, if_false, List.filter_cons, h', decide_True, if_true]
      congr 1
      symm
      apply List.filter_eq_self.mpr
      intro x hx
      have := hS'.1 x hx
      simp only [decide_eq_true_eq]
      omega

theorem closestBelow_iff (S : NatSet) (hS : S.Sorted (· < ·)) (lo hi : Nat) :
    closestBelow S lo hi = true ↔ ∃ s ∈ S, lo < s ∧ s < hi := by
  have hmem : ∀ x, x ∈ lower_bound lo S ↔ x ∈ S ∧ lo ≤ x := by
    intro x
    rw [lower_bound_eq_filter lo S hS]
    simp
  have hsorted : (lower_bound lo S).Sorted (· < ·) := by
    rw [lower_bound_eq_filter lo S hS]
    exact List.Pairwise.filter _ hS
  unfold closestBelow
  cases hT : lower_bound lo S with
  | nil =>
    rw [hT] at hmem
    simp only [Bool.false_eq_true, false_iff]
    rintro ⟨s, hs, h1, _⟩
    have := (hmem s).mpr ⟨hs, le_of_lt h1⟩
    simp at this
  | cons t next =>
    rw [hT] at hmem hsorted
    have hs' := List.pairwise_cons.mp hsorted
    by_cases ht : t = lo
    · simp only [ht, if_true]
      cases hN : next with
      | nil =>
        simp only [Bool.false_eq_true, false_iff]
        rintro ⟨s, hs, h1, _⟩
        have := (hmem s).mpr ⟨hs, le_of_lt h1⟩
        rw [hN] at this
        simp at this
        omega
      | cons u rest =>
        simp only [decide_eq_true_eq]
        rw [hN] at hs' hmem
        constructor
        · intro hu
          have h1 := (hmem u).mp (by simp)
          have h2 := hs'.1 u (by simp)
          exact ⟨u, h1.1, by omega, hu⟩
        · rintro ⟨s, hs, h1, h2⟩
          have := (hmem s).mpr ⟨hs, le_of_lt h1⟩
          simp only [List.mem_cons] at this
          rcases this with h | h | h
          · omega
          · omega
          · have := (List.pairwise_cons.mp hs'.2).1 s h
            omega
    · simp only [ht, if_false, decide_eq_true_eq]
      constructor
      · intro hu
        have h1 := (hmem t).mp (by simp)
        exact ⟨t, h1.1, by omega, hu⟩
      · rintro ⟨s, hs, h1, h2⟩
        have := (hmem s).mpr ⟨hs, le_of_lt h1⟩
        simp only [List.mem_cons] at this
        rcases this with h | h
        · omega
        · have := hs'.1 s h
          omega

theorem rule2Ranges_cons (S : NatSet) (p : Ptr) (r : Range) (rs : List Range) (bad : NatSet) :
    rule2Ranges S p (r :: rs) bad =
      if closestBelow S r.1 r.2 = true then setInsert p bad else rule2Ranges S p rs bad := by
  unfold closestBelow
  rw [rule2Ranges]
  split
  · rename_i s tl heq
    rw [heq]
    simp
  · rename_i heq
    rw [heq]
    simp

theorem mem_rule2Ranges (S : NatSet) (hS : S.Sorted (· < ·)) (p : Ptr) (rs : List Range)
    (bad : NatSet) (x : Nat) :
    x ∈ rule2Ranges S p rs bad ↔
      x ∈ bad ∨ (x = p ∧ ∃ r ∈ rs, ∃ s ∈ S, r.1 < s ∧ s < r.2) := by
  induction rs with
  | nil => simp [rule2Ranges]
  | cons r rs ih =>
    rw [rule2Ranges_cons]
    by_cases h : closestBelow S r.1 r.2 = true
    · have h' := (closestBelow_iff S hS r.1 r.2).mp h
      simp only [h, if_true, mem_setInsert]
      constructor
      · rintro (rfl | hx)
        · exact Or.inr ⟨rfl, r, List.mem_cons_self _ _, h'⟩
        · exact Or.inl hx
      · rintro (hx | ⟨rfl, _⟩)
        · exact Or.inr hx
        · exact Or.inl rfl
    · have h' := fun hh => h ((closestBelow_iff S hS r.1 r.2).mpr hh)
      rw [if_neg h, ih]
      simp only [List.mem_cons]
      constructor
      · rintro (hx | ⟨rfl, r', hr', hlt⟩)
        · exact Or.inl hx
        · exact Or.inr ⟨rfl, r', Or.inr hr', hlt⟩
      · rintro (hx | ⟨rfl, r', hr', hlt⟩)
        · exact Or.inl hx
        · rcases hr' with rfl | hr'
          · exact absurd hlt h'
          · exact Or.inr ⟨rfl, r', hr', hlt⟩

theorem mem_rule2Step (heap : Heap) (S : NatSet) (hS : S.Sorted (· < ·)) (bad : NatSet)
    (p : Ptr) (x : Nat) :
    x ∈ rule2Step heap S bad p ↔
      x ∈ bad ∨ (x = p ∧ (heap p).inlined = false ∧
        ∃ r ∈ (heap p).address_ranges, ∃ s ∈ S, r.1 < s ∧ s < r.2) := by
  unfold rule2Step
  by_cases h1 : (heap p).inlined = true
  · simp [h1]
  · have h1' : (heap p).inlined = false := by simpa using h1
    by_cases h2 : p ∈ bad
    · simp only [h1', h2, if_true, Bool.false_eq_true, if_false, true_and]
      constructor
      · exact fun h => Or.inl h
      · rintro (h | ⟨rfl, _⟩)
        · exact h
        · exact h2
    · simp only [h1', h2, Bool.false_eq_true, if_false, true_and]
      exact mem_rule2Ranges S hS p _ bad x

theorem rule2_mono (heap : Heap) (S : NatSet) (hS : S.Sorted (· < ·)) (order : List Ptr)
    (bad : NatSet) : SetLe bad (rule2 heap S order bad) :=
  (foldl_visit (rule2Step heap S) SetLe SetLe.refl SetLe.trans
    (fun s a x hx => (mem_rule2Step heap S hS s a x).mpr (Or.inl hx)) order bad).1

/-- Rule 2 marks a record of the list exactly when it was bad before or is
not inlined and one of its ranges strictly contains a collected start. -/
theorem mem_rule2 (heap : Heap) (S : NatSet) (hS : S.Sorted (· < ·)) (order : List Ptr)
    (bad : NatSet) (x : Nat) :
    x ∈ rule2 heap S order bad ↔
      x ∈ bad ∨ (x ∈ order ∧ (heap x).inlined = false ∧
        ∃ r ∈ (heap x).address_ranges, ∃ s ∈ S, r.1 < s ∧ s < r.2) := by
  constructor
  · intro hx
    rcases foldl_origin (rule2Step heap S)
      (fun a x => x = a ∧ (heap a).inlined = false ∧
        ∃ r ∈ (heap a).address_ranges, ∃ s ∈ S, r.1 < s ∧ s < r.2)
      (fun s a x hx => (mem_rule2Step heap S hS s a x).mp hx) order bad x hx
      with h | ⟨a, ha, rfl, hr⟩
    · exact Or.inl h
    · exact Or.inr ⟨ha, hr⟩
  · rintro (hx | ⟨hx, hr⟩)
    · exact rule2_mono heap S hS order bad x hx
    · obtain ⟨s1, _, h2⟩ := (foldl_visit (rule2Step heap S) SetLe SetLe.refl SetLe.trans
        (fun s a x hx => (mem_rule2Step heap S hS s a x).mpr (Or.inl hx)) order bad).2 x hx
      exact h2 x ((mem_rule2Step heap S hS s1 x x).mpr (Or.inr ⟨rfl, hr⟩))

/-! ## SubprogramContains -/

theorem containsRange_iff (b : Range) (as : List Range) :
    containsRange b as = true ↔ ∃ a ∈ as, a.1 ≤ b.1 ∧ a.2 ≥ b.2 := by
  induction as with
  | nil => simp [containsRange]
  | cons a as ih =>
    unfold containsRange
    by_cases h : a.1 ≤ b.1 ∧ a.2 ≥ b.2
    · simp only [h, and_self, if_true, true_iff]
      exact ⟨a, List.mem_cons_self _ _, h⟩
    · rw [if_neg h, ih]
      constructor
      · rintro ⟨a', ha', h'⟩
        exact ⟨a', List.mem_cons_of_mem _ ha', h'⟩
      · rintro ⟨a', ha', h'⟩
        rcases List.mem_cons.mp ha' with rfl | ha'
        · exact absurd h' h
        · exact ⟨a', ha', h'⟩

theorem containsLoop_iff (as bs : List Range) :
    containsLoop as bs = true ↔ ∀ b ∈ bs, ∃ a ∈ as, a.1 ≤ b.1 ∧ a.2 ≥ b.2 := by
  induction bs with
  | nil => simp [containsLoop]
  | cons b bs ih =>
    unfold containsLoop
    by_cases h : containsRange b as = true
    · simp only [h, Bool.not_true, Bool.false_eq_true, if_false, ih, List.mem_cons,
        forall_eq_or_imp]
      exact ⟨fun h' => ⟨(containsRange_iff b as).mp h, h'⟩, fun h' => h'.2⟩
    · have h' : containsRange b as = false := by simpa using h
      simp only [h', Bool.not_false, if_true, Bool.false_eq_true, false_iff, List.mem_cons,
        forall_eq_or_imp, not_and]
      intro hc
      exact absurd ((containsRange_iff b as).mpr hc) h

/-- The result of `SubprogramContains(a, b)`: every range of `b` is
enclosed by one range of `a`. -/
theorem SubprogramContains_iff (a b : SubprogramInfo) :
    SubprogramContains a b = true ↔
      ∀ rb ∈ b.address_ranges, ∃ ra ∈ a.address_ranges, ra.1 ≤ rb.1 ∧ ra.2 ≥ rb.2 :=
  containsLoop_iff _ _

/-! ## Rule 4 -/

theorem mem_rule4Step (heap : Heap) (bad : NatSet) (p : Ptr) (x : Nat) :
    x ∈ rule4Step heap bad p ↔
      x ∈ bad ∨ (x = p ∧ ∃ parent, (heap p).parent = some parent ∧
        (parent ∈ bad ∨ SubprogramContains (heap parent) (heap p) = false)) := by
  unfold rule4Step
  cases hpar : (heap p).parent with
  | none => simp
  | some parent =>
    simp only [Option.some.injEq, exists_eq_left']
    by_cases h : parent ∈ bad ∨ SubprogramContains (heap parent) (heap p) = false
    · rw [if_pos h, mem_setInsert]
      constructor
      · rintro (rfl | hx)
        · exact Or.inr ⟨rfl, h⟩
        · exact Or.inl hx
      · rintro (hx | ⟨rfl, _⟩)
        · exact Or.inr hx
        · exact Or.inl rfl
    · rw [if_neg h]
      constructor
      · exact fun hx => Or.inl hx
      · rintro (hx | ⟨_, h'⟩)
        · exact hx
        · exact absurd h' h

theorem rule4Step_mono (heap : Heap) (bad : NatSet) (p : Ptr) :
    SetLe bad (rule4Step heap bad p) :=
  fun x hx => (mem_rule4Step heap bad p x).mpr (Or.inl hx)

theorem rule4_mono (heap : Heap) (order : List Ptr) (bad : NatSet) :
    SetLe bad (rule4 heap order bad) :=
  (foldl_visit (rule4Step heap) SetLe SetLe.refl SetLe.trans
    (rule4Step_mono heap) order.reverse bad).1

/-- After the scan of rule 4 every record of the list that has a parent is
bad or passes the containment test against its parent. -/
theorem rule4_contains (heap : Heap) (order : List Ptr) (bad : NatSet) (r p : Ptr)
    (hr : r ∈ order) (hp : (heap r).parent = some p) :
    r ∈ rule4 heap order bad ∨ SubprogramContains (heap p) (heap r) = true := by
  by_cases hc : SubprogramContains (heap p) (heap r) = true
  · exact Or.inr hc
  · left
    have hc' : SubprogramContains (heap p) (heap r) = false := by simpa using hc
    obtain ⟨s1, _, h2⟩ := (foldl_visit (rule4Step heap) SetLe SetLe.refl SetLe.trans
      (rule4Step_mono heap) order.reverse bad).2 r (List.mem_reverse.mpr hr)
    exact h2 r ((mem_rule4Step heap s1 r r).mpr (Or.inr ⟨rfl, p, hp, Or.inr hc'⟩))

/-! ## Rule 3 -/

theorem rule3Others_spec (heap : Heap) (p : Ptr) (others : List Ptr) :
    ∀ (ov : NatSet) (keep : Bool) (ov1 : NatSet),
      rule3Others heap p others ov = (keep, ov1) →
      (keep = true → (∀ x, x ∈ ov1 ↔ x ∈ ov ∨ x ∈ others) ∧
        ∀ o ∈ others, SubprogramContains (heap o) (heap p) = false) ∧
      (keep = false → ∃ o ∈ others, SubprogramContains (heap o) (heap p) = true) := by
  induction others with
  | nil =>
    intro ov keep ov1 h
    simp only [rule3Others, Prod.mk.injEq] at h
    obtain ⟨rfl, rfl⟩ := h
    simp
  | cons o others ih =>
    intro ov keep ov1 h
    unfold rule3Others at h
    by_cases hc : SubprogramContains (heap o) (heap p) = true
    · rw [if_pos hc] at h
      simp only [Prod.mk.injEq] at h
      obtain ⟨rfl, rfl⟩ := h
      refine ⟨fun h => absurd h (by simp), fun _ => ⟨o, List.mem_cons_self _ _, hc⟩⟩
    · rw [if_neg hc] at h
      have hc' : SubprogramContains (heap o) (heap p) = false := by simpa using hc
      obtain ⟨h1, h2⟩ := ih _ _ _ h
      constructor
      · intro hk
        obtain ⟨h3, h4⟩ := h1 hk
        constructor
        · intro x
          rw [h3 x, mem_setInsert, List.mem_cons]
          tauto
        · intro o' ho'
          rcases List.mem_cons.mp ho' with rfl | ho'
          · exact hc'
          · exact h4 o' ho'
      · intro hk
        obtain ⟨o', ho', hc2⟩ := h2 hk
        exact ⟨o', List.mem_cons_of_mem _ ho', hc2⟩

theorem rule3Ranges_spec (heap : Heap) (index : SubprogramIndex) (p : Ptr) (rs : List Range) :
    ∀ (ov : NatSet) (keep : Bool) (ov1 : NatSet),
      rule3Ranges heap index p rs ov = (keep, ov1) →
      (keep = true → (∀ x, x ∈ ov1 ↔ x ∈ ov ∨ ∃ r ∈ rs, x ∈ index r.1) ∧
        ∀ r ∈ rs, ∀ o ∈ index r.1, SubprogramContains (heap o) (heap p) = false) ∧
      (keep = false →
        ∃ r ∈ rs, ∃ o ∈ index r.1, SubprogramContains (heap o) (heap p) = true) := by
  induction rs with
  | nil =>
    intro ov keep ov1 h
    simp only [rule3Ranges, Prod.mk.injEq] at h
    obtain ⟨rfl, rfl⟩ := h
    simp
  | cons r rs ih =>
    intro ov keep ov1 h
    unfold rule3Ranges at h
    cases hO : rule3Others heap p (index r.1) ov with
    | mk k ovm =>
      obtain ⟨g1, g2⟩ := rule3Others_spec heap p (index r.1) ov k ovm hO
      rw [hO] at h
      cases k with
      | false =>
        simp only [Prod.mk.injEq] at h
        obtain ⟨rfl, rfl⟩ := h
        obtain ⟨o, ho, hc⟩ := g2 rfl
        exact ⟨fun h => absurd h (by simp), fun _ => ⟨r, List.mem_cons_self _ _, o, ho, hc⟩⟩
      | true =>
        simp only at h
        obtain ⟨g3, g4⟩ := g1 rfl
        obtain ⟨h1, h2⟩ := ih _ _ _ h
        constructor
        · intro hk
          obtain ⟨h3, h4⟩ := h1 hk
          constructor
          · intro x
            rw [h3 x, g3 x]
            simp only [List.mem_cons, exists_eq_or_imp]
            tauto
          · intro r' hr'
            rcases List.mem_cons.mp hr' with rfl | hr'
            · exact g4
            · exact h4 r' hr'
        · intro hk
          obtain ⟨r', hr', hrest⟩ := h2 hk
          exact ⟨r', List.mem_cons_of_mem _ hr', hrest⟩

theorem mem_eraseRanges (b : Ptr) (rs : List Range) :
    ∀ (index : SubprogramIndex) (k x : Nat),
      x ∈ eraseRanges b rs index k ↔ x ∈ index k ∧ ¬ (x = b ∧ ∃ r ∈ rs, r.1 = k) := by
  induction rs with
  | nil => intro index k x; simp [eraseRanges]
  | cons r rs ih =>
    intro index k x
    rw [eraseRanges, ih]
    unfold indexErase
    by_cases hk : k = r.1
    · subst hk
      simp only [if_true, mem_setErase, List.mem_cons, exists_eq_or_imp]
      tauto
    · have : ¬ r.1 = k := fun h => hk h.symm
      simp only [hk, if_false, List.mem_cons, exists_eq_or_imp, this, false_or]

theorem mem_insertRanges (p : Ptr) (rs : List Range) :
    ∀ (index : SubprogramIndex) (k x : Nat),
      x ∈ insertRanges p rs index k ↔ x ∈ index k ∨ (x = p ∧ ∃ r ∈ rs, r.1 = k) := by
  induction rs with
  | nil => intro index k x; simp [insertRanges]
  | cons r rs ih =>
    intro index k x
    rw [insertRanges, ih]
    unfold indexInsert
    by_cases hk : k = r.1
    · subst hk
      simp only [if_true, mem_setInsert, List.mem_cons, exists_eq_or_imp]
      tauto
    · have : ¬ r.1 = k := fun h => hk h.symm
      simp only [hk, if_false, List.mem_cons, exists_eq_or_imp, this, false_or]

theorem mem_evict_bad (heap : Heap) (l : List Ptr) :
    ∀ (st : SubprogramIndex × NatSet) (x : Nat),
      x ∈ (evict heap l st).2 ↔ x ∈ l ∨ x ∈ st.2 := by
  induction l with
  | nil => intro st x; simp [evict]
  | cons b l ih =>
    intro st x
    rw [evict, ih]
    simp only [mem_setInsert, List.mem_cons]
    tauto

theorem mem_evict_index (heap : Heap) (l : List Ptr) :
    ∀ (st : SubprogramIndex × NatSet) (k x : Nat),
      x ∈ st.1 k → x ∉ l → x ∈ (evict heap l st).1 k := by
  induction l with
  | nil => intro st k x h _; simpa [evict] using h
  | cons b l ih =>
    intro st k x h hx
    rw [evict]
    apply ih
    · simp only [mem_eraseRanges]
      exact ⟨h, fun hh => hx (hh.1 ▸ List.mem_cons_self _ _)⟩
    · exact fun hh => hx (List.mem_cons_of_mem _ hh)

theorem evict_index_subset (heap : Heap) (l : List Ptr) :
    ∀ (st : SubprogramIndex × NatSet) (k x : Nat),
      x ∈ (evict heap l st).1 k → x ∈ st.1 k := by
  induction l with
  | nil => intro st k x h; simpa [evict] using h
  | cons b l ih =>
    intro st k x h
    rw [evict] at h
    have := ih _ k x h
    simp only [mem_eraseRanges] at this
    exact this.1

/-- The three outcomes of one step of rule 3: the record is skipped, it is
dropped because an indexed record sharing a start contains it, or it is kept
and evicts every indexed record sharing a start with it. -/
theorem rule3Step_cases (heap : Heap) (st : SubprogramIndex × NatSet) (p : Ptr) :
    (((heap p).inlined = true ∨ (heap p).address_ranges = [] ∨ p ∈ st.2) ∧
      rule3Step heap st p = st) ∨
    ((heap p).inlined = false ∧ (heap p).address_ranges ≠ [] ∧ p ∉ st.2 ∧
      (∃ r ∈ (heap p).address_ranges, ∃ o ∈ st.1 r.1,
        SubprogramContains (heap o) (heap p) = true) ∧
      rule3Step heap st p = (st.1, setInsert p st.2)) ∨
    ((heap p).inlined = false ∧ (heap p).address_ranges ≠ [] ∧ p ∉ st.2 ∧
      (∀ r ∈ (heap p).address_ranges, ∀ o ∈ st.1 r.1,
        SubprogramContains (heap o) (heap p) = false) ∧
      ∃ ov : NatSet, (∀ x, x ∈ ov ↔ ∃ r ∈ (heap p).address_ranges, x ∈ st.1 r.1) ∧
        rule3Step heap st p =
          (insertRanges p (heap p).address_ranges (evict heap ov st).1,
            (evict heap ov st).2)) := by
  by_cases h1 : (heap p).inlined = true
  · left
    exact ⟨Or.inl h1, by simp [rule3Step, h1]⟩
  · have h1' : (heap p).inlined = false := by simpa using h1
    by_cases h2 : (heap p).address_ranges.length = 0
    · left
      exact ⟨Or.inr (Or.inl (List.length_eq_zero.mp h2)), by simp [rule3Step, h1', h2]⟩
    · have h2' : (heap p).address_ranges ≠ [] := fun h => h2 (by simp [h])
      by_cases h3 : p ∈ st.2
      · left
        exact ⟨Or.inr (Or.inr h3), by simp [rule3Step, h1', h2, h3]⟩
      · right
        have hstep : rule3Step heap st p =
            match rule3Ranges heap st.1 p (heap p).address_ranges [] with
            | (true, overlapping_subprograms) =>
              (insertRanges p (heap p).address_ranges
                (evict heap overlapping_subprograms st).1,
                (evict heap overlapping_subprograms st).2)
            | (false, _) => (st.1, setInsert p st.2) := by
          unfold rule3Step
          rw [if_neg h1, if_neg h2, if_neg h3]
        rw [hstep]
        cases hR : rule3Ranges heap st.1 p (heap p).address_ranges [] with
        | mk k ov =>
          obtain ⟨g1, g2⟩ := rule3Ranges_spec heap st.1 p _ [] k ov hR
          cases k with
          | false =>
            left
            exact ⟨h1', h2', h3, g2 rfl, rfl⟩
          | true =>
            right
            obtain ⟨g3, g4⟩ := g1 rfl
            refine ⟨h1', h2', h3, g4, ov, ?_, rfl⟩
            intro x
            rw [g3 x]
            simp

theorem rule3Step_mono (heap : Heap) (st : SubprogramIndex × NatSet) (p : Ptr) :
    SetLe st.2 (rule3Step heap st p).2 := by
  intro x hx
  rcases rule3Step_cases heap st p with ⟨_, h⟩ | ⟨_, _, _, _, h⟩ | ⟨_, _, _, _, ov, _, h⟩
  · rw [h]; exact hx
  · rw [h]; exact (mem_setInsert p x st.2).mpr (Or.inr hx)
  · rw [h]; exact (mem_evict_bad heap ov st x).mpr (Or.inr hx)

theorem rule3_mono (heap : Heap) (order : List Ptr) (bad : NatSet) :
    SetLe bad (rule3 heap order bad) :=
  (foldl_visit (rule3Step heap) (fun s t => SetLe s.2 t.2) (fun s => SetLe.refl s.2)
    (fun a b c => SetLe.trans a.2 b.2 c.2) (rule3Step_mono heap) order (fun _ => [], bad)).1

theorem rule3Step_inv (heap : Heap) (seen : List Ptr) (st : SubprogramIndex × NatSet)
    (p : Ptr) (hinv : Rule3Inv heap seen st) :
    Rule3Inv heap (seen ++ [p]) (rule3Step heap st p) := by
  obtain ⟨hI, hP⟩ := hinv
  have hmono := rule3Step_mono heap st p
  rcases rule3Step_cases heap st p with ⟨hskip, h⟩ | ⟨_, _, _, _, h⟩ |
    ⟨_, _, hpb, _, ov, hov, h⟩
  · -- skipped
    rw [h]
    have hp : ∀ a, a = p → (heap a).inlined = false → a ∉ st.2 →
        (heap a).address_ranges = [] := by
      intro a ha hni hnb
      subst ha
      rcases hskip with h1 | h2 | h3
      · rw [h1] at hni; exact absurd hni (by simp)
      · exact h2
      · exact absurd h3 hnb
    constructor
    · intro a ha hni hnb r hr
      rcases List.mem_append.mp ha with ha1 | ha1
      · exact hI a ha1 hni hnb r hr
      · rw [hp a (by simpa using ha1) hni hnb] at hr
        exact absurd hr (List.not_mem_nil _)
    · intro a ha b hb hab hnia hnib hnba hnbb ra hra rb hrb
      rcases List.mem_append.mp ha with ha1 | ha1
      · rcases List.mem_append.mp hb with hb1 | hb1
        · exact hP a ha1 b hb1 hab hnia hnib hnba hnbb ra hra rb hrb
        · rw [hp b (by simpa using hb1) hnib hnbb] at hrb
          exact absurd hrb (List.not_mem_nil _)
      · rw [hp a (by simpa using ha1) hnia hnba] at hra
        exact absurd hra (List.not_mem_nil _)
  · -- dropped
    rw [h]
    have hpbad : p ∈ setInsert p st.2 := (mem_setInsert p p st.2).mpr (Or.inl rfl)
    have hold : ∀ a, a ∉ setInsert p st.2 → a ∉ st.2 :=
      fun a hn hh => hn ((mem_setInsert p a st.2).mpr (Or.inr hh))
    constructor
    · intro a ha hni hnb r hr
      rcases List.mem_append.mp ha with ha1 | ha1
      · exact hI a ha1 hni (hold a hnb) r hr
      · have : a = p := by simpa using ha1
        subst this
        exact absurd hpbad hnb
    · intro a ha b hb hab hnia hnib hnba hnbb ra hra rb hrb
      rcases List.mem_append.mp ha with ha1 | ha1
      · rcases List.mem_append.mp hb with hb1 | hb1
        · exact hP a ha1 b hb1 hab hnia hnib (hold a hnba) (hold b hnbb) ra hra rb hrb
        · have : b = p := by simpa using hb1
          subst this
          exact absurd hpbad hnbb
      · have : a = p := by simpa using ha1
        subst this
        exact absurd hpbad hnba
  · -- kept
    rw [h]
    have hold : ∀ a, a ∉ (evict heap ov st).2 → a ∉ st.2 ∧ a ∉ ov :=
      fun a hn => ⟨fun hh => hn ((mem_evict_bad heap ov st a).mpr (Or.inr hh)),
        fun hh => hn ((mem_evict_bad heap ov st a).mpr (Or.inl hh))⟩
    have hclash : ∀ a ∈ seen, (heap a).inlined = false → a ∉ (evict heap ov st).2 →
        ∀ ra ∈ (heap a).address_ranges, ∀ rp ∈ (heap p).address_ranges, ra.1 ≠ rp.1 := by
      intro a ha hni hnb ra hra rp hrp heq
      obtain ⟨h1, h2⟩ := hold a hnb
      have hin := hI a ha hni h1 ra hra
      rw [heq] at hin
      exact h2 ((hov a).mpr ⟨rp, hrp, hin⟩)
    constructor
    · intro a ha hni hnb r hr
      simp only
      rw [mem_insertRanges]
      rcases List.mem_append.mp ha with ha1 | ha1
      · obtain ⟨h1, h2⟩ := hold a hnb
        exact Or.inl (mem_evict_index heap ov st r.1 a (hI a ha1 hni h1 r hr) h2)
      · have : a = p := by simpa using ha1
        exact Or.inr ⟨this, r, this ▸ hr, rfl⟩
    · intro a ha b hb hab hnia hnib hnba hnbb ra hra rb hrb
      simp only at hnba hnbb
      rcases List.mem_append.mp ha with ha1 | ha1
      · rcases List.mem_append.mp hb with hb1 | hb1
        · exact hP a ha1 b hb1 hab hnia hnib (hold a hnba).1 (hold b hnbb).1 ra hra rb hrb
        · have : b = p := by simpa using hb1
          subst this
          exact hclash a ha1 hnia hnba ra hra rb hrb
      · have hap : a = p := by simpa using ha1
        subst hap
        rcases List.mem_append.mp hb with hb1 | hb1
        · exact fun heq => hclash b hb1 hnib hnbb rb hrb ra hra heq.symm
        · have : b = a := by simpa using hb1
          exact absurd this.symm hab

theorem rule3_fold_inv (heap : Heap) (order : List Ptr) :
    ∀ (seen : List Ptr) (st : SubprogramIndex × NatSet), Rule3Inv heap seen st →
      Rule3Inv heap (seen ++ order) (order.foldl (rule3Step heap) st) := by
  induction order with
  | nil => intro seen st h; simpa using h
  | cons p order ih =>
    intro seen st h
    have := ih (seen ++ [p]) (rule3Step heap st p) (rule3Step_inv heap seen st p h)
    simpa using this

/-- After rule 3, two distinct records of the list that are not inlined and
not bad have no range start in common. -/
theorem rule3_no_shared_start (heap : Heap) (order : List Ptr) (bad : NatSet) (a b : Ptr)
    (ha : a ∈ order) (hb : b ∈ order) (hab : a ≠ b)
    (hnia : (heap a).inlined = false) (hnib : (heap b).inlined = false)
    (hnba : a ∉ rule3 heap order bad) (hnbb : b ∉ rule3 heap order bad) :
    ∀ ra ∈ (heap a).address_ranges, ∀ rb ∈ (heap b).address_ranges, ra.1 ≠ rb.1 := by
  have hinv := rule3_fold_inv heap order [] (fun _ => [], bad)
    ⟨fun a ha => absurd ha (List.not_mem_nil _), fun a ha => absurd ha (List.not_mem_nil _)⟩
  simp only [List.nil_append] at hinv
  exact hinv.2 a ha b hb hab hnia hnib hnba hnbb

/-! ## FindBadSubprograms -/

theorem FindBadSubprograms_mono1 (heap : Heap) (v : Nat) (order : List Ptr) (bad0 : NatSet) :
    SetLe (rule1 heap v order bad0) (FindBadSubprograms heap v order bad0) := by
  intro x hx
  unfold FindBadSubprograms
  exact rule4_mono heap order _ x (rule3_mono heap order _ x
    (rule2_mono heap _ (collectStarts_sorted heap order _) order _ x hx))

theorem FindBadSubprograms_mono2 (heap : Heap) (v : Nat) (order : List Ptr) (bad0 : NatSet) :
    SetLe (rule2 heap (collectStarts heap order (rule1 heap v order bad0)) order
      (rule1 heap v order bad0)) (FindBadSubprograms heap v order bad0) := by
  intro x hx
  unfold FindBadSubprograms
  exact rule4_mono heap order _ x (rule3_mono heap order _ x hx)

theorem FindBadSubprograms_mono3 (heap : Heap) (v : Nat) (order : List Ptr) (bad0 : NatSet) :
    SetLe (rule3 heap order (rule2 heap (collectStarts heap order (rule1 heap v order bad0))
      order (rule1 heap v order bad0))) (FindBadSubprograms heap v order bad0) := by
  intro x hx
  unfold FindBadSubprograms
  exact rule4_mono heap order _ x hx

/-- C1. After `FindBadSubprograms`, two distinct records of the insertion
order that are not inlined and are both outside the bad set share no address:
no range `[lo,hi)` of the one intersects a range of the other. -/
theorem FindBadSubprograms_survivors_disjoint (heap : Heap) (v : Nat) (order : List Ptr)
    (bad0 : NatSet) (a b : Ptr) (ha : a ∈ order) (hb : b ∈ order) (hab : a ≠ b)
    (hnia : (heap a).inlined = false) (hnib : (heap b).inlined = false)
    (hnba : a ∉ FindBadSubprograms heap v order bad0)
    (hnbb : b ∉ FindBadSubprograms heap v order bad0) :
    ∀ ra ∈ (heap a).address_ranges, ∀ rb ∈ (heap b).address_ranges,
      ∀ x : Nat, ¬ (ra.1 ≤ x ∧ x < ra.2 ∧ rb.1 ≤ x ∧ x < rb.2) := by
  intro ra hra rb hrb x hx
  have hS := collectStarts_sorted heap order (rule1 heap v order bad0)
  have ha3 := fun h => hnba (FindBadSubprograms_mono3 heap v order bad0 a h)
  have hb3 := fun h => hnbb (FindBadSubprograms_mono3 heap v order bad0 b h)
  have ha2 := fun h => hnba (FindBadSubprograms_mono2 heap v order bad0 a h)
  have hb2 := fun h => hnbb (FindBadSubprograms_mono2 heap v order bad0 b h)
  have ha1 := fun h => hnba (FindBadSubprograms_mono1 heap v order bad0 a h)
  have hb1 := fun h => hnbb (FindBadSubprograms_mono1 heap v order bad0 b h)
  have hsa : ra.1 ∈ collectStarts heap order (rule1 heap v order bad0) :=
    (mem_collectStarts heap order _ ra.1).mpr ⟨a, ha, hnia, ha1, ra, hra, rfl⟩
  have hsb : rb.1 ∈ collectStarts heap order (rule1 heap v order bad0) :=
    (mem_collectStarts heap order _ rb.1).mpr ⟨b, hb, hnib, hb1, rb, hrb, rfl⟩
  rcases Nat.lt_trichotomy ra.1 rb.1 with hlt | heq | hgt
  · exact ha2 ((mem_rule2 heap _ hS order _ a).mpr
      (Or.inr ⟨ha, hnia, ra, hra, rb.1, hsb, hlt, by omega⟩))
  · exact rule3_no_shared_start heap order _ a b ha hb hab hnia hnib ha3 hb3 ra hra rb hrb heq
  · exact hb2 ((mem_rule2 heap _ hS order _ b).mpr
      (Or.inr ⟨hb, hnib, rb, hrb, ra.1, hsa, hgt, by omega⟩))

/-- Records 2 and 3 of the example both survive and their ranges are
disjoint. -/
theorem FindBadSubprograms_survivors_disjoint_witness :
    (2 ∉ FindBadSubprograms exampleHeap 0x1000 [1, 2, 3, 4] [] ∧
      3 ∉ FindBadSubprograms exampleHeap 0x1000 [1, 2, 3, 4] []) ∧
    ∀ ra ∈ (exampleHeap 2).address_ranges, ∀ rb ∈ (exampleHeap 3).address_ranges,
      ∀ x : Nat, ¬ (ra.1 ≤ x ∧ x < ra.2 ∧ rb.1 ≤ x ∧ x < rb.2) :=
  ⟨by decide, FindBadSubprograms_survivors_disjoint exampleHeap 0x1000 [1, 2, 3, 4] [] 2 3
    (by decide) (by decide) (by decide) (by decide) (by decide) (by decide) (by decide)⟩

/-- C4. Rule 1: after `FindBadSubprograms` every record of the insertion
order with a range that starts below `vaddr_of_first_load_segment` is in the
bad set. -/
theorem FindBadSubprograms_below_load_segment (heap : Heap) (v : Nat) (order : List Ptr)
    (bad0 : NatSet) (p : Ptr) (hp : p ∈ order)
    (hr : ∃ r ∈ (heap p).address_ranges, r.1 < v) :
    p ∈ FindBadSubprograms heap v order bad0 :=
  FindBadSubprograms_mono1 heap v order bad0 p (rule1_hit heap v order bad0 p hp hr)

/-- Record 7 covers `[0x100,0x200)`, below a first load segment at
`0x400000`, and ends up bad. -/
theorem FindBadSubprograms_below_load_segment_witness :
    (7 ∈ [3, 7] ∧ ∃ r ∈ (exampleHeap 7).address_ranges, r.1 < 0x400000) ∧
    7 ∈ FindBadSubprograms exampleHeap 0x400000 [3, 7] [] :=
  ⟨⟨by decide, (0x100, 0x200), by decide, by decide⟩,
    FindBadSubprograms_below_load_segment exampleHeap 0x400000 [3, 7] [] 7 (by decide)
      ⟨(0x100, 0x200), by decide, by decide⟩⟩

/-- C5. Rule 2: a record of the insertion order that is not inlined and
passes rule 1 is marked by the rule-2 pass exactly when one of its ranges
`[lo,hi)` strictly contains the start `s` of a range of a record of the
insertion order that is not inlined and passes rule 1: `lo < s < hi`. -/
theorem rule2_marks_iff_contains_start (heap : Heap) (v : Nat) (order : List Ptr)
    (bad0 : NatSet) (p : Ptr) (hp : p ∈ order) (hni : (heap p).inlined = false)
    (hpass : p ∉ rule1 heap v order bad0) :
    p ∈ rule2 heap (collectStarts heap order (rule1 heap v order bad0)) order
        (rule1 heap v order bad0) ↔
      ∃ r ∈ (heap p).address_ranges, ∃ q ∈ order, (heap q).inlined = false ∧
        q ∉ rule1 heap v order bad0 ∧
        ∃ rq ∈ (heap q).address_ranges, r.1 < rq.1 ∧ rq.1 < r.2 := by
  rw [mem_rule2 heap _ (collectStarts_sorted heap order _) order _ p]
  constructor
  · rintro (h | ⟨_, _, r, hr, s, hs, h1, h2⟩)
    · exact absurd h hpass
    · obtain ⟨q, hq, hqni, hqnb, rq, hrq, rfl⟩ := (mem_collectStarts heap order _ s).mp hs
      exact ⟨r, hr, q, hq, hqni, hqnb, rq, hrq, h1, h2⟩
  · rintro ⟨r, hr, q, hq, hqni, hqnb, rq, hrq, h1, h2⟩
    exact Or.inr ⟨hp, hni, r, hr, rq.1,
      (mem_collectStarts heap order _ rq.1).mpr ⟨q, hq, hqni, hqnb, rq, hrq, rfl⟩, h1, h2⟩

/-- Record 1 covers `[0x1000,0x1100)`, which strictly contains the start
`0x1050` of record 2: rule 2 marks it. -/
theorem rule2_marks_iff_contains_start_witness :
    (1 ∈ [1, 2] ∧ (exampleHeap 1).inlined = false ∧ 1 ∉ rule1 exampleHeap 0x1000 [1, 2] []) ∧
    (1 ∈ rule2 exampleHeap (collectStarts exampleHeap [1, 2] (rule1 exampleHeap 0x1000 [1, 2] []))
        [1, 2] (rule1 exampleHeap 0x1000 [1, 2] []) ↔
      ∃ r ∈ (exampleHeap 1).address_ranges, ∃ q ∈ [1, 2], (exampleHeap q).inlined = false ∧
        q ∉ rule1 exampleHeap 0x1000 [1, 2] [] ∧
        ∃ rq ∈ (exampleHeap q).address_ranges, r.1 < rq.1 ∧ rq.1 < r.2) :=
  ⟨by decide, rule2_marks_iff_contains_start exampleHeap 0x1000 [1, 2] [] 1
    (by decide) (by decide) (by decide)⟩

/-- C7. After `FindBadSubprograms` every record of the insertion order that
has a parent is in the bad set or has each of its ranges enclosed by a single
range of the parent. -/
theorem FindBadSubprograms_child_bad_or_enclosed (heap : Heap) (v : Nat) (order : List Ptr)
    (bad0 : NatSet) (r p : Ptr) (hr : r ∈ order) (hp : (heap r).parent = some p) :
    r ∈ FindBadSubprograms heap v order bad0 ∨
      ∀ rb ∈ (heap r).address_ranges, ∃ ra ∈ (heap p).address_ranges,
        ra.1 ≤ rb.1 ∧ ra.2 ≥ rb.2 := by
  unfold FindBadSubprograms
  rcases rule4_contains heap order
    (rule3 heap order (rule2 heap (collectStarts heap order (rule1 heap v order bad0)) order
      (rule1 heap v order bad0))) r p hr hp with h | h
  · exact Or.inl h
  · exact Or.inr ((SubprogramContains_iff (heap p) (heap r)).mp h)

/-- Record 8 is inlined into record 3 and enclosed by it. -/
theorem FindBadSubprograms_child_bad_or_enclosed_witness :
    (8 ∈ [8, 3] ∧ (exampleHeap 8).parent = some 3) ∧
    (8 ∈ FindBadSubprograms exampleHeap 0x1000 [8, 3] [] ∨
      ∀ rb ∈ (exampleHeap 8).address_ranges, ∃ ra ∈ (exampleHeap 3).address_ranges,
        ra.1 ≤ rb.1 ∧ ra.2 ≥ rb.2) :=
  ⟨by decide, FindBadSubprograms_child_bad_or_enclosed exampleHeap 0x1000 [8, 3] [] 8 3
    (by decide) (by decide)⟩

theorem rule4_inherits (heap : Heap) (order : List Ptr) (bad : NatSet)
    (hl : LeafToRoot heap order) (r p : Ptr) (hr : r ∈ order)
    (hp : (heap r).parent = some p) (hbad : p ∈ rule4 heap order bad) :
    r ∈ rule4 heap order bad := by
  obtain ⟨before, after, hsplit, hnot⟩ := hl r hr p hp
  have hunf : rule4 heap order bad =
      List.foldl (rule4Step heap)
        (rule4Step heap (List.foldl (rule4Step heap) bad after.reverse) r) before.reverse := by
    unfold rule4
    rw [hsplit]
    simp [List.foldl_append]
  rw [hunf] at hbad ⊢
  have hmono := (foldl_visit (rule4Step heap) SetLe SetLe.refl SetLe.trans
    (rule4Step_mono heap) before.reverse
    (rule4Step heap (List.foldl (rule4Step heap) bad after.reverse) r)).1
  apply hmono
  rcases foldl_origin (rule4Step heap) (fun a x => x = a)
    (fun s a x hx => by
      rcases (mem_rule4Step heap s a x).mp hx with h | ⟨h, _⟩
      · exact Or.inl h
      · exact Or.inr h) before.reverse _ p hbad with h | ⟨a, ha, rfl⟩
  · rcases (mem_rule4Step heap _ r p).mp h with h1 | ⟨h1, _⟩
    · exact (mem_rule4Step heap _ r r).mpr (Or.inr ⟨rfl, p, hp, Or.inl h1⟩)
    · subst h1
      exact h
  · exact absurd (List.mem_reverse.mp ha) hnot

/-- C8. Badness is inherited: when the insertion order is leaf-to-root,
after `FindBadSubprograms` every record of the insertion order whose parent
is in the bad set is in the bad set, and so is every record linked to a bad
record by a chain of parent links through records of the insertion order. -/
theorem FindBadSubprograms_badness_inherited (heap : Heap) (v : Nat) (order : List Ptr)
    (bad0 : NatSet) (hl : LeafToRoot heap order) :
    (∀ r ∈ order, ∀ p, (heap r).parent = some p →
      p ∈ FindBadSubprograms heap v order bad0 → r ∈ FindBadSubprograms heap v order bad0) ∧
    (∀ d b, Relation.TransGen (ParentIn heap order) d b →
      b ∈ FindBadSubprograms heap v order bad0 → d ∈ FindBadSubprograms heap v order bad0) := by
  have h1 : ∀ r ∈ order, ∀ p, (heap r).parent = some p →
      p ∈ FindBadSubprograms heap v order bad0 →
      r ∈ FindBadSubprograms heap v order bad0 := by
    intro r hr p hp hbad
    unfold FindBadSubprograms at hbad ⊢
    exact rule4_inherits heap order _ hl r p hr hp hbad
  refine ⟨h1, ?_⟩
  intro d b hdb
  induction hdb with
  | single h => exact h1 d h.1 _ h.2
  | tail _ h ih => exact fun hb => ih (h1 _ h.1 _ h.2 hb)

theorem exampleLeafToRoot : LeafToRoot exampleHeap [3, 11, 10, 4] := by
  intro r hr p hp
  simp only [List.mem_cons, List.mem_singleton, List.not_mem_nil, or_false] at hr
  rcases hr with rfl | rfl | rfl | rfl
  · have h : (exampleHeap 3).parent = none := by decide
    rw [h] at hp
    exact absurd hp (by simp)
  · have h : (exampleHeap 11).parent = some 10 := by decide
    rw [h] at hp
    rw [← Option.some.inj hp]
    exact ⟨[3], [10, 4], rfl, by decide⟩
  · have h : (exampleHeap 10).parent = some 4 := by decide
    rw [h] at hp
    rw [← Option.some.inj hp]
    exact ⟨[3, 11], [4], rfl, by decide⟩
  · have h : (exampleHeap 4).parent = none := by decide
    rw [h] at hp
    exact absurd hp (by simp)

/-- Record 4 is made bad by rule 3 (record 3 contains it); records 10 and
11, inlined under record 4, are bad too. -/
theorem FindBadSubprograms_badness_inherited_witness :
    LeafToRoot exampleHeap [3, 11, 10, 4] ∧
    4 ∈ FindBadSubprograms exampleHeap 0x1000 [3, 11, 10, 4] [] ∧
    Relation.TransGen (ParentIn exampleHeap [3, 11, 10, 4]) 11 4 ∧
    10 ∈ FindBadSubprograms exampleHeap 0x1000 [3, 11, 10, 4] [] ∧
    11 ∈ FindBadSubprograms exampleHeap 0x1000 [3, 11, 10, 4] [] :=
  have hchain : Relation.TransGen (ParentIn exampleHeap [3, 11, 10, 4]) 11 4 :=
    Relation.TransGen.tail
      (Relation.TransGen.single
        (show ParentIn exampleHeap [3, 11, 10, 4] 11 10 from ⟨by decide, by decide⟩))
      (show ParentIn exampleHeap [3, 11, 10, 4] 10 4 from ⟨by decide, by decide⟩)
  ⟨exampleLeafToRoot, by decide, hchain,
    (FindBadSubprograms_badness_inherited exampleHeap 0x1000 [3, 11, 10, 4] []
      exampleLeafToRoot).1 10 (by decide) 4 (by decide) (by decide),
    (FindBadSubprograms_badness_inherited exampleHeap 0x1000 [3, 11, 10, 4] []
      exampleLeafToRoot).2 11 4 hchain (by decide)⟩

theorem sorted_eq_singleton (l : NatSet) (a : Nat) (hs : l.Sorted (· < ·))
    (hm : ∀ x, x ∈ l ↔ x = a) : l = [a] := by
  cases l with
  | nil => exact absurd ((hm a).mpr rfl) (List.not_mem_nil _)
  | cons b tl =>
    have hb : b = a := (hm b).mp (List.mem_cons_self _ _)
    subst hb
    have hs' := List.pairwise_cons.mp hs
    have : tl = [] := by
      apply List.eq_nil_iff_forall_not_mem.mpr
      intro y hy
      have h1 := hs'.1 y hy
      have h2 := (hm y).mp (List.mem_cons_of_mem _ hy)
      omega
    rw [this]

theorem evict_sorted (heap : Heap) (l : List Ptr) :
    ∀ st : SubprogramIndex × NatSet, st.2.Sorted (· < ·) →
      (evict heap l st).2.Sorted (· < ·) := by
  induction l with
  | nil => intro st h; simpa [evict] using h
  | cons b l ih =>
    intro st h
    rw [evict]
    exact ih _ (setInsert_sorted b st.2 h)

/-- C6. Rule 3 on two duplicates: when the insertion order is two distinct
records `E` then `F`, both without parent and not inlined, that share a range
start and both pass rules 1 and 2, `FindBadSubprograms` yields `{F}` when
`SubprogramContains(E, F)` holds and `{E}` otherwise. -/
theorem FindBadSubprograms_two_duplicates (heap : Heap) (v : Nat) (E F : Ptr) (hne : E ≠ F)
    (hpE : (heap E).parent = none) (hpF : (heap F).parent = none)
    (hniE : (heap E).inlined = false) (hniF : (heap F).inlined = false)
    (hshare : ∃ rE ∈ (heap E).address_ranges, ∃ rF ∈ (heap F).address_ranges, rE.1 = rF.1)
    (hpassE : E ∉ rule2 heap (collectStarts heap [E, F] (rule1 heap v [E, F] [])) [E, F]
      (rule1 heap v [E, F] []))
    (hpassF : F ∉ rule2 heap (collectStarts heap [E, F] (rule1 heap v [E, F] [])) [E, F]
      (rule1 heap v [E, F] [])) :
    FindBadSubprograms heap v [E, F] [] =
      if SubprogramContains (heap E) (heap F) = true then [F] else [E] := by
  obtain ⟨rE, hrE, rF, hrF, hstart⟩ := hshare
  have hbad2 : rule2 heap (collectStarts heap [E, F] (rule1 heap v [E, F] [])) [E, F]
      (rule1 heap v [E, F] []) = [] := by
    apply List.eq_nil_iff_forall_not_mem.mpr
    intro x hx
    have hxo : x ∈ [E, F] := by
      rcases (mem_rule2 heap _ (collectStarts_sorted heap _ _) _ _ x).mp hx with h | h
      · rcases rule1_origin heap v _ _ x h with h | h
        · exact absurd h (List.not_mem_nil _)
        · exact h.1
      · exact h.1
    simp only [List.mem_cons, List.mem_singleton, List.not_mem_nil, or_false] at hxo
    rcases hxo with rfl | rfl
    · exact hpassE hx
    · exact hpassF hx
  have hrule4 : ∀ bad, rule4 heap [E, F] bad = bad := by
    intro bad
    simp [rule4, rule4Step, hpE, hpF]
  unfold FindBadSubprograms
  simp only [hbad2, hrule4]
  -- the step for `E`
  have hstepE : rule3Step heap (fun _ => [], []) E =
      (insertRanges E (heap E).address_ranges (fun _ => []), []) := by
    rcases rule3Step_cases heap (fun _ => [], []) E with ⟨hs, _⟩ | ⟨_, _, _, hd, _⟩ |
      ⟨_, _, _, _, ov, hov, h⟩
    · rcases hs with h | h | h
      · rw [hniE] at h; exact absurd h (by simp)
      · rw [h] at hrE; exact absurd hrE (List.not_mem_nil _)
      · exact absurd h (List.not_mem_nil _)
    · obtain ⟨_, _, o, ho, _⟩ := hd
      exact absurd ho (List.not_mem_nil _)
    · have hnil : ov = [] := by
        apply List.eq_nil_iff_forall_not_mem.mpr
        intro x hx
        obtain ⟨_, _, ho⟩ := (hov x).mp hx
        exact absurd ho (List.not_mem_nil _)
      rw [h, hnil]
      rfl
  have hidx : ∀ k x, x ∈ insertRanges E (heap E).address_ranges (fun _ => []) k ↔
      (x = E ∧ ∃ r ∈ (heap E).address_ranges, r.1 = k) := by
    intro k x
    rw [mem_insertRanges]
    simp
  have hunf : rule3 heap [E, F] [] =
      (rule3Step heap (rule3Step heap (fun _ => [], []) E) F).2 := rfl
  rw [hunf, hstepE]
  rcases rule3Step_cases heap
      (insertRanges E (heap E).address_ranges (fun _ => []), []) F with
    ⟨hs, _⟩ | ⟨_, _, _, hd, h⟩ | ⟨_, _, _, hk, ov, hov, h⟩
  · rcases hs with h | h | h
    · rw [hniF] at h; exact absurd h (by simp)
    · rw [h] at hrF; exact absurd hrF (List.not_mem_nil _)
    · exact absurd h (List.not_mem_nil _)
  · obtain ⟨r, _, o, ho, hc⟩ := hd
    have hoE : o = E := ((hidx r.1 o).mp ho).1
    rw [hoE] at hc
    rw [h, if_pos hc]
    rfl
  · have hEin : E ∈ insertRanges E (heap E).address_ranges (fun _ => []) rF.1 :=
      (hidx rF.1 E).mpr ⟨rfl, rE, hrE, hstart⟩
    have hc : SubprogramContains (heap E) (heap F) = false := hk rF hrF E hEin
    rw [h, hc]
    simp only [Bool.false_eq_true, if_false]
    apply sorted_eq_singleton
    · exact evict_sorted heap ov _ List.sorted_nil
    · intro x
      rw [mem_evict_bad]
      simp only [List.not_mem_nil, or_false]
      rw [hov x]
      constructor
      · rintro ⟨r, _, hx⟩
        exact ((hidx r.1 x).mp hx).1
      · rintro rfl
        exact ⟨rF, hrF, hEin⟩

/-- Scenarios 3 and 4: `E = [0x2000,0x2100)` arrives before
`F = [0x2000,0x2040)` and contains it, so `F` is the bad one;
`E' = [0x3000,0x3040)` arrives before `F' = [0x3000,0x3080)` and does not
contain it, so the later `F'` evicts `E'`. -/
theorem FindBadSubprograms_two_duplicates_witness :
    (FindBadSubprograms exampleHeap 0x1000 [3, 4] [] =
        (if SubprogramContains (exampleHeap 3) (exampleHeap 4) = true then [4] else [3]) ∧
      FindBadSubprograms exampleHeap 0x1000 [3, 4] [] = [4]) ∧
    (FindBadSubprograms exampleHeap 0x1000 [5, 6] [] =
        (if SubprogramContains (exampleHeap 5) (exampleHeap 6) = true then [6] else [5]) ∧
      FindBadSubprograms exampleHeap 0x1000 [5, 6] [] = [5]) :=
  ⟨⟨FindBadSubprograms_two_duplicates exampleHeap 0x1000 3 4 (by decide) (by decide)
      (by decide) (by decide) (by decide)
      ⟨(0x2000, 0x2100), by decide, (0x2000, 0x2040), by decide, rfl⟩
      (by decide) (by decide), by decide⟩,
    ⟨FindBadSubprograms_two_duplicates exampleHeap 0x1000 5 6 (by decide) (by decide)
      (by decide) (by decide) (by decide)
      ⟨(0x3000, 0x3040), by decide, (0x3000, 0x3080), by decide, rfl⟩
      (by decide) (by decide), by decide⟩⟩

/-! ## CleanupUnusedSubprograms -/

theorem mapFind_mem (k : Nat) (m : SubprogramsByOffsetMap) (q : Ptr)
    (h : mapFind k m = some q) : (k, q) ∈ m := by
  induction m with
  | nil => simp [mapFind] at h
  | cons e m ih =>
    unfold mapFind at h
    by_cases hk : e.1 = k
    · rw [if_pos hk] at h
      have : e = (k, q) := by
        cases e
        simp only [Option.some.injEq] at h
        simp_all
      rw [this]
      exact List.mem_cons_self _ _
    · rw [if_neg hk] at h
      exact List.mem_cons_of_mem _ (ih h)

theorem setUsed_self (heap : Heap) (p : Ptr) : (setUsed heap p p).used = true := by
  simp [setUsed]

theorem setUsed_frame (heap : Heap) (p q : Ptr) :
    setUsed heap p q = heap q ∨ setUsed heap p q = { heap q with used := true } := by
  unfold setUsed
  by_cases h : q = p
  · right; simp [h]
  · left; simp [h]

theorem setUsed_used (heap : Heap) (p q : Ptr) :
    (setUsed heap p q).used = true ↔ q = p ∨ (heap q).used = true := by
  unfold setUsed
  by_cases h : q = p
  · simp [h]
  · simp [h]

theorem countP_lt_of_witness {α : Type} (f g : α → Bool) (l : List α)
    (hfg : ∀ x ∈ l, f x = true → g x = true) (a : α) (ha : a ∈ l) (hga : g a = true)
    (hfa : f a = false) : l.countP f + 1 ≤ l.countP g := by
  induction l with
  | nil => exact absurd ha (List.not_mem_nil _)
  | cons b l ih =>
    have hmono : l.countP f ≤ l.countP g :=
      List.countP_mono_left (fun x hx => hfg x (List.mem_cons_of_mem _ hx))
    rcases List.mem_cons.mp ha with rfl | ha'
    · rw [List.countP_cons_of_pos _ _ hga, List.countP_cons_of_neg _ _ (by simp [hfa])]
      omega
    · have ih' := ih (fun x hx => hfg x (List.mem_cons_of_mem _ hx)) ha'
      by_cases hfb : f b = true
      · rw [List.countP_cons_of_pos _ _ hfb,
          List.countP_cons_of_pos _ _ (hfg b (List.mem_cons_self _ _) hfb)]
        omega
      · rw [List.countP_cons_of_neg _ _ hfb]
        by_cases hgb : g b = true
        · rw [List.countP_cons_of_pos _ _ hgb]; omega
        · rw [List.countP_cons_of_neg _ _ hgb]; omega

theorem unusedCount_setUsed (heap : Heap) (m : SubprogramsByOffsetMap) (k : Nat) (q : Ptr)
    (hq : (k, q) ∈ m) (hu : (heap q).used = false) :
    unusedCount (setUsed heap q) m + 1 ≤ unusedCount heap m := by
  unfold unusedCount
  apply countP_lt_of_witness _ _ m _ (k, q) hq
  · simp [hu]
  · simp [setUsed]
  · intro x _ hx
    simp only [Bool.not_eq_true', ← Bool.not_eq_true] at hx ⊢
    intro h
    exact hx ((setUsed_used heap q x.2).mpr (Or.inr h))

/-- The effect of the block that `CleanupUnusedSubprograms` runs for one
reference offset. -/
theorem markTarget_spec (m : SubprogramsByOffsetMap) (t : Nat) (heap : Heap) (wl : List Ptr)
    (heap1 : Heap) (wl1 : List Ptr) (h : markTarget m t (heap, wl) = some (heap1, wl1)) :
    (∀ p, heap1 p = heap p ∨ heap1 p = { heap p with used := true }) ∧
    (∀ p ∈ wl, p ∈ wl1) ∧
    (∀ p ∈ wl1, p ∈ wl ∨ (t ≠ 0 ∧ mapFind t m = some p)) ∧
    (∀ p, (heap1 p).used = true →
      (heap p).used = true ∨ (p ∈ wl1 ∧ t ≠ 0 ∧ mapFind t m = some p)) ∧
    (t ≠ 0 → ∀ q, mapFind t m = some q → (heap1 q).used = true) ∧
    wl1.length + unusedCount heap1 m ≤ wl.length + unusedCount heap m := by
  unfold markTarget at h
  by_cases ht : t ≠ 0
  · rw [if_pos ht] at h
    cases hf : mapFind t m with
    | none => rw [hf] at h; simp at h
    | some info =>
      rw [hf] at h
      simp only at h
      by_cases hu : (heap info).used = true
      · simp only [hu, Bool.not_true, Bool.false_eq_true, if_false, Option.some.injEq,
          Prod.mk.injEq] at h
        obtain ⟨rfl, rfl⟩ := h
        refine ⟨fun p => Or.inl rfl, fun p hp => hp, fun p hp => Or.inl hp,
          fun p hp => Or.inl hp, ?_, le_refl _⟩
        intro _ q hq
        rw [← Option.some.inj hq]
        exact hu
      · have hu' : (heap info).used = false := by simpa using hu
        simp only [hu', Bool.not_false, if_true, Option.some.injEq, Prod.mk.injEq] at h
        obtain ⟨rfl, rfl⟩ := h
        refine ⟨fun p => setUsed_frame heap info p, fun p hp => List.mem_cons_of_mem _ hp,
          ?_, ?_, ?_, ?_⟩
        · intro p hp
          rcases List.mem_cons.mp hp with rfl | hp
          · exact Or.inr ⟨ht, rfl⟩
          · exact Or.inl hp
        · intro p hp
          rcases (setUsed_used heap info p).mp hp with rfl | hp
          · exact Or.inr ⟨List.mem_cons_self _ _, ht, rfl⟩
          · exact Or.inl hp
        · intro _ q hq
          rw [← Option.some.inj hq]
          exact setUsed_self heap info
        · have := unusedCount_setUsed heap m t info (mapFind_mem t m info hf) hu'
          simp only [List.length_cons]
          omega
  · have ht' : t = 0 := by simpa using ht
    rw [if_neg ht] at h
    simp only [Option.some.injEq, Prod.mk.injEq] at h
    obtain ⟨rfl, rfl⟩ := h
    exact ⟨fun p => Or.inl rfl, fun p hp => hp, fun p hp => Or.inl hp,
      fun p hp => Or.inl hp, fun h => absurd ht' h, le_refl _⟩

theorem markTarget_some (m : SubprogramsByOffsetMap) (t : Nat) (st : Heap × List Ptr)
    (hres : t ≠ 0 → ∃ q, mapFind t m = some q) : ∃ st1, markTarget m t st = some st1 := by
  unfold markTarget
  by_cases ht : t ≠ 0
  · obtain ⟨q, hq⟩ := hres ht
    rw [if_pos ht, hq]
    simp only
    split
    · exact ⟨_, rfl⟩
    · exact ⟨_, rfl⟩
  · rw [if_neg ht]
    exact ⟨_, rfl⟩

theorem frame_links (heap0 heap : Heap) (p : Ptr)
    (h : heap p = heap0 p ∨ heap p = { heap0 p with used := true }) :
    (heap p).specification = (heap0 p).specification ∧
    (heap p).abstract_origin = (heap0 p).abstract_origin ∧
    ((heap0 p).used = true → (heap p).used = true) := by
  rcases h with h | h <;> rw [h] <;> simp

theorem cleanup_step (heap0 : Heap) (m : SubprogramsByOffsetMap) (heap : Heap) (info : Ptr)
    (wl : List Ptr) (heap1 : Heap) (wl1 : List Ptr) (heap2 : Heap) (wl2 : List Ptr)
    (hinv : CleanupInv heap0 m heap (info :: wl))
    (h1 : markTarget m (heap info).specification (heap, wl) = some (heap1, wl1))
    (h2 : markTarget m (heap info).abstract_origin (heap1, wl1) = some (heap2, wl2)) :
    CleanupInv heap0 m heap2 wl2 ∧
      wl2.length + unusedCount heap2 m ≤ wl.length + unusedCount heap m := by
  obtain ⟨F1, W1a, W1b, U1, T1, M1⟩ := markTarget_spec m _ heap wl heap1 wl1 h1
  obtain ⟨F2, W2a, W2b, U2, T2, M2⟩ := markTarget_spec m _ heap1 wl1 heap2 wl2 h2
  have mono1 : ∀ p, (heap p).used = true → (heap1 p).used = true := by
    intro p hp
    rcases F1 p with h | h <;> rw [h]
    · exact hp
  have mono2 : ∀ p, (heap1 p).used = true → (heap2 p).used = true := by
    intro p hp
    rcases F2 p with h | h <;> rw [h]
    · exact hp
  obtain ⟨hs, ha, _⟩ := frame_links heap0 heap info (hinv.frame info)
  obtain ⟨⟨ei, hei, heq⟩, hused⟩ := hinv.listed info (List.mem_cons_self _ _)
  have hlive : Live heap0 m info := by
    have := hinv.sound ei hei (by rw [heq]; exact hused)
    rwa [heq] at this
  have hliveS : ∀ p, (heap info).specification ≠ 0 →
      mapFind (heap info).specification m = some p → Live heap0 m p := by
    intro p hne hf
    obtain ⟨e, he, hu, hr⟩ := hlive
    exact ⟨e, he, hu, hr.tail (Or.inl ⟨by rwa [← hs], by rwa [← hs]⟩)⟩
  have hliveA : ∀ p, (heap info).abstract_origin ≠ 0 →
      mapFind (heap info).abstract_origin m = some p → Live heap0 m p := by
    intro p hne hf
    obtain ⟨e, he, hu, hr⟩ := hlive
    exact ⟨e, he, hu, hr.tail (Or.inr ⟨by rwa [← ha], by rwa [← ha]⟩)⟩
  refine ⟨⟨?_, ?_, ?_, ?_⟩, le_trans M2 M1⟩
  · intro p
    rcases hinv.frame p with a | a <;> rcases F1 p with b | b <;> rcases F2 p with c | c <;>
      simp [a, b, c]
  · intro p hp
    rcases W2b p hp with hp1 | ⟨hne, hf⟩
    · rcases W1b p hp1 with hp0 | ⟨hne, hf⟩
      · obtain ⟨hin, hu⟩ := hinv.listed p (List.mem_cons_of_mem _ hp0)
        exact ⟨hin, mono2 p (mono1 p hu)⟩
      · exact ⟨⟨_, mapFind_mem _ m p hf, rfl⟩, mono2 p (T1 hne p hf)⟩
    · exact ⟨⟨_, mapFind_mem _ m p hf, rfl⟩, T2 hne p hf⟩
  · intro e he hu
    rcases U2 e.2 hu with hu1 | ⟨_, hne, hf⟩
    · rcases U1 e.2 hu1 with hu0 | ⟨_, hne, hf⟩
      · exact hinv.sound e he hu0
      · exact hliveS e.2 hne hf
    · exact hliveA e.2 hne hf
  · intro e he hu
    rcases U2 e.2 hu with hu1 | ⟨hin, _, _⟩
    · rcases U1 e.2 hu1 with hu0 | ⟨hin, _, _⟩
      · rcases hinv.closed e he hu0 with hmem | hall
        · rcases List.mem_cons.mp hmem with heq2 | hmem
          · right
            intro q hq
            rw [heq2] at hq
            rcases hq with ⟨hne, hf⟩ | ⟨hne, hf⟩
            · rw [← hs] at hne hf
              exact mono2 q (T1 hne q hf)
            · rw [← ha] at hne hf
              exact T2 hne q hf
          · exact Or.inl (W2a _ (W1a _ hmem))
        · exact Or.inr (fun q hq => mono2 q (mono1 q (hall q hq)))
      · exact Or.inl (W2a _ hin)
    · exact Or.inl hin

/-- With as much fuel as the length of the work list plus the number of
unused entries, the work-list loop ends, in a state that satisfies the
invariant with an empty work list. -/
theorem worklistLoop_spec (heap0 : Heap) (m : SubprogramsByOffsetMap)
    (hres : Resolves heap0 m) :
    ∀ (fuel : Nat) (heap : Heap) (wl : List Ptr), CleanupInv heap0 m heap wl →
      wl.length + unusedCount heap m ≤ fuel →
      ∃ heap1, worklistLoop m fuel heap wl = some heap1 ∧ CleanupInv heap0 m heap1 [] := by
  intro fuel
  induction fuel with
  | zero =>
    intro heap wl hinv hfuel
    cases wl with
    | nil => exact ⟨heap, rfl, hinv⟩
    | cons info wl => simp at hfuel
  | succ fuel ih =>
    intro heap wl hinv hfuel
    cases wl with
    | nil => exact ⟨heap, rfl, hinv⟩
    | cons info wl =>
      obtain ⟨hs, ha, _⟩ := frame_links heap0 heap info (hinv.frame info)
      obtain ⟨⟨ei, hei, heq⟩, _⟩ := hinv.listed info (List.mem_cons_self _ _)
      have hr := hres ei hei
      rw [heq, ← hs, ← ha] at hr
      obtain ⟨⟨heap1, wl1⟩, h1⟩ := markTarget_some m (heap info).specification (heap, wl)
        (fun h => Option.isSome_iff_exists.mp (hr.1 h))
      obtain ⟨⟨heap2, wl2⟩, h2⟩ :=
        markTarget_some m (heap info).abstract_origin (heap1, wl1)
        (fun h => Option.isSome_iff_exists.mp (hr.2 h))
      obtain ⟨hinv2, hm⟩ := cleanup_step heap0 m heap info wl heap1 wl1 heap2 wl2 hinv h1 h2
      have hfuel2 : wl2.length + unusedCount heap2 m ≤ fuel := by
        simp only [List.length_cons] at hfuel
        omega
      obtain ⟨heap3, h3, hinv3⟩ := ih heap2 wl2 hinv2 hfuel2
      refine ⟨heap3, ?_, hinv3⟩
      rw [worklistLoop]
      simp only [h1, h2]
      exact h3

theorem initialWorklist_fold (heap : Heap) (m : SubprogramsByOffsetMap) :
    ∀ acc : List Ptr,
      (∀ p, p ∈ m.foldl (fun worklist offset_subprogram =>
          if (heap offset_subprogram.2).used then offset_subprogram.2 :: worklist
          else worklist) acc ↔
        p ∈ acc ∨ ∃ e ∈ m, e.2 = p ∧ (heap p).used = true) ∧
      (m.foldl (fun worklist offset_subprogram =>
          if (heap offset_subprogram.2).used then offset_subprogram.2 :: worklist
          else worklist) acc).length + unusedCount heap m = acc.length + m.length := by
  induction m with
  | nil => intro acc; simp [unusedCount]
  | cons e m ih =>
    intro acc
    rw [List.foldl_cons]
    by_cases hu : (heap e.2).used = true
    · obtain ⟨h1, h2⟩ := ih (e.2 :: acc)
      simp only [hu, if_true]
      constructor
      · intro p
        rw [h1 p]
        simp only [List.mem_cons, exists_eq_or_imp]
        constructor
        · rintro ((rfl | h) | h)
          · exact Or.inr (Or.inl ⟨rfl, hu⟩)
          · exact Or.inl h
          · exact Or.inr (Or.inr h)
        · rintro (h | ⟨h, _⟩ | h)
          · exact Or.inl (Or.inr h)
          · exact Or.inl (Or.inl h.symm)
          · exact Or.inr h
      · have : unusedCount heap (e :: m) = unusedCount heap m := by
          unfold unusedCount
          rw [List.countP_cons_of_neg]
          simp [hu]
        rw [this, h2]
        simp only [List.length_cons]
        omega
    · obtain ⟨h1, h2⟩ := ih acc
      have hu' : (heap e.2).used = false := by simpa using hu
      simp only [hu', Bool.false_eq_true, if_false]
      constructor
      · intro p
        rw [h1 p]
        simp only [List.mem_cons, exists_eq_or_imp]
        constructor
        · rintro (h | h)
          · exact Or.inl h
          · exact Or.inr (Or.inr h)
        · rintro (h | ⟨h, h'⟩ | h)
          · exact Or.inl h
          · rw [← h, hu'] at h'
            exact absurd h' (by simp)
          · exact Or.inr h
      · have : unusedCount heap (e :: m) = unusedCount heap m + 1 := by
          unfold unusedCount
          rw [List.countP_cons_of_pos]
          simp [hu']
        rw [this]
        simp only [List.length_cons]
        omega

theorem cleanup_initial (heap : Heap) (m : SubprogramsByOffsetMap) :
    CleanupInv heap m heap (initialWorklist heap m) ∧
      (initialWorklist heap m).length + unusedCount heap m = m.length := by
  obtain ⟨h1, h2⟩ := initialWorklist_fold heap m []
  have hmem : ∀ p, p ∈ initialWorklist heap m ↔ ∃ e ∈ m, e.2 = p ∧ (heap p).used = true := by
    intro p
    have := h1 p
    simpa [initialWorklist] using this
  refine ⟨⟨fun p => Or.inl rfl, ?_, ?_, ?_⟩, by simpa [initialWorklist] using h2⟩
  · intro p hp
    obtain ⟨e, he, heq, hu⟩ := (hmem p).mp hp
    exact ⟨⟨e, he, heq⟩, hu⟩
  · intro e he hu
    exact ⟨e, he, hu, Relation.ReflTransGen.refl⟩
  · intro e he hu
    exact Or.inl ((hmem e.2).mpr ⟨e, he, rfl, hu⟩)

theorem cleanup_final (heap0 : Heap) (m : SubprogramsByOffsetMap) (heap1 : Heap)
    (hinv : CleanupInv heap0 m heap1 []) (e : Nat × Ptr) (he : e ∈ m) :
    (heap1 e.2).used = true ↔ Live heap0 m e.2 := by
  constructor
  · exact hinv.sound e he
  · rintro ⟨e0, he0, hu0, hreach⟩
    have hstart : (∃ e1 ∈ m, e1.2 = e0.2) ∧ (heap1 e0.2).used = true :=
      ⟨⟨e0, he0, rfl⟩, (frame_links heap0 heap1 e0.2 (hinv.frame e0.2)).2.2 hu0⟩
    have key : ∀ q, Relation.ReflTransGen (Hop heap0 m) e0.2 q →
        (∃ e1 ∈ m, e1.2 = q) ∧ (heap1 q).used = true := by
      intro q hq
      induction hq with
      | refl => exact hstart
      | tail _ hhop ih =>
        obtain ⟨⟨e1, he1, heq⟩, hu⟩ := ih
        rcases hinv.closed e1 he1 (by rw [heq]; exact hu) with hmem | hall
        · exact absurd hmem (List.not_mem_nil _)
        · refine ⟨?_, hall _ (by rw [heq]; exact hhop)⟩
          rcases hhop with ⟨_, hf⟩ | ⟨_, hf⟩
          · exact ⟨_, mapFind_mem _ m _ hf, rfl⟩
          · exact ⟨_, mapFind_mem _ m _ hf, rfl⟩
    exact (key e.2 hreach).2

/-- C9. Split-unit clean-up computes the live closure: when every non-zero
specification and abstract_origin offset of a record of the map resolves in
the map, `CleanupUnusedSubprograms` returns (with fuel for one iteration per
entry), and an entry is kept, under its offset, exactly when its record is
reachable in zero or more specification / abstract_origin hops from a record
of the map that was used at the call; every kept record is used, and the
records differ from those at the call only in the used flag. -/
theorem CleanupUnusedSubprograms_live_closure (fuel : Nat) (heap : Heap)
    (m : SubprogramsByOffsetMap) (hres : Resolves heap m) (hfuel : m.length ≤ fuel) :
    ∃ heap1 m1, CleanupUnusedSubprograms fuel heap m = some (heap1, m1) ∧
      (∀ e, e ∈ m1 ↔ e ∈ m ∧ Live heap m e.2) ∧
      (∀ e ∈ m1, (heap1 e.2).used = true) ∧
      m1.Sublist m ∧
      (∀ p, heap1 p = heap p ∨ heap1 p = { heap p with used := true }) := by
  obtain ⟨hinit, hlen⟩ := cleanup_initial heap m
  obtain ⟨heap1, hloop, hinv⟩ := worklistLoop_spec heap m hres fuel heap
    (initialWorklist heap m) hinit (by omega)
  refine ⟨heap1, m.filter (fun offset_subprogram => (heap1 offset_subprogram.2).used), ?_,
    ?_, ?_, List.filter_sublist m, hinv.frame⟩
  · simp [CleanupUnusedSubprograms, hloop]
  · intro e
    rw [List.mem_filter]
    constructor
    · rintro ⟨he, hu⟩
      exact ⟨he, (cleanup_final heap m heap1 hinv e he).mp hu⟩
    · rintro ⟨he, hl⟩
      exact ⟨he, (cleanup_final heap m heap1 hinv e he).mpr hl⟩
  · intro e he
    exact (List.mem_filter.mp he).2

/-- Scenario 5: `X`, `Y` and `Z` are kept under their offsets and `W` is
dropped. -/
theorem CleanupUnusedSubprograms_live_closure_witness :
    (Resolves cleanupHeap cleanupMap ∧ cleanupMap.length ≤ 4) ∧
    (∃ heap1 m1, CleanupUnusedSubprograms 4 cleanupHeap cleanupMap = some (heap1, m1) ∧
      (∀ e, e ∈ m1 ↔ e ∈ cleanupMap ∧ Live cleanupHeap cleanupMap e.2) ∧
      (∀ e ∈ m1, (heap1 e.2).used = true) ∧
      m1.Sublist cleanupMap ∧
      (∀ p, heap1 p = cleanupHeap p ∨ heap1 p = { cleanupHeap p with used := true })) ∧
    (CleanupUnusedSubprograms 4 cleanupHeap cleanupMap).map Prod.snd =
      some [(100, 21), (200, 22), (300, 23)] :=
  ⟨⟨by decide, by decide⟩,
    CleanupUnusedSubprograms_live_closure 4 cleanupHeap cleanupMap (by decide) (by decide),
    by decide⟩

/-! ## GetDeclaration -/

theorem declarationLoop_succ (heap : Heap) (m : SubprogramsByOffsetMap) (fuel : Nat)
    (d : Ptr) :
    declarationLoop heap m (fuel + 1) d =
      if declStops heap d then some d
      else match nextOnChain heap m d with
        | none => none
        | some next => declarationLoop heap m fuel next := by
  rw [declarationLoop]
  unfold declStops nextOnChain
  by_cases h1 : (heap d).name = "" <;> by_cases h2 : (heap d).callsite_line = 0 <;>
    by_cases h3 : (heap d).specification = 0 <;> by_cases h4 : (heap d).abstract_origin = 0 <;>
    simp [h1, h2, h3, h4]

theorem declarationLoop_of_firstStop (heap : Heap) (m : SubprogramsByOffsetMap) (n : Nat) :
    ∀ (fuel : Nat) (subprog d : Ptr), FirstStop heap m subprog n d → n < fuel →
      declarationLoop heap m fuel subprog = some d := by
  induction n with
  | zero =>
    intro fuel subprog d hfs hfuel
    obtain ⟨hc, hstop, _⟩ := hfs
    obtain ⟨f, rfl⟩ : ∃ f, fuel = f + 1 := ⟨fuel - 1, by omega⟩
    simp only [chainAt, Option.some.injEq] at hc
    subst hc
    rw [declarationLoop_succ, if_pos hstop]
  | succ n ih =>
    intro fuel subprog d hfs hfuel
    obtain ⟨hc, hstop, hbefore⟩ := hfs
    obtain ⟨f, rfl⟩ : ∃ f, fuel = f + 1 := ⟨fuel - 1, by omega⟩
    have h0 : ¬ declStops heap subprog := hbefore 0 (by omega) subprog (by simp [chainAt])
    rw [declarationLoop_succ, if_neg h0]
    rw [chainAt] at hc
    cases hnx : nextOnChain heap m subprog with
    | none => rw [hnx] at hc; simp at hc
    | some next =>
      rw [hnx] at hc
      simp only at hc ⊢
      apply ih f next d ⟨hc, hstop, ?_⟩ (by omega)
      intro k hk e he
      apply hbefore (k + 1) (by omega) e
      rw [chainAt, hnx]
      exact he

theorem firstStop_of_declarationLoop (heap : Heap) (m : SubprogramsByOffsetMap) (fuel : Nat) :
    ∀ (subprog d : Ptr), declarationLoop heap m fuel subprog = some d →
      ∃ n, n < fuel ∧ FirstStop heap m subprog n d := by
  induction fuel with
  | zero => intro subprog d h; simp [declarationLoop] at h
  | succ f ih =>
    intro subprog d h
    rw [declarationLoop_succ] at h
    by_cases hstop : declStops heap subprog
    · rw [if_pos hstop] at h
      simp only [Option.some.injEq] at h
      subst h
      exact ⟨0, by omega, rfl, hstop, fun k hk => absurd hk (by omega)⟩
    · rw [if_neg hstop] at h
      cases hnx : nextOnChain heap m subprog with
      | none => rw [hnx] at h; simp at h
      | some next =>
        rw [hnx] at h
        simp only at h
        obtain ⟨n, hn, hc, hs, hbefore⟩ := ih next d h
        refine ⟨n + 1, by omega, ?_, hs, ?_⟩
        · rw [chainAt, hnx]
          exact hc
        · intro k hk e he
          cases k with
          | zero =>
            simp only [chainAt, Option.mem_def, Option.some.injEq] at he
            subst he
            exact hstop
          | succ k =>
            rw [chainAt, hnx] at he
            exact hbefore k (by omega) e he

theorem GetDeclaration_eq_loop (fuel : Nat) (heap : Heap)
    (maps : List SubprogramsByOffsetMap) (subprog : Ptr) (m : SubprogramsByOffsetMap)
    (h0 : 0 ≤ (heap subprog).input_file_index)
    (hm : maps.get? (heap subprog).input_file_index.toNat = some m) :
    GetDeclaration fuel heap maps subprog = declarationLoop heap m fuel subprog := by
  have hlt : (heap subprog).input_file_index.toNat < maps.length := by
    rcases Nat.lt_or_ge (heap subprog).input_file_index.toNat maps.length with h | h
    · exact h
    · rw [List.get?_eq_none.mpr h] at hm
      simp at hm
  have hlt' : (heap subprog).input_file_index < (maps.length : Int) := by omega
  unfold GetDeclaration
  simp only [h0, hlt', and_self, if_true, hm]

/-- C10. `GetDeclaration` returns the first record on the reference chain
from its argument (each hop follows the specification when it is non-zero,
otherwise the abstract origin) that has a name and a call-site line or has
neither reference: if that record is `n` hops away, any fuel above `n` gives
it; whatever is returned is that record; and an argument that already has a
name and a call-site line is returned itself. -/
theorem GetDeclaration_first_stop (fuel : Nat) (heap : Heap)
    (maps : List SubprogramsByOffsetMap) (subprog : Ptr) (m : SubprogramsByOffsetMap)
    (h0 : 0 ≤ (heap subprog).input_file_index)
    (hm : maps.get? (heap subprog).input_file_index.toNat = some m) :
    (∀ n d, FirstStop heap m subprog n d → n < fuel →
      GetDeclaration fuel heap maps subprog = some d) ∧
    (∀ d, GetDeclaration fuel heap maps subprog = some d →
      ∃ n, n < fuel ∧ FirstStop heap m subprog n d) ∧
    ((heap subprog).name ≠ "" → (heap subprog).callsite_line ≠ 0 → 0 < fuel →
      GetDeclaration fuel heap maps subprog = some subprog) := by
  rw [GetDeclaration_eq_loop fuel heap maps subprog m h0 hm]
  refine ⟨fun n d hfs hn => declarationLoop_of_firstStop heap m n fuel subprog d hfs hn,
    fun d h => firstStop_of_declarationLoop heap m fuel subprog d h, ?_⟩
  intro hname hline hfuel
  exact declarationLoop_of_firstStop heap m 0 fuel subprog subprog
    ⟨rfl, Or.inl ⟨hname, hline⟩, fun k hk => absurd hk (by omega)⟩ hfuel

/-- From record 21 the chain is 21, 22, 23 and record 23 is the first with a
name and a line; record 25 has both and is returned itself. -/
theorem GetDeclaration_first_stop_witness :
    ((0 ≤ (declarationHeap 21).input_file_index ∧
      [declarationMap].get? (declarationHeap 21).input_file_index.toNat =
        some declarationMap) ∧
      FirstStop declarationHeap declarationMap 21 2 23) ∧
    GetDeclaration 3 declarationHeap [declarationMap] 21 = some 23 ∧
    GetDeclaration 1 declarationHeap [declarationMap] 25 = some 25 :=
  ⟨⟨⟨by decide, by decide⟩, by decide, by decide, by decide⟩,
    (GetDeclaration_first_stop 3 declarationHeap [declarationMap] 21 declarationMap
      (by decide) (by decide)).1 2 23 ⟨by decide, by decide, by decide⟩ (by decide),
    (GetDeclaration_first_stop 1 declarationHeap [declarationMap] 25 declarationMap
      (by decide) (by decide)).2.2 (by decide) (by decide) (by decide)⟩

/-! ## Termination of GetDeclaration -/

theorem chainAt_succ (heap : Heap) (m : SubprogramsByOffsetMap) (n : Nat) :
    ∀ s : Ptr, chainAt heap m (n + 1) s =
      match chainAt heap m n s with
      | none => none
      | some d => nextOnChain heap m d := by
  induction n with
  | zero =>
    intro s
    simp only [chainAt]
    cases nextOnChain heap m s <;> rfl
  | succ n ih =>
    intro s
    rw [chainAt]
    cases hnx : nextOnChain heap m s with
    | none => simp [chainAt, hnx]
    | some next =>
      simp only
      rw [ih next]
      conv_rhs => rw [chainAt, hnx]

theorem followAt_chain (heap : Heap) (m : SubprogramsByOffsetMap) (s : Ptr) (n : Nat) :
    ∀ d, followAt heap m s n = some d →
      chainAt heap m n s = some d ∧ ∀ k < n, ∀ e ∈ chainAt heap m k s, ¬ declStops heap e := by
  induction n with
  | zero =>
    intro d h
    simp only [followAt, Option.some.injEq] at h
    subst h
    exact ⟨rfl, fun k hk => absurd hk (by omega)⟩
  | succ n ih =>
    intro d h
    rw [followAt] at h
    cases hf : followAt heap m s n with
    | none => rw [hf] at h; simp at h
    | some d0 =>
      rw [hf] at h
      simp only at h
      obtain ⟨hc, hb⟩ := ih d0 hf
      by_cases hs : declStops heap d0
      · rw [if_pos hs] at h; simp at h
      · rw [if_neg hs] at h
        refine ⟨by rw [chainAt_succ, hc]; exact h, ?_⟩
        intro k hk e he
        rcases Nat.lt_succ_iff_lt_or_eq.mp hk with hlt | heq
        · exact hb k hlt e he
        · subst heq
          rw [hc] at he
          simp only [Option.mem_def, Option.some.injEq] at he
          subst he
          exact hs

theorem nextOnChain_mem (heap : Heap) (m : SubprogramsByOffsetMap) (d next : Ptr)
    (h : nextOnChain heap m d = some next) : next ∈ m.map Prod.snd := by
  unfold nextOnChain at h
  have key : ∀ k, mapFind k m = some next → next ∈ m.map Prod.snd := fun k hk =>
    List.mem_map.mpr ⟨(k, next), mapFind_mem k m next hk, rfl⟩
  split at h
  · exact key _ h
  · split at h
    · exact key _ h
    · simp at h

theorem nextOnChain_some (heap : Heap) (m : SubprogramsByOffsetMap) (hres : Resolves heap m)
    (d : Ptr) (hd : d ∈ m.map Prod.snd) (hs : ¬ declStops heap d) :
    ∃ next, nextOnChain heap m d = some next := by
  obtain ⟨e, he, rfl⟩ := List.mem_map.mp hd
  obtain ⟨h1, h2⟩ := hres e he
  unfold nextOnChain
  by_cases hspec : (heap e.2).specification ≠ 0
  · rw [if_pos hspec]
    exact Option.isSome_iff_exists.mp (h1 hspec)
  · rw [if_neg hspec]
    by_cases hao : (heap e.2).abstract_origin ≠ 0
    · rw [if_pos hao]
      exact Option.isSome_iff_exists.mp (h2 hao)
    · exfalso
      apply hs
      right
      exact ⟨by simpa using hspec, by simpa using hao⟩

/-- Either the loop has met a stopping record within fewer than `n` hops, or
it holds a record of the map after each number of hops up to `n`. -/
theorem followAt_progress (heap : Heap) (m : SubprogramsByOffsetMap) (hres : Resolves heap m)
    (s : Ptr) (hs : s ∈ m.map Prod.snd) (n : Nat) :
    (∃ k, k < n ∧ ∃ d, FirstStop heap m s k d) ∨
    (∀ k ≤ n, ∃ d, followAt heap m s k = some d ∧ d ∈ m.map Prod.snd) := by
  induction n with
  | zero =>
    right
    intro k hk
    have : k = 0 := by omega
    subst this
    exact ⟨s, rfl, hs⟩
  | succ n ih =>
    rcases ih with ⟨k, hk, hd⟩ | hall
    · exact Or.inl ⟨k, by omega, hd⟩
    · obtain ⟨d, hf, hdm⟩ := hall n (le_refl n)
      by_cases hstop : declStops heap d
      · left
        obtain ⟨hc, hb⟩ := followAt_chain heap m s n d hf
        exact ⟨n, by omega, d, hc, hstop, hb⟩
      · right
        obtain ⟨next, hnx⟩ := nextOnChain_some heap m hres d hdm hstop
        intro k hk
        rcases Nat.lt_succ_iff_lt_or_eq.mp (Nat.lt_succ_of_le hk) with hlt | heq
        · exact hall k (by omega)
        · subst heq
          refine ⟨next, ?_, nextOnChain_mem heap m d next hnx⟩
          rw [followAt, hf]
          simp only [hstop, if_false]
          exact hnx

/-- A chain without a cycle cannot hold records of the map after each of
`0, …, N` hops, where `N` is the number of entries of the map. -/
theorem followAt_pigeonhole (heap : Heap) (m : SubprogramsByOffsetMap) (s : Ptr)
    (hnc : NoCycle heap m s)
    (hall : ∀ k ≤ m.length, ∃ d, followAt heap m s k = some d ∧ d ∈ m.map Prod.snd) : False := by
  let f : Nat → Ptr := fun k => (followAt heap m s k).getD 0
  have hnodup : ((List.range (m.length + 1)).map f).Nodup := by
    apply List.Nodup.map_on _ (List.nodup_range _)
    intro i hi j hj hij
    obtain ⟨di, hfi, _⟩ := hall i (by have := List.mem_range.mp hi; omega)
    obtain ⟨dj, hfj, _⟩ := hall j (by have := List.mem_range.mp hj; omega)
    have h1 : f i = di := by simp [f, hfi]
    have h2 : f j = dj := by simp [f, hfj]
    rw [h1, h2] at hij
    rw [hij] at hfi
    exact hnc i j dj hfi hfj
  have hsub : (List.range (m.length + 1)).map f ⊆ m.map Prod.snd := by
    intro x hx
    obtain ⟨k, hk, rfl⟩ := List.mem_map.mp hx
    obtain ⟨d, hf, hd⟩ := hall k (by have := List.mem_range.mp hk; omega)
    have : f k = d := by simp [f, hf]
    rw [this]
    exact hd
  have hlen := (hnodup.subperm hsub).length_le
  simp at hlen

/-- C11. `GetDeclaration` terminates within `N` hops, `N` the number of
entries of the argument's offset map: when the argument is a record of that
map, every non-zero specification / abstract_origin offset of a record of the
map resolves in it, and the chain followed from the argument has no cycle,
the first stopping record is fewer than `N` hops away and any fuel above that
number of hops (in particular fuel `N`) returns it. -/
theorem GetDeclaration_terminates (heap : Heap) (maps : List SubprogramsByOffsetMap)
    (subprog : Ptr) (m : SubprogramsByOffsetMap)
    (h0 : 0 ≤ (heap subprog).input_file_index)
    (hm : maps.get? (heap subprog).input_file_index.toNat = some m)
    (hsub : subprog ∈ m.map Prod.snd) (hres : Resolves heap m)
    (hnc : NoCycle heap m subprog) :
    ∃ n d, n < m.length ∧ n ≤ m.length ∧ FirstStop heap m subprog n d ∧
      ∀ fuel, n < fuel → GetDeclaration fuel heap maps subprog = some d := by
  rcases followAt_progress heap m hres subprog hsub m.length with ⟨k, hk, d, hfs⟩ | hall
  · refine ⟨k, d, hk, by omega, hfs, ?_⟩
    intro fuel hfuel
    rw [GetDeclaration_eq_loop fuel heap maps subprog m h0 hm]
    exact declarationLoop_of_firstStop heap m k fuel subprog d hfs hfuel
  · exact absurd (followAt_pigeonhole heap m subprog hnc hall) (fun h => h)

theorem followAt_none_mono (heap : Heap) (m : SubprogramsByOffsetMap) (s : Ptr) (n : Nat)
    (hn : followAt heap m s n = none) : ∀ k, n ≤ k → followAt heap m s k = none := by
  intro k hk
  induction k with
  | zero =>
    have : n = 0 := by omega
    subst this
    exact hn
  | succ k ih =>
    rcases Nat.lt_succ_iff_lt_or_eq.mp (Nat.lt_succ_of_le hk) with hlt | heq
    · rw [followAt, ih (by omega)]
    · subst heq
      exact hn

theorem exampleNoCycle : NoCycle declarationHeap declarationMap 21 := by
  intro i j d hi hj
  have v0 : followAt declarationHeap declarationMap 21 0 = some 21 := by decide
  have v1 : followAt declarationHeap declarationMap 21 1 = some 22 := by decide
  have v2 : followAt declarationHeap declarationMap 21 2 = some 23 := by decide
  have v3 : followAt declarationHeap declarationMap 21 3 = none := by decide
  have hi3 : i < 3 := by
    by_contra h
    rw [followAt_none_mono _ _ _ 3 v3 i (by omega)] at hi
    simp at hi
  have hj3 : j < 3 := by
    by_contra h
    rw [followAt_none_mono _ _ _ 3 v3 j (by omega)] at hj
    simp at hj
  interval_cases i <;> interval_cases j <;> simp_all

/-- From record 21 the chain 21, 22, 23 has no cycle and the map has four
entries: the loop stops at record 23 after two hops. -/
theorem GetDeclaration_terminates_witness :
    ((0 ≤ (declarationHeap 21).input_file_index ∧
      [declarationMap].get? (declarationHeap 21).input_file_index.toNat =
        some declarationMap) ∧
      21 ∈ declarationMap.map Prod.snd ∧ Resolves declarationHeap declarationMap ∧
      NoCycle declarationHeap declarationMap 21) ∧
    (∃ n d, n < declarationMap.length ∧ n ≤ declarationMap.length ∧
      FirstStop declarationHeap declarationMap 21 n d ∧
      ∀ fuel, n < fuel → GetDeclaration fuel declarationHeap [declarationMap] 21 = some d) ∧
    GetDeclaration declarationMap.length declarationHeap [declarationMap] 21 = some 23 :=
  ⟨⟨⟨by decide, by decide⟩, by decide, by decide, exampleNoCycle⟩,
    GetDeclaration_terminates declarationHeap [declarationMap] 21 declarationMap
      (by decide) (by decide) (by decide) (by decide) exampleNoCycle,
    by decide⟩

/-! ## SortAndMerge and adjacent ranges -/

theorem sortRanges_pair (p q : Range) (h : pairLe p q) : sortRanges [p, q] = [p, q] := by
  simp [sortRanges, List.insertionSort, List.orderedInsert, h]

/-- The input `[1,2), [2,3)` comes out as two ranges, the first ending where
the second starts: its consecutive ranges do not satisfy `p.hi < q.lo` and it
is not the single range `[1,3)`. -/
theorem SortAndMerge_adjacent_not_fused :
    (SortAndMerge 0 [(1, 2), (2, 3)]).1 = [(1, 2), (2, 3)] ∧
    (SortAndMerge 0 [(1, 2), (2, 3)]).1 ≠ [(1, 3)] ∧
    ¬ (SortAndMerge 0 [(1, 2), (2, 3)]).1.Chain' (fun p q => p.2 < q.1) := by
  have h : (SortAndMerge 0 [(1, 2), (2, 3)]).1 = [(1, 2), (2, 3)] := by decide
  refine ⟨h, ?_, ?_⟩
  · rw [h]
    decide
  · rw [h]
    simp

theorem pairLe_antisymm (p q : Range) (h1 : pairLe p q) (h2 : pairLe q p) : p = q := by
  unfold pairLe at h1 h2
  apply Prod.ext <;> omega

/-- The sorted arrangement depends only on the ranges listed, not on their
order in the input. -/
theorem sortRanges_perm (xs ys : List Range) (h : xs.Perm ys) :
    sortRanges xs = sortRanges ys := by
  haveI : IsAntisymm Range pairLe := ⟨pairLe_antisymm⟩
  apply List.eq_of_perm_of_sorted _ (sortRanges_sorted xs) (sortRanges_sorted ys)
  exact ((List.perm_insertionSort pairLe xs).trans h).trans
    (List.perm_insertionSort pairLe ys).symm

/-- A range that no listed range follows in the pair order is sorted last. -/
theorem sortRanges_snoc (xs : List Range) (r : Range) (h : ∀ x ∈ xs, pairLe x r) :
    sortRanges (xs ++ [r]) = sortRanges xs ++ [r] := by
  haveI : IsAntisymm Range pairLe := ⟨pairLe_antisymm⟩
  apply List.eq_of_perm_of_sorted _ (sortRanges_sorted (xs ++ [r]))
  · unfold List.Sorted
    rw [List.pairwise_append]
    refine ⟨sortRanges_sorted xs, List.pairwise_singleton _ _, ?_⟩
    intro a ha b hb
    rw [List.mem_singleton] at hb
    rw [hb]
    exact h a ((List.perm_insertionSort pairLe xs).mem_iff.mp ha)
  · exact (List.perm_insertionSort pairLe (xs ++ [r])).trans
      ((List.perm_insertionSort pairLe xs).symm.append_right [r])

/-- C14 (amended). `SortAndMerge` fuses overlapping ranges only.  For every
input list two consecutive ranges `p`, `q` of the output satisfy
`p.hi ≤ q.lo`; the output does not depend on the order of the input and is
empty for the empty input; and when a range `r` that sorts last is added to
any input, the output is the output without `r` changed at its end only: `r`
is pushed as a range of its own when it starts at or after the end of the
last output range (so an adjacent range stays a range of its own), and when
it starts before that end the last output range `[lo, hi)` is replaced by the
hull `[lo, max(r.hi, hi))`.  For two input ranges in order this gives the
pair itself or the one hull. -/
theorem SortAndMerge_fuses_overlapping_only :
    (∀ (overlap_count : Nat) (rangelist : List Range),
      (SortAndMerge overlap_count rangelist).1.Chain' (fun p q => p.2 ≤ q.1)) ∧
    (∀ (overlap_count : Nat) (rangelist permuted : List Range), rangelist.Perm permuted →
      (SortAndMerge overlap_count rangelist).1 = (SortAndMerge overlap_count permuted).1) ∧
    (∀ overlap_count : Nat, (SortAndMerge overlap_count []).1 = []) ∧
    (∀ (overlap_count : Nat) (rangelist : List Range) (r : Range),
      (∀ x ∈ rangelist, pairLe x r) →
      (SortAndMerge overlap_count (rangelist ++ [r])).1 =
        match (SortAndMerge overlap_count rangelist).1.getLast? with
        | none => [r]
        | some prev =>
          if r.1 ≥ prev.2 then (SortAndMerge overlap_count rangelist).1 ++ [r]
          else (SortAndMerge overlap_count rangelist).1.dropLast ++
            [(prev.1, max r.2 prev.2)]) ∧
    (∀ (overlap_count : Nat) (p q : Range), pairLe p q →
      (SortAndMerge overlap_count [p, q]).1 =
        if q.1 ≥ p.2 then [p, q] else [(p.1, max q.2 p.2)]) := by
  refine ⟨?_, ?_, ?_, ?_, ?_⟩
  · intro overlap_count rangelist
    have hc := (foldl_mergeStep_sorted (sortRanges rangelist) (sortRanges_sorted rangelist)).2
    exact List.Chain'.imp (fun _ _ h => h.2) hc
  · intro overlap_count rangelist permuted hperm
    simp only [SortAndMerge, sortRanges_perm rangelist permuted hperm]
  · intro overlap_count
    rfl
  · intro overlap_count rangelist r hlast
    simp only [SortAndMerge, sortRanges_snoc rangelist r hlast, List.foldl_append,
      List.foldl_cons, List.foldl_nil]
    generalize List.foldl mergeStep [] (sortRanges rangelist) = merged
    unfold mergeStep
    cases hback : merged.getLast? with
    | none =>
      have hnil : merged = [] := List.getLast?_eq_none_iff.mp hback
      simp [hnil]
    | some prev => rfl
  · intro overlap_count p q h
    simp only [SortAndMerge, sortRanges_pair p q h, foldl_mergeStep_cons, mergeFrom]

/-- Adjacent `[1,2), [2,3)` stay apart, overlapping `[1,3), [2,4)` become
`[1,4)`; added to `[1,2), [2,3)`, the range `[3,5)` that starts at the last
end is pushed and the range `[2,5)` that starts before it is fused into
`[2,5)`. -/
theorem SortAndMerge_fuses_overlapping_only_witness :
    (pairLe (1, 2) (2, 3) ∧ (SortAndMerge 0 [(1, 2), (2, 3)]).1 = [(1, 2), (2, 3)]) ∧
    (pairLe (1, 3) (2, 4) ∧ (SortAndMerge 0 [(1, 3), (2, 4)]).1 = [(1, 4)]) ∧
    ((∀ x ∈ [((1, 2) : Range), (2, 3)], pairLe x (3, 5)) ∧
      (SortAndMerge 0 ([(1, 2), (2, 3)] ++ [(3, 5)])).1 = [(1, 2), (2, 3), (3, 5)]) ∧
    ((∀ x ∈ [((1, 2) : Range), (2, 3)], pairLe x (2, 5)) ∧
      (SortAndMerge 0 ([(1, 2), (2, 3)] ++ [(2, 5)])).1 = [(1, 2), (2, 5)]) ∧
    (SortAndMerge 0 [(2, 5), (1, 2), (2, 3)]).1 = (SortAndMerge 0 [(1, 2), (2, 3), (2, 5)]).1 :=
  ⟨⟨by decide, SortAndMerge_fuses_overlapping_only.2.2.2.2 0 (1, 2) (2, 3) (by decide)⟩,
    ⟨by decide, SortAndMerge_fuses_overlapping_only.2.2.2.2 0 (1, 3) (2, 4) (by decide)⟩,
    ⟨by decide,
      (SortAndMerge_fuses_overlapping_only.2.2.2.1 0 [(1, 2), (2, 3)] (3, 5)
        (by decide)).trans (by decide)⟩,
    ⟨by decide,
      (SortAndMerge_fuses_overlapping_only.2.2.2.1 0 [(1, 2), (2, 3)] (2, 5)
        (by decide)).trans (by decide)⟩,
    SortAndMerge_fuses_overlapping_only.2.1 0 [(2, 5), (1, 2), (2, 3)]
      [(1, 2), (2, 3), (2, 5)] (by decide)⟩

/-! ## Singleton ranges -/

/-- C16. What the two orders of arrival leave in a record without ranges:
with the low address first the high value is added to it when it is an
offset; with the high value first the range is `[L, H)` whether or not the
high value is an offset, so `SetSingletonRangeHigh(0x10, true)` followed by
`SetSingletonRangeLow(0x1000)` leaves `[0x1000, 0x10)` and not
`[0x1000, 0x1010)`. -/
theorem SetSingletonRange_arrival_orders :
    (∀ (info : SubprogramInfo) (L H : Nat) (is_offset : Bool),
      ((SetSingletonRangeLow { info with address_ranges := [] } L).bind
          (fun i => SetSingletonRangeHigh i H is_offset)).map (fun i => i.address_ranges) =
        some [(L, if is_offset then (L + H) % 2 ^ 64 else H)]) ∧
    (∀ (info : SubprogramInfo) (L H : Nat) (is_offset : Bool),
      ((SetSingletonRangeHigh { info with address_ranges := [] } H is_offset).bind
          (fun i => SetSingletonRangeLow i L)).map (fun i => i.address_ranges) =
        some [(L, H)]) ∧
    ((SetSingletonRangeHigh blankInfo 0x10 true).bind
        (fun i => SetSingletonRangeLow i 0x1000)).map (fun i => i.address_ranges) =
      some [(0x1000, 0x10)] ∧
    (0x1000, 0x10) ≠ (0x1000, (0x1000 + 0x10) % 2 ^ 64) := by
  refine ⟨?_, ?_, by decide, by decide⟩
  · intro info L H is_offset
    cases is_offset <;> simp [SetSingletonRangeLow, SetSingletonRangeHigh]
  · intro info L H is_offset
    cases is_offset <;> simp [SetSingletonRangeLow, SetSingletonRangeHigh]

/-! ## CallsiteFilename -/

theorem append_slash_ne (s : String) : s ++ "/" ≠ "" ∧ s ++ "/" ≠ "??" := by
  constructor
  · intro h
    have := congrArg String.length h
    simp only [String.length_append] at this
    have h1 : "/".length = 1 := by decide
    have h2 : "".length = 0 := by decide
    omega
  · intro h
    have := congrArg (fun t => t.data.reverse) h
    simp at this

/-- A record with a call-site directory and no file name gives `"dir/"`
rather than `"??"`. -/
theorem CallsiteFilename_directory_without_file :
    directoryOnlyInfo.callsite_filename = none ∧
    CallsiteFilename directoryOnlyInfo false false = some "dir/" ∧
    CallsiteFilename directoryOnlyInfo false false ≠ some "??" := by
  decide

/-- C17 (amended). For a record whose call-site file name is null or empty,
`CallsiteFilename` returns `"??"` when `basenames_only` is set; when it is
clear the result is `"??"` exactly when no directory is appended, that is
when `callsite_directory` is null and `with_comp_dir` is clear or
`comp_directory` is null; otherwise the result is the appended directory
prefix, which ends in `"/"`: the compilation directory and `"/"` when
`with_comp_dir` is set and `comp_directory` is not null, followed by the
call-site directory and `"/"` when `callsite_directory` is not null. -/
theorem CallsiteFilename_unknown_iff (info : SubprogramInfo)
    (hfile : info.callsite_filename = none ∨ info.callsite_filename = some "") :
    CallsiteFilename info true false = some "??" ∧
    (∀ with_comp_dir : Bool,
      (CallsiteFilename info false with_comp_dir = some "??" ↔
        info.callsite_directory = none ∧
          (with_comp_dir = false ∨ info.comp_directory = none))) ∧
    (∀ with_comp_dir : Bool, info.callsite_directory = none →
      (with_comp_dir = false ∨ info.comp_directory = none) →
      CallsiteFilename info false with_comp_dir = some "??") ∧
    (∀ comp_directory, info.callsite_directory = none →
      info.comp_directory = some comp_directory →
      CallsiteFilename info false true = some (comp_directory ++ "/")) ∧
    (∀ (with_comp_dir : Bool) callsite_directory,
      info.callsite_directory = some callsite_directory →
      (with_comp_dir = false ∨ info.comp_directory = none) →
      CallsiteFilename info false with_comp_dir = some (callsite_directory ++ "/")) ∧
    (∀ comp_directory callsite_directory,
      info.callsite_directory = some callsite_directory →
      info.comp_directory = some comp_directory →
      CallsiteFilename info false true =
        some (comp_directory ++ "/" ++ callsite_directory ++ "/")) := by
  have htail : ∀ rval, callsiteFilenameTail info rval = if rval = "" then "??" else rval := by
    intro rval
    unfold callsiteFilenameTail
    rcases hfile with h | h <;> simp [h]
  have hiff : ∀ with_comp_dir : Bool,
      (CallsiteFilename info false with_comp_dir = some "??" ↔
        info.callsite_directory = none ∧
          (with_comp_dir = false ∨ info.comp_directory = none)) := by
    intro with_comp_dir
    simp only [CallsiteFilename, htail, Bool.false_eq_true, if_false, Option.some.injEq]
    cases hdir : info.callsite_directory with
    | some d =>
      simp only [(append_slash_ne _).1, if_false, (append_slash_ne _).2, false_iff]
      simp
    | none =>
      cases with_comp_dir with
      | false => simp
      | true =>
        cases hcomp : info.comp_directory with
        | none => simp
        | some c =>
          simp only [(append_slash_ne _).1, if_false, (append_slash_ne _).2, false_iff]
          simp
  refine ⟨?_, hiff, ?_, ?_, ?_, ?_⟩
  · simp [CallsiteFilename, htail]
  · intro with_comp_dir hdir hcomp
    exact (hiff with_comp_dir).mpr ⟨hdir, hcomp⟩
  · intro c hdir hcomp
    simp only [CallsiteFilename, htail, Bool.false_eq_true, if_false, hdir, hcomp,
      (append_slash_ne _).1, String.empty_append]
  · intro with_comp_dir d hdir hcomp
    simp only [CallsiteFilename, htail, Bool.false_eq_true, if_false, hdir,
      (append_slash_ne _).1]
    rcases hcomp with hw | hc
    · subst hw
      simp only [String.empty_append]
    · rw [hc]
      cases with_comp_dir <;> simp only [String.empty_append]
  · intro c d hdir hcomp
    simp only [CallsiteFilename, htail, Bool.false_eq_true, if_false, hdir, hcomp,
      (append_slash_ne _).1, String.empty_append]

/-- A blank record gives `"??"`; a record with only a call-site directory
`"dir"` gives `"dir/"`. -/
theorem CallsiteFilename_unknown_iff_witness :
    (blankInfo.callsite_filename = none ∨ blankInfo.callsite_filename = some "") ∧
    CallsiteFilename blankInfo true false = some "??" ∧
    CallsiteFilename blankInfo false true = some "??" ∧
    CallsiteFilename directoryOnlyInfo false true ≠ some "??" ∧
    CallsiteFilename directoryOnlyInfo false true = some ("dir" ++ "/") :=
  ⟨Or.inl rfl,
    (CallsiteFilename_unknown_iff blankInfo (Or.inl rfl)).1,
    ((CallsiteFilename_unknown_iff blankInfo (Or.inl rfl)).2.1 true).mpr
      ⟨rfl, Or.inr rfl⟩,
    fun h => absurd
      (((CallsiteFilename_unknown_iff directoryOnlyInfo (Or.inl rfl)).2.1 true).mp h).1
      (by decide),
    (CallsiteFilename_unknown_iff directoryOnlyInfo (Or.inl rfl)).2.2.2.2.1 true "dir" rfl
      (Or.inr rfl)⟩

/-! ## Inlined records and rules 1 to 3 -/

theorem rule3Step_origin (heap : Heap) (st : SubprogramIndex × NatSet) (p : Ptr)
    (hidx : ∀ k x, x ∈ st.1 k → (heap x).inlined = false) :
    (∀ k x, x ∈ (rule3Step heap st p).1 k → (heap x).inlined = false) ∧
    (∀ x, x ∈ (rule3Step heap st p).2 → x ∈ st.2 ∨ (heap x).inlined = false) := by
  rcases rule3Step_cases heap st p with ⟨_, h⟩ | ⟨hni, _, _, _, h⟩ | ⟨hni, _, _, _, ov, hov, h⟩
  · rw [h]
    exact ⟨hidx, fun x hx => Or.inl hx⟩
  · rw [h]
    refine ⟨hidx, ?_⟩
    intro x hx
    rcases (mem_setInsert p x st.2).mp hx with rfl | hx
    · exact Or.inr hni
    · exact Or.inl hx
  · rw [h]
    constructor
    · intro k x hx
      rcases (mem_insertRanges p _ _ k x).mp hx with hx | ⟨rfl, _⟩
      · exact hidx k x (evict_index_subset heap ov st k x hx)
      · exact hni
    · intro x hx
      rcases (mem_evict_bad heap ov st x).mp hx with hx | hx
      · obtain ⟨r, _, hr⟩ := (hov x).mp hx
        exact Or.inr (hidx r.1 x hr)
      · exact Or.inl hx

theorem rule3_fold_origin (heap : Heap) (order : List Ptr) :
    ∀ st : SubprogramIndex × NatSet, (∀ k x, x ∈ st.1 k → (heap x).inlined = false) →
      ∀ x, x ∈ (order.foldl (rule3Step heap) st).2 → x ∈ st.2 ∨ (heap x).inlined = false := by
  induction order with
  | nil => intro st _ x hx; exact Or.inl hx
  | cons p order ih =>
    intro st hidx x hx
    obtain ⟨h1, h2⟩ := rule3Step_origin heap st p hidx
    rcases ih (rule3Step heap st p) h1 x hx with h | h
    · exact h2 x h
    · exact Or.inr h

/-- With the first load segment at `0x400000`, rule 1 marks the inlined
record 8: the bad set before rule 4 holds an inlined record. -/
theorem rule1_marks_inlined_record :
    (exampleHeap 8).inlined = true ∧
    8 ∈ rule3 exampleHeap [8, 3]
      (rule2 exampleHeap (collectStarts exampleHeap [8, 3] (rule1 exampleHeap 0x400000 [8, 3] []))
        [8, 3] (rule1 exampleHeap 0x400000 [8, 3] [])) := by
  decide

/-- C20 (amended). Rules 2 and 3 of `FindBadSubprograms` consider only
records that are not inlined, rule 1 considers every record: an inlined
record in the bad set as it stands after rules 1, 2 and 3 was in the set
passed in or is a record of the insertion order with a range that starts below
`vaddr_of_first_load_segment`. -/
theorem inlined_bad_before_rule4 (heap : Heap) (v : Nat) (order : List Ptr) (bad0 : NatSet)
    (x : Ptr) (hin : (heap x).inlined = true)
    (hx : x ∈ rule3 heap order
      (rule2 heap (collectStarts heap order (rule1 heap v order bad0)) order
        (rule1 heap v order bad0))) :
    x ∈ bad0 ∨ (x ∈ order ∧ ∃ r ∈ (heap x).address_ranges, r.1 < v) := by
  have hne : ¬ (heap x).inlined = false := by simp [hin]
  rcases rule3_fold_origin heap order (fun _ => [], _)
    (fun k x hx => absurd hx (List.not_mem_nil _)) x hx with h | h
  · rcases (mem_rule2 heap _ (collectStarts_sorted heap order _) order _ x).mp h with h1 | h1
    · exact rule1_origin heap v order bad0 x h1
    · exact absurd h1.2.1 hne
  · exact absurd h hne

/-- The inlined record 8 of the example is bad before rule 4 and one of its
ranges starts below `0x400000`. -/
theorem inlined_bad_before_rule4_witness :
    ((exampleHeap 8).inlined = true ∧
      8 ∈ rule3 exampleHeap [8, 3]
        (rule2 exampleHeap
          (collectStarts exampleHeap [8, 3] (rule1 exampleHeap 0x400000 [8, 3] []))
          [8, 3] (rule1 exampleHeap 0x400000 [8, 3] []))) ∧
    (8 ∈ ([] : NatSet) ∨
      (8 ∈ [8, 3] ∧ ∃ r ∈ (exampleHeap 8).address_ranges, r.1 < 0x400000)) :=
  ⟨by decide, inlined_bad_before_rule4 exampleHeap 0x400000 [8, 3] [] 8 (by decide) (by decide)⟩

/-! ## Two-level line tables -/

/-- C19. Two-level line tables short-circuit: in a handler state with
`have_two_level_line_tables_` set, `StartDIE` with tag `DW_TAG_subprogram` or
`DW_TAG_inlined_subroutine` returns false and changes nothing but `die_stack_`,
on which the tag is pushed (the offset maps, the memory, `subprogram_stack_`
and `subprogram_added_by_cu_` are as before, so `NeedSplitDebugInfo` returns
what it returned before), and the matching `EndDIE` pops the tag and gives
back the state before `StartDIE`. -/
theorem StartDIE_two_level_short_circuit (h : InlineStackHandler) (offset : Nat)
    (tag : DwarfTag) (child : Ptr) (offset2 : Nat)
    (htwo : h.have_two_level_line_tables = true)
    (htag : tag = DwarfTag.DW_TAG_subprogram ∨ tag = DwarfTag.DW_TAG_inlined_subroutine) :
    StartDIE h offset tag child = some ({ h with die_stack := tag :: h.die_stack }, false) ∧
    NeedSplitDebugInfo { h with die_stack := tag :: h.die_stack } = NeedSplitDebugInfo h ∧
    EndDIE { h with die_stack := tag :: h.die_stack } offset2 = some h := by
  refine ⟨?_, rfl, ?_⟩
  · unfold StartDIE
    simp only [htag, htwo, if_true]
  · cases h
    simp only at htwo
    subst htwo
    simp [EndDIE]

/-- In the example state `StartDIE` of a subprogram returns false, leaves no
record in the offset map and `NeedSplitDebugInfo` still returns true. -/
theorem StartDIE_two_level_short_circuit_witness :
    (twoLevelHandler.have_two_level_line_tables = true ∧
      NeedSplitDebugInfo twoLevelHandler = true) ∧
    (StartDIE twoLevelHandler 0x40 DwarfTag.DW_TAG_subprogram 50 =
        some ({ twoLevelHandler with
                die_stack := DwarfTag.DW_TAG_subprogram :: twoLevelHandler.die_stack }, false) ∧
      NeedSplitDebugInfo { twoLevelHandler with
          die_stack := DwarfTag.DW_TAG_subprogram :: twoLevelHandler.die_stack } =
        NeedSplitDebugInfo twoLevelHandler ∧
      EndDIE { twoLevelHandler with
          die_stack := DwarfTag.DW_TAG_subprogram :: twoLevelHandler.die_stack } 0x40 =
        some twoLevelHandler) :=
  ⟨⟨rfl, rfl⟩,
    StartDIE_two_level_short_circuit twoLevelHandler 0x40 DwarfTag.DW_TAG_subprogram 50 0x40
      rfl (Or.inl rfl)⟩
/-! ## Names -/

theorem ProcessAttributeString_step (h : InlineStackHandler) (offset : Nat)
    (form : DwarfForm) (a : DwarfAttribute × String) (back : Ptr) (rest : List Ptr)
    (hstack : h.subprogram_stack = back :: rest)
    (hattr : a.1 = DwarfAttribute.DW_AT_name ∨ isLinkageName a.1 = true) :
    (ProcessAttributeString h offset a.1 form a.2).subprogram_stack = back :: rest ∧
    ((ProcessAttributeString h offset a.1 form a.2).heap back).name =
      stepName (h.heap back).name a := by
  have hcomp : a.1 ≠ DwarfAttribute.DW_AT_comp_dir := by
    rcases hattr with h1 | h1
    · rw [h1]; decide
    · intro h2
      rw [h2] at h1
      exact absurd h1 (by decide)
  unfold ProcessAttributeString stepName
  simp only [hcomp, if_false, hstack]
  by_cases hl : isLinkageName a.1 = true
  · have hl' : a.1 = DwarfAttribute.DW_AT_MIPS_linkage_name ∨
        a.1 = DwarfAttribute.DW_AT_linkage_name := by simpa [isLinkageName] using hl
    simp [hl, hl', heapStore, hstack]
  · have hl' : ¬ (a.1 = DwarfAttribute.DW_AT_MIPS_linkage_name ∨
        a.1 = DwarfAttribute.DW_AT_linkage_name) := by simpa [isLinkageName] using hl
    rw [if_neg hl', if_neg hl]
    by_cases hn : a.1 = DwarfAttribute.DW_AT_name ∧ (h.heap back).name = ""
    · simp [hn, heapStore, hstack]
    · rw [if_neg hn, if_neg hn]
      exact ⟨hstack, rfl⟩

theorem processStrings_name (offset : Nat) (form : DwarfForm)
    (attrs : List (DwarfAttribute × String)) :
    ∀ (h : InlineStackHandler) (back : Ptr) (rest : List Ptr),
      h.subprogram_stack = back :: rest →
      (∀ a ∈ attrs, a.1 = DwarfAttribute.DW_AT_name ∨ isLinkageName a.1 = true) →
      ((processStrings h offset form attrs).heap back).name =
        attrs.foldl stepName (h.heap back).name := by
  induction attrs with
  | nil => intro h back rest _ _; rfl
  | cons a attrs ih =>
    intro h back rest hstack hattrs
    obtain ⟨h1, h2⟩ := ProcessAttributeString_step h offset form a back rest hstack
      (hattrs a (List.mem_cons_self _ _))
    have := ih (ProcessAttributeString h offset a.1 form a.2) back rest h1
      (fun b hb => hattrs b (List.mem_cons_of_mem _ hb))
    simp only [processStrings, List.foldl_cons] at this ⊢
    rw [this, h2]

theorem foldl_stepName_linkage (attrs : List (DwarfAttribute × String)) :
    ∀ (name L : String), lastLinkageName attrs = some L → L ≠ "" →
      attrs.foldl stepName name = L := by
  induction attrs using List.reverseRecOn with
  | nil => intro name L h; simp [lastLinkageName] at h
  | append_singleton attrs a ih =>
    intro name L h hL
    rw [List.foldl_append]
    simp only [List.foldl_cons, List.foldl_nil]
    unfold lastLinkageName at h
    rw [List.filter_append] at h
    by_cases hl : isLinkageName a.1 = true
    · simp [List.filter_cons, hl, List.getLast?_append] at h
      simp only [stepName, hl, if_true]
      exact h
    · simp only [List.filter_cons, hl, if_false, List.filter_nil, List.append_nil,
        Bool.false_eq_true] at h
      have hpre := ih name L h hL
      rw [hpre]
      simp [stepName, hl, hL]

theorem foldl_stepName_plain (attrs : List (DwarfAttribute × String)) :
    ∀ name : String, (∀ a ∈ attrs, a.1 = DwarfAttribute.DW_AT_name) →
      attrs.foldl stepName name = if name = "" then firstNonEmpty attrs else name := by
  induction attrs with
  | nil => intro name _; by_cases h : name = "" <;> simp [h, firstNonEmpty]
  | cons a attrs ih =>
    intro name hall
    have ha : a.1 = DwarfAttribute.DW_AT_name := hall a (List.mem_cons_self _ _)
    have hnl : isLinkageName a.1 = false := by rw [ha]; decide
    rw [List.foldl_cons, ih _ (fun b hb => hall b (List.mem_cons_of_mem _ hb))]
    by_cases hn : name = ""
    · by_cases hd : a.2 = ""
      · simp [stepName, hnl, ha, hn, hd, firstNonEmpty]
      · simp [stepName, hnl, ha, hn, hd, firstNonEmpty]
    · simp [stepName, hnl, hn]

/-- A linkage-name attribute with the empty string followed by a
`DW_AT_name`: the final name is the value of `DW_AT_name`, not the value of
the last linkage-name attribute. -/
theorem ProcessAttributeString_empty_linkage_name :
    (namingHandler.heap 3).name = "" ∧
    lastLinkageName
      [(DwarfAttribute.DW_AT_linkage_name, ""), (DwarfAttribute.DW_AT_name, "foo")] = some "" ∧
    ((processStrings namingHandler 0x30 DwarfForm.DW_FORM_string
      [(DwarfAttribute.DW_AT_linkage_name, ""), (DwarfAttribute.DW_AT_name, "foo")]).heap
        3).name = "foo" := by
  decide

theorem afterLastLinkageName_snoc (attrs : List (DwarfAttribute × String))
    (a : DwarfAttribute × String) :
    afterLastLinkageName (attrs ++ [a]) =
      if isLinkageName a.1 = true then [] else afterLastLinkageName attrs ++ [a] := by
  unfold afterLastLinkageName
  rw [List.reverse_append]
  by_cases hl : isLinkageName a.1 = true
  · simp [List.takeWhile_cons, hl]
  · simp [List.takeWhile_cons, hl]

theorem firstNonEmpty_snoc (attrs : List (DwarfAttribute × String))
    (a : DwarfAttribute × String) :
    firstNonEmpty (attrs ++ [a]) =
      if firstNonEmpty attrs = "" then a.2 else firstNonEmpty attrs := by
  unfold firstNonEmpty
  rw [List.map_append, List.find?_append]
  cases hf : (attrs.map Prod.snd).find? (fun s => decide (s ≠ "")) with
  | some x =>
    have hx : x ≠ "" := by
      have := List.find?_some hf
      simpa using this
    simp [hx]
  | none =>
    by_cases ha : a.2 = ""
    · simp [List.find?_cons, ha]
    · simp [List.find?_cons, ha]

/-- The name after a sequence that holds a linkage-name attribute: the value
of the last one when that is not empty, and otherwise the first non-empty
value that arrives after it. -/
theorem foldl_stepName_last (attrs : List (DwarfAttribute × String)) :
    ∀ (name L : String),
      (∀ a ∈ attrs, a.1 = DwarfAttribute.DW_AT_name ∨ isLinkageName a.1 = true) →
      lastLinkageName attrs = some L →
      attrs.foldl stepName name =
        if L = "" then firstNonEmpty (afterLastLinkageName attrs) else L := by
  induction attrs using List.reverseRecOn with
  | nil => intro name L _ h; simp [lastLinkageName] at h
  | append_singleton attrs a ih =>
    intro name L hattrs h
    rw [List.foldl_append, afterLastLinkageName_snoc]
    simp only [List.foldl_cons, List.foldl_nil]
    unfold lastLinkageName at h
    rw [List.filter_append] at h
    by_cases hl : isLinkageName a.1 = true
    · simp [List.filter_cons, hl, List.getLast?_append] at h
      simp only [stepName, hl, if_true]
      rw [h]
      by_cases hL : L = ""
      · simp [hL, firstNonEmpty]
      · simp [hL]
    · simp only [List.filter_cons, hl, if_false, List.filter_nil, List.append_nil,
        Bool.false_eq_true] at h
      have ha : a.1 = DwarfAttribute.DW_AT_name := by
        rcases hattrs a (by simp) with h1 | h1
        · exact h1
        · exact absurd h1 hl
      have hpre := ih name L (fun b hb => hattrs b (by simp [hb])) h
      rw [hpre, if_neg hl]
      by_cases hL : L = ""
      · simp only [hL, if_true, firstNonEmpty_snoc, stepName, hl, if_false, ha, true_and,
          Bool.false_eq_true]
        rw [if_neg (by decide)]
      · simp [stepName, hl, hL]

/-- C15 (amended). For a sequence of `DW_AT_name`, `DW_AT_linkage_name` and
`DW_AT_MIPS_linkage_name` attributes delivered by `ProcessAttributeString` to
the record on top of the subprogram stack, whose name starts empty: when a
linkage-name attribute arrived and the value of the last one is not empty,
that value is the final name; when the value of the last one is empty, the
final name is the first non-empty `DW_AT_name` value that arrives after it
(empty, the value of that last linkage-name attribute, when there is none);
when no linkage-name attribute arrived, the final name is the first non-empty
`DW_AT_name` value (empty when there is none). -/
theorem ProcessAttributeString_final_name (h : InlineStackHandler) (offset : Nat)
    (form : DwarfForm) (back : Ptr) (rest : List Ptr)
    (attrs : List (DwarfAttribute × String))
    (hstack : h.subprogram_stack = back :: rest) (hempty : (h.heap back).name = "")
    (hattrs : ∀ a ∈ attrs, a.1 = DwarfAttribute.DW_AT_name ∨ isLinkageName a.1 = true) :
    (∀ L, lastLinkageName attrs = some L → L ≠ "" →
      ((processStrings h offset form attrs).heap back).name = L) ∧
    (lastLinkageName attrs = some "" →
      ((processStrings h offset form attrs).heap back).name =
        firstNonEmpty (afterLastLinkageName attrs)) ∧
    (lastLinkageName attrs = none →
      ((processStrings h offset form attrs).heap back).name = firstNonEmpty attrs) := by
  rw [processStrings_name offset form attrs h back rest hstack hattrs, hempty]
  refine ⟨?_, ?_, ?_⟩
  · intro L hL hne
    exact foldl_stepName_linkage attrs "" L hL hne
  · intro hL
    rw [foldl_stepName_last attrs "" "" hattrs hL]
    simp
  · intro hnone
    have hall : ∀ a ∈ attrs, a.1 = DwarfAttribute.DW_AT_name := by
      intro a ha
      rcases hattrs a ha with h1 | h1
      · exact h1
      · exfalso
        have hmem : a ∈ attrs.filter (fun a => isLinkageName a.1) :=
          List.mem_filter.mpr ⟨ha, h1⟩
        unfold lastLinkageName at hnone
        simp only [Option.map_eq_none', List.getLast?_eq_none_iff] at hnone
        rw [hnone] at hmem
        exact absurd hmem (List.not_mem_nil _)
    rw [foldl_stepName_plain attrs "" hall]
    simp

/-- The plain name first and the mangled name second, and the reverse order:
the mangled name is the final name both times; with plain names only the
first one is kept; after a plain name `"foo"` and an empty linkage name the
later plain name `"bar"` is the final name, and without a later plain name
the final name is empty. -/
theorem ProcessAttributeString_final_name_witness :
    (namingHandler.subprogram_stack = [3] ∧ (namingHandler.heap 3).name = "") ∧
    ((processStrings namingHandler 0x30 DwarfForm.DW_FORM_string
      [(DwarfAttribute.DW_AT_name, "foo"), (DwarfAttribute.DW_AT_linkage_name, "_Z3foov")]).heap
        3).name = "_Z3foov" ∧
    ((processStrings namingHandler 0x30 DwarfForm.DW_FORM_string
      [(DwarfAttribute.DW_AT_MIPS_linkage_name, "_Z3foov"),
        (DwarfAttribute.DW_AT_name, "foo")]).heap 3).name = "_Z3foov" ∧
    ((processStrings namingHandler 0x30 DwarfForm.DW_FORM_string
      [(DwarfAttribute.DW_AT_name, "foo"), (DwarfAttribute.DW_AT_name, "bar")]).heap
        3).name = "foo" ∧
    ((processStrings namingHandler 0x30 DwarfForm.DW_FORM_string
      [(DwarfAttribute.DW_AT_name, "foo"), (DwarfAttribute.DW_AT_linkage_name, ""),
        (DwarfAttribute.DW_AT_name, ""), (DwarfAttribute.DW_AT_name, "bar")]).heap
        3).name = "bar" ∧
    ((processStrings namingHandler 0x30 DwarfForm.DW_FORM_string
      [(DwarfAttribute.DW_AT_name, "foo"), (DwarfAttribute.DW_AT_linkage_name, "")]).heap
        3).name = "" :=
  ⟨⟨rfl, by decide⟩,
    (ProcessAttributeString_final_name namingHandler 0x30 DwarfForm.DW_FORM_string 3 []
      [(DwarfAttribute.DW_AT_name, "foo"), (DwarfAttribute.DW_AT_linkage_name, "_Z3foov")]
      rfl (by decide) (by decide)).1 "_Z3foov" (by decide) (by decide),
    (ProcessAttributeString_final_name namingHandler 0x30 DwarfForm.DW_FORM_string 3 []
      [(DwarfAttribute.DW_AT_MIPS_linkage_name, "_Z3foov"), (DwarfAttribute.DW_AT_name, "foo")]
      rfl (by decide) (by decide)).1 "_Z3foov" (by decide) (by decide),
    (ProcessAttributeString_final_name namingHandler 0x30 DwarfForm.DW_FORM_string 3 []
      [(DwarfAttribute.DW_AT_name, "foo"), (DwarfAttribute.DW_AT_name, "bar")]
      rfl (by decide) (by decide)).2.2 (by decide),
    ((ProcessAttributeString_final_name namingHandler 0x30 DwarfForm.DW_FORM_string 3 []
      [(DwarfAttribute.DW_AT_name, "foo"), (DwarfAttribute.DW_AT_linkage_name, ""),
        (DwarfAttribute.DW_AT_name, ""), (DwarfAttribute.DW_AT_name, "bar")]
      rfl (by decide) (by decide)).2.1 (by decide)).trans (by decide),
    ((ProcessAttributeString_final_name namingHandler 0x30 DwarfForm.DW_FORM_string 3 []
      [(DwarfAttribute.DW_AT_name, "foo"), (DwarfAttribute.DW_AT_linkage_name, "")]
      rfl (by decide) (by decide)).2.1 (by decide)).trans (by decide)⟩

/-! ## Parents across the split-unit clean-up -/

/-- The record `Y` is kept because `X` refers to it, its parent `P` is not
kept: a kept record refers to a deleted parent. -/
theorem CleanupUnusedSubprograms_deletes_parent :
    (CleanupUnusedSubprograms 3 nestedHeap nestedMap).map
        (fun r => (r.2, (r.1 32).parent)) = some ([(200, 32), (300, 31)], some 33) ∧
    33 ∉ ([(200, 32), (300, 31)] : SubprogramsByOffsetMap).map Prod.snd := by
  decide

/-- C18 (amended). After `CleanupUnusedSubprograms` the parent of a kept
record is kept exactly when it is a record of the map in the live closure;
so when, at the call, the parent of every used record of the map is a used
record of the map, every kept record that was used at the call still has its
parent kept. -/
theorem CleanupUnusedSubprograms_parent_kept (fuel : Nat) (heap : Heap)
    (m : SubprogramsByOffsetMap) (hres : Resolves heap m) (hfuel : m.length ≤ fuel) :
    ∃ heap1 m1, CleanupUnusedSubprograms fuel heap m = some (heap1, m1) ∧
      (∀ e ∈ m1, ∀ p, (heap1 e.2).parent = some p →
        (p ∈ m1.map Prod.snd ↔ p ∈ m.map Prod.snd ∧ Live heap m p)) ∧
      ((∀ e ∈ m, (heap e.2).used = true → ∀ p, (heap e.2).parent = some p →
          p ∈ m.map Prod.snd ∧ (heap p).used = true) →
        ∀ e ∈ m1, (heap e.2).used = true → ∀ p, (heap1 e.2).parent = some p →
          p ∈ m1.map Prod.snd) := by
  obtain ⟨hinit, hlen⟩ := cleanup_initial heap m
  obtain ⟨heap1, hloop, hinv⟩ := worklistLoop_spec heap m hres fuel heap
    (initialWorklist heap m) hinit (by omega)
  have hkept : ∀ p, p ∈ (m.filter (fun offset_subprogram =>
      (heap1 offset_subprogram.2).used)).map Prod.snd ↔
      p ∈ m.map Prod.snd ∧ (heap1 p).used = true := by
    intro p
    simp only [List.mem_map, List.mem_filter]
    constructor
    · rintro ⟨e, ⟨he, hu⟩, rfl⟩
      exact ⟨⟨e, he, rfl⟩, hu⟩
    · rintro ⟨⟨e, he, rfl⟩, hu⟩
      exact ⟨e, ⟨he, hu⟩, rfl⟩
  refine ⟨heap1, m.filter (fun offset_subprogram => (heap1 offset_subprogram.2).used), ?_,
    ?_, ?_⟩
  · simp [CleanupUnusedSubprograms, hloop]
  · intro e _ p _
    rw [hkept p]
    constructor
    · rintro ⟨hp, hu⟩
      obtain ⟨ep, hep, rfl⟩ := List.mem_map.mp hp
      exact ⟨hp, (cleanup_final heap m heap1 hinv ep hep).mp hu⟩
    · rintro ⟨hp, hl⟩
      obtain ⟨ep, hep, rfl⟩ := List.mem_map.mp hp
      exact ⟨hp, (cleanup_final heap m heap1 hinv ep hep).mpr hl⟩
  · intro hclosed e he hu p hp
    have hem : e ∈ m := (List.mem_filter.mp he).1
    have hpar : (heap1 e.2).parent = (heap e.2).parent := by
      rcases hinv.frame e.2 with h | h <;> rw [h]
    rw [hpar] at hp
    obtain ⟨hpm, hpu⟩ := hclosed e hem hu p hp
    exact (hkept p).mpr ⟨hpm, (frame_links heap heap1 p (hinv.frame p)).2.2 hpu⟩

/-- A used child of a used parent: both are kept. -/
theorem CleanupUnusedSubprograms_parent_kept_witness :
    (Resolves familyHeap familyMap ∧ familyMap.length ≤ 2) ∧
    (∃ heap1 m1, CleanupUnusedSubprograms 2 familyHeap familyMap = some (heap1, m1) ∧
      (∀ e ∈ m1, ∀ p, (heap1 e.2).parent = some p →
        (p ∈ m1.map Prod.snd ↔ p ∈ familyMap.map Prod.snd ∧ Live familyHeap familyMap p)) ∧
      ((∀ e ∈ familyMap, (familyHeap e.2).used = true →
          ∀ p, (familyHeap e.2).parent = some p →
            p ∈ familyMap.map Prod.snd ∧ (familyHeap p).used = true) →
        ∀ e ∈ m1, (familyHeap e.2).used = true → ∀ p, (heap1 e.2).parent = some p →
          p ∈ m1.map Prod.snd)) ∧
    (CleanupUnusedSubprograms 2 familyHeap familyMap).map
        (fun r => (r.2, (r.1 42).parent)) = some ([(100, 41), (200, 42)], some 41) :=
  ⟨⟨by decide, by decide⟩,
    CleanupUnusedSubprograms_parent_kept 2 familyHeap familyMap (by decide) (by decide),
    by decide⟩

/-! ## The address index -/

theorem subtractRange_covers (key piece : Range) (x : Nat) :
    (∃ q ∈ subtractRange key piece, q.1 ≤ x ∧ x < q.2) ↔
      (piece.1 ≤ x ∧ x < piece.2) ∧ ¬ (key.1 ≤ x ∧ x < key.2) := by
  unfold subtractRange
  constructor
  · rintro ⟨q, hq, hx⟩
    rcases List.mem_append.mp hq with h | h
    · split at h
      · rw [List.mem_singleton] at h
        subst h
        simp only at hx
        omega
      · exact absurd h (List.not_mem_nil _)
    · split at h
      · rw [List.mem_singleton] at h
        subst h
        simp only at hx
        omega
      · exact absurd h (List.not_mem_nil _)
  · rintro ⟨hx, hne⟩
    by_cases hlt : x < key.1
    · refine ⟨(piece.1, min piece.2 key.1), ?_, ?_⟩
      · apply List.mem_append_left
        rw [if_pos (by omega)]
        exact List.mem_singleton_self _
      · simp only
        omega
    · refine ⟨(max piece.1 key.2, piece.2), ?_, ?_⟩
      · apply List.mem_append_right
        rw [if_pos (by omega)]
        exact List.mem_singleton_self _
      · simp only
        omega

theorem uncovered_fold_covers (entries : List (Range × Ptr)) (x : Nat) :
    ∀ pieces : List Range,
      (∃ q ∈ entries.foldl (fun pieces e => pieces.flatMap (subtractRange e.1)) pieces,
        q.1 ≤ x ∧ x < q.2) ↔
      (∃ q ∈ pieces, q.1 ≤ x ∧ x < q.2) ∧ ∀ e ∈ entries, ¬ (e.1.1 ≤ x ∧ x < e.1.2) := by
  induction entries with
  | nil => intro pieces; simp
  | cons e entries ih =>
    intro pieces
    rw [List.foldl_cons, ih]
    have hflat : (∃ q ∈ pieces.flatMap (subtractRange e.1), q.1 ≤ x ∧ x < q.2) ↔
        (∃ q ∈ pieces, q.1 ≤ x ∧ x < q.2) ∧ ¬ (e.1.1 ≤ x ∧ x < e.1.2) := by
      constructor
      · rintro ⟨q, hq, hx⟩
        obtain ⟨piece, hp, hqp⟩ := List.mem_flatMap.mp hq
        have := (subtractRange_covers e.1 piece x).mp ⟨q, hqp, hx⟩
        exact ⟨⟨piece, hp, this.1⟩, this.2⟩
      · rintro ⟨⟨piece, hp, hx⟩, hne⟩
        obtain ⟨q, hq, hqx⟩ := (subtractRange_covers e.1 piece x).mpr ⟨hx, hne⟩
        exact ⟨q, List.mem_flatMap.mpr ⟨piece, hp, hq⟩, hqx⟩
    rw [hflat]
    simp only [List.mem_cons, forall_eq_or_imp]
    tauto

theorem uncovered_covers (entries : List (Range × Ptr)) (range : Range) (x : Nat) :
    (∃ q ∈ uncovered entries range, q.1 ≤ x ∧ x < q.2) ↔
      (range.1 ≤ x ∧ x < range.2) ∧ ∀ e ∈ entries, ¬ (e.1.1 ≤ x ∧ x < e.1.2) := by
  unfold uncovered
  rw [uncovered_fold_covers]
  by_cases h : range.1 < range.2
  · simp [h]
  · simp only [h, if_false, List.not_mem_nil, false_and, exists_false, false_iff, not_and]
    intro hx
    omega

theorem find_pieces (pieces : List Range) (value : Ptr) (x : Nat) :
    ((pieces.map (fun piece => (piece, value))).find?
        (fun e => decide (e.1.1 ≤ x ∧ x < e.1.2))).map Prod.snd =
      if ∃ q ∈ pieces, q.1 ≤ x ∧ x < q.2 then some value else none := by
  induction pieces with
  | nil => simp
  | cons q pieces ih =>
    by_cases hq : q.1 ≤ x ∧ x < q.2
    · have : ∃ q' ∈ q :: pieces, q'.1 ≤ x ∧ x < q'.2 := ⟨q, List.mem_cons_self _ _, hq⟩
      simp [List.find?_cons, hq, this]
    · rw [List.map_cons, List.find?_cons]
      simp only [hq, decide_False]
      rw [ih]
      simp only [List.mem_cons, exists_eq_or_imp, hq, false_or]

/-- A lookup after the insertion of one range: the first inserter stays, an
address that no key contained is given to the new value when the range
contains it. -/
theorem Find_InsertRange (index : AddressIndex) (range : Range) (value : Ptr) (x : Nat) :
    (InsertRange index range value).Find x =
      match index.Find x with
      | some w => some w
      | none => if range.1 ≤ x ∧ x < range.2 then some value else none := by
  unfold AddressIndex.Find InsertRange
  simp only [List.find?_append, Option.map_or]
  cases hf : index.entries.find? (fun e => decide (e.1.1 ≤ x ∧ x < e.1.2)) with
  | some e => simp
  | none =>
    have hnone : ∀ e ∈ index.entries, ¬ (e.1.1 ≤ x ∧ x < e.1.2) := by
      intro e he
      have := List.find?_eq_none.mp hf e he
      simpa using this
    simp only [Option.map_none', Option.none_or]
    rw [find_pieces]
    by_cases hx : range.1 ≤ x ∧ x < range.2
    · rw [if_pos ((uncovered_covers index.entries range x).mpr ⟨hx, hnone⟩), if_pos hx]
    · rw [if_neg (fun h => hx ((uncovered_covers index.entries range x).mp h).1), if_neg hx]

theorem Find_InsertRangeList (ranges : List Range) (value : Ptr) (x : Nat) :
    ∀ index : AddressIndex,
      (InsertRangeList index ranges value).Find x =
        match index.Find x with
        | some w => some w
        | none =>
          if ranges.any (fun range => decide (range.1 ≤ x ∧ x < range.2)) = true then some value
          else none := by
  induction ranges with
  | nil =>
    intro index
    simp only [InsertRangeList, List.foldl_nil]
    cases index.Find x <;> simp
  | cons range ranges ih =>
    intro index
    have hunf : InsertRangeList index (range :: ranges) value =
        InsertRangeList (InsertRange index range value) ranges value := rfl
    rw [hunf, ih, Find_InsertRange]
    cases index.Find x with
    | some w => rfl
    | none =>
      by_cases hx : range.1 ≤ x ∧ x < range.2
      · simp [hx]
      · simp only [hx, if_false, List.any_cons, decide_False, Bool.false_or]

theorem Find_populate (heap : Heap) (bad : NatSet) (x : Nat) (order : List Ptr) :
    ∀ index : AddressIndex,
      (order.foldl (fun index subprog =>
        if subprog ∈ bad then index
        else InsertRangeList index (heap subprog).address_ranges subprog) index).Find x =
        match index.Find x with
        | some w => some w
        | none => order.find? (fun subprog => decide (subprog ∉ bad) &&
            (heap subprog).address_ranges.any (fun range => decide (range.1 ≤ x ∧ x < range.2)))
      := by
  induction order with
  | nil =>
    intro index
    simp only [List.foldl_nil, List.find?_nil]
    cases index.Find x <;> rfl
  | cons p order ih =>
    intro index
    rw [List.foldl_cons, ih]
    by_cases hb : p ∈ bad
    · simp only [hb, if_true]
      cases index.Find x with
      | some w => rfl
      | none =>
        simp only
        rw [List.find?_cons_of_neg]
        simp only [hb, not_true_eq_false, decide_False, Bool.false_and, Bool.false_eq_true,
          not_false_eq_true]
    · simp only [hb, if_false]
      rw [Find_InsertRangeList]
      cases index.Find x with
      | some w => rfl
      | none =>
        by_cases hx : (heap p).address_ranges.any
            (fun range => decide (range.1 ≤ x ∧ x < range.2)) = true
        · rw [if_pos hx, List.find?_cons_of_pos]
          simp only [hb, not_false_eq_true, decide_True, Bool.true_and]
          exact hx
        · rw [if_neg hx, List.find?_cons_of_neg]
          simp only [hb, not_false_eq_true, decide_True, Bool.true_and]
          exact hx

theorem head?_filter_eq_find? {α : Type} (f : α → Bool) (l : List α) :
    (l.filter f).head? = l.find? f := by
  induction l with
  | nil => rfl
  | cons a l ih =>
    by_cases h : f a = true
    · simp [List.filter_cons, List.find?_cons, h]
    · simp [List.filter_cons, List.find?_cons, h, ih]

/-- With record 8 inlined into record 3, the address `0x2015` lies in a range
of both, neither is bad, and the lookup returns a record (the inlined one). -/
theorem GetSubprogramForAddress_nested_inline :
    coveringRecords nestedInlineHandler 0x2015 = [8, 3] ∧
    GetSubprogramForAddress (PopulateSubprogramsByAddress nestedInlineHandler) 0x2015 =
      some 8 ∧
    ¬ ((GetSubprogramForAddress
          (PopulateSubprogramsByAddress nestedInlineHandler) 0x2015).isSome = true ↔
        (coveringRecords nestedInlineHandler 0x2015).length = 1) := by
  decide

/-- C12 (amended). After `PopulateSubprogramsByAddress` on a handler whose
address index was empty, `GetSubprogramForAddress(pc)` returns the first
record, in insertion order, among the non-bad records of the former insertion
order that have a range containing `pc`; so it returns a record exactly when
`pc` lies in a range of at least one non-bad record, and `NULL` otherwise. -/
theorem GetSubprogramForAddress_first_covering (h : InlineStackHandler) (pc : Nat)
    (hempty : h.subprograms_by_address.entries = []) :
    GetSubprogramForAddress (PopulateSubprogramsByAddress h) pc =
      (coveringRecords h pc).head? ∧
    ((GetSubprogramForAddress (PopulateSubprogramsByAddress h) pc).isSome = true ↔
      coveringRecords h pc ≠ []) := by
  have hfirst : GetSubprogramForAddress (PopulateSubprogramsByAddress h) pc =
      (coveringRecords h pc).head? := by
    unfold GetSubprogramForAddress PopulateSubprogramsByAddress coveringRecords
    simp only
    rw [Find_populate, head?_filter_eq_find?]
    have : h.subprograms_by_address.Find pc = none := by
      simp [AddressIndex.Find, hempty]
    rw [this]
  refine ⟨hfirst, ?_⟩
  rw [hfirst]
  cases coveringRecords h pc <;> simp

/-- In the nested-inline example the lookup at `0x2015` gives the inlined
record 8, at `0x2005` the enclosing record 3, and at `0x5000` nothing. -/
theorem GetSubprogramForAddress_first_covering_witness :
    nestedInlineHandler.subprograms_by_address.entries = [] ∧
    (GetSubprogramForAddress (PopulateSubprogramsByAddress nestedInlineHandler) 0x2015 =
        (coveringRecords nestedInlineHandler 0x2015).head? ∧
      ((GetSubprogramForAddress
          (PopulateSubprogramsByAddress nestedInlineHandler) 0x2015).isSome = true ↔
        coveringRecords nestedInlineHandler 0x2015 ≠ [])) ∧
    GetSubprogramForAddress (PopulateSubprogramsByAddress nestedInlineHandler) 0x2005 =
      some 3 ∧
    GetSubprogramForAddress (PopulateSubprogramsByAddress nestedInlineHandler) 0x5000 = none :=
  ⟨rfl, GetSubprogramForAddress_first_covering nestedInlineHandler 0x2015 rfl,
    by decide, by decide⟩

/-! ## Determinism of the bad-DIE filter -/

theorem rule3RangesWith_spec (enum : NatSet → List Ptr) (henum : Enumerates enum)
    (heap : Heap) (index : SubprogramIndex) (p : Ptr) (rs : List Range) :
    ∀ (ov : NatSet) (keep : Bool) (ov1 : NatSet),
      rule3RangesWith enum heap index p rs ov = (keep, ov1) →
      (keep = true → (∀ x, x ∈ ov1 ↔ x ∈ ov ∨ ∃ r ∈ rs, x ∈ index r.1) ∧
        ∀ r ∈ rs, ∀ o ∈ index r.1, SubprogramContains (heap o) (heap p) = false) ∧
      (keep = false →
        ∃ r ∈ rs, ∃ o ∈ index r.1, SubprogramContains (heap o) (heap p) = true) := by
  induction rs with
  | nil =>
    intro ov keep ov1 h
    simp only [rule3RangesWith, Prod.mk.injEq] at h
    obtain ⟨rfl, rfl⟩ := h
    simp
  | cons r rs ih =>
    intro ov keep ov1 h
    unfold rule3RangesWith at h
    cases hO : rule3Others heap p (enum (index r.1)) ov with
    | mk k ovm =>
      obtain ⟨g1, g2⟩ := rule3Others_spec heap p (enum (index r.1)) ov k ovm hO
      rw [hO] at h
      cases k with
      | false =>
        simp only [Prod.mk.injEq] at h
        obtain ⟨rfl, rfl⟩ := h
        obtain ⟨o, ho, hc⟩ := g2 rfl
        exact ⟨fun h => absurd h (by simp),
          fun _ => ⟨r, List.mem_cons_self _ _, o, (henum _ o).mp ho, hc⟩⟩
      | true =>
        simp only at h
        obtain ⟨g3, g4⟩ := g1 rfl
        obtain ⟨h1, h2⟩ := ih _ _ _ h
        constructor
        · intro hk
          obtain ⟨h3, h4⟩ := h1 hk
          constructor
          · intro x
            rw [h3 x, g3 x, henum]
            simp only [List.mem_cons, exists_eq_or_imp]
            tauto
          · intro r' hr'
            rcases List.mem_cons.mp hr' with rfl | hr'
            · exact fun o ho => g4 o ((henum _ o).mpr ho)
            · exact h4 r' hr'
        · intro hk
          obtain ⟨r', hr', hrest⟩ := h2 hk
          exact ⟨r', List.mem_cons_of_mem _ hr', hrest⟩

theorem rule3Step_outcome (heap : Heap) (st : SubprogramIndex × NatSet) (p : Ptr) :
    Rule3Outcome heap st p (rule3Step heap st p) :=
  rule3Step_cases heap st p

theorem rule3StepWith_outcome (enum : NatSet → List Ptr) (henum : Enumerates enum)
    (heap : Heap) (st : SubprogramIndex × NatSet) (p : Ptr) :
    Rule3Outcome heap st p (rule3StepWith enum heap st p) := by
  unfold Rule3Outcome
  by_cases h1 : (heap p).inlined = true
  · left
    exact ⟨Or.inl h1, by simp [rule3StepWith, h1]⟩
  · have h1' : (heap p).inlined = false := by simpa using h1
    by_cases h2 : (heap p).address_ranges.length = 0
    · left
      exact ⟨Or.inr (Or.inl (List.length_eq_zero.mp h2)), by simp [rule3StepWith, h1', h2]⟩
    · have h2' : (heap p).address_ranges ≠ [] := fun h => h2 (by simp [h])
      by_cases h3 : p ∈ st.2
      · left
        exact ⟨Or.inr (Or.inr h3), by simp [rule3StepWith, h1', h2, h3]⟩
      · right
        have hstep : rule3StepWith enum heap st p =
            match rule3RangesWith enum heap st.1 p (heap p).address_ranges [] with
            | (true, overlapping_subprograms) =>
              (insertRanges p (heap p).address_ranges
                (evict heap (enum overlapping_subprograms) st).1,
                (evict heap (enum overlapping_subprograms) st).2)
            | (false, _) => (st.1, setInsert p st.2) := by
          unfold rule3StepWith
          rw [if_neg h1, if_neg h2, if_neg h3]
        rw [hstep]
        cases hR : rule3RangesWith enum heap st.1 p (heap p).address_ranges [] with
        | mk k ov =>
          obtain ⟨g1, g2⟩ := rule3RangesWith_spec enum henum heap st.1 p _ [] k ov hR
          cases k with
          | false =>
            left
            exact ⟨h1', h2', h3, g2 rfl, rfl⟩
          | true =>
            right
            obtain ⟨g3, g4⟩ := g1 rfl
            refine ⟨h1', h2', h3, g4, enum ov, ?_, rfl⟩
            intro x
            rw [henum, g3 x]
            simp

theorem mem_evict_index_iff (heap : Heap) (l : List Ptr) :
    ∀ (st : SubprogramIndex × NatSet) (k x : Nat),
      x ∈ (evict heap l st).1 k ↔
        x ∈ st.1 k ∧ ¬ (x ∈ l ∧ ∃ r ∈ (heap x).address_ranges, r.1 = k) := by
  induction l with
  | nil => intro st k x; simp [evict]
  | cons b l ih =>
    intro st k x
    rw [evict, ih]
    simp only [mem_eraseRanges, List.mem_cons]
    constructor
    · rintro ⟨⟨h1, h2⟩, h3⟩
      refine ⟨h1, ?_⟩
      rintro ⟨hb | hl, hr⟩
      · exact h2 ⟨hb, by rw [← hb]; exact hr⟩
      · exact h3 ⟨hl, hr⟩
    · rintro ⟨h1, h2⟩
      refine ⟨⟨h1, ?_⟩, ?_⟩
      · rintro ⟨hb, hr⟩
        exact h2 ⟨Or.inl hb, by rw [hb]; exact hr⟩
      · rintro ⟨hl, hr⟩
        exact h2 ⟨Or.inr hl, hr⟩

/-- The outcome of a step of rule 3 is determined, up to the order in which
the sets are listed, by the members of the state before the step. -/
theorem rule3Outcome_congr (heap : Heap) (st st1 : SubprogramIndex × NatSet) (p : Ptr)
    (res res1 : SubprogramIndex × NatSet) (hsame : SameMembers st st1)
    (h : Rule3Outcome heap st p res) (h1 : Rule3Outcome heap st1 p res1) :
    SameMembers res res1 := by
  obtain ⟨hidx, hbad⟩ := hsame
  rcases h with ⟨hs, rfl⟩ | ⟨hni, hne, hpb, hd, rfl⟩ | ⟨hni, hne, hpb, hk, ov, hov, rfl⟩
  · rcases h1 with ⟨_, rfl⟩ | ⟨hni1, hne1, hpb1, _, _⟩ | ⟨hni1, hne1, hpb1, _, _⟩
    · exact ⟨hidx, hbad⟩
    · rcases hs with h | h | h
      · rw [h] at hni1; exact absurd hni1 (by simp)
      · exact absurd h hne1
      · exact absurd ((hbad p).mp h) hpb1
    · rcases hs with h | h | h
      · rw [h] at hni1; exact absurd hni1 (by simp)
      · exact absurd h hne1
      · exact absurd ((hbad p).mp h) hpb1
  · rcases h1 with ⟨hs1, _⟩ | ⟨_, _, _, _, rfl⟩ | ⟨_, _, _, hk1, _⟩
    · rcases hs1 with h | h | h
      · rw [h] at hni; exact absurd hni (by simp)
      · exact absurd h hne
      · exact absurd ((hbad p).mpr h) hpb
    · refine ⟨hidx, ?_⟩
      intro x
      simp only [mem_setInsert, hbad x]
    · obtain ⟨r, hr, o, ho, hc⟩ := hd
      have := hk1 r hr o ((hidx r.1 o).mp ho)
      rw [hc] at this
      exact absurd this (by simp)
  · rcases h1 with ⟨hs1, _⟩ | ⟨_, _, _, hd1, _⟩ | ⟨_, _, _, _, ov1, hov1, rfl⟩
    · rcases hs1 with h | h | h
      · rw [h] at hni; exact absurd hni (by simp)
      · exact absurd h hne
      · exact absurd ((hbad p).mpr h) hpb
    · obtain ⟨r, hr, o, ho, hc⟩ := hd1
      have := hk r hr o ((hidx r.1 o).mpr ho)
      rw [hc] at this
      exact absurd this (by simp)
    · have hovs : ∀ x, x ∈ ov ↔ x ∈ ov1 := by
        intro x
        rw [hov x, hov1 x]
        constructor
        · rintro ⟨r, hr, hx⟩
          exact ⟨r, hr, (hidx r.1 x).mp hx⟩
        · rintro ⟨r, hr, hx⟩
          exact ⟨r, hr, (hidx r.1 x).mpr hx⟩
      constructor
      · intro k x
        simp only [mem_insertRanges, mem_evict_index_iff, hidx k x, hovs x]
      · intro x
        simp only [mem_evict_bad, hbad x, hovs x]

theorem rule3With_fold_same (enum : NatSet → List Ptr) (henum : Enumerates enum)
    (heap : Heap) (order : List Ptr) :
    ∀ st st1 : SubprogramIndex × NatSet, SameMembers st st1 →
      SameMembers (order.foldl (rule3StepWith enum heap) st)
        (order.foldl (rule3Step heap) st1) := by
  induction order with
  | nil => intro st st1 h; exact h
  | cons p order ih =>
    intro st st1 h
    exact ih _ _ (rule3Outcome_congr heap st st1 p _ _ h
      (rule3StepWith_outcome enum henum heap st p) (rule3Step_outcome heap st1 p))

theorem rule4_congr (heap : Heap) (order : List Ptr) :
    ∀ bad bad1 : NatSet, (∀ x, x ∈ bad ↔ x ∈ bad1) →
      ∀ x, x ∈ rule4 heap order bad ↔ x ∈ rule4 heap order bad1 := by
  unfold rule4
  induction order.reverse with
  | nil => intro bad bad1 h; exact h
  | cons p l ih =>
    intro bad bad1 h
    apply ih
    intro x
    simp only [mem_rule4Step, h]

theorem mem_FindBadSubprogramsWith (enum : NatSet → List Ptr) (henum : Enumerates enum)
    (heap : Heap) (v : Nat) (order : List Ptr) (bad0 : NatSet) (x : Ptr) :
    x ∈ FindBadSubprogramsWith enum heap v order bad0 ↔
      x ∈ FindBadSubprograms heap v order bad0 := by
  unfold FindBadSubprogramsWith FindBadSubprograms
  apply rule4_congr
  exact (rule3With_fold_same enum henum heap order _ _
    ⟨fun _ _ => Iff.rfl, fun _ => Iff.rfl⟩).2

theorem sorted_ext (l l1 : NatSet) (hs : l.Sorted (· < ·)) (hs1 : l1.Sorted (· < ·))
    (h : ∀ x, x ∈ l ↔ x ∈ l1) : l = l1 :=
  List.eq_of_perm_of_sorted ((List.perm_ext_iff_of_nodup hs.nodup hs1.nodup).mpr h) hs hs1

theorem foldl_preserves {σ α : Type} (f : σ → α → σ) (P : σ → Prop)
    (hstep : ∀ s a, P s → P (f s a)) : ∀ (l : List α) (s : σ), P s → P (l.foldl f s) := by
  intro l
  induction l with
  | nil => intro s h; exact h
  | cons a l ih => intro s h; exact ih _ (hstep s a h)

theorem rule1Ranges_sorted (v p : Nat) (rs : List Range) (bad : NatSet)
    (h : bad.Sorted (· < ·)) : (rule1Ranges v p rs bad).Sorted (· < ·) := by
  induction rs with
  | nil => exact h
  | cons r rs ih =>
    unfold rule1Ranges
    split
    · exact setInsert_sorted p bad h
    · exact ih

theorem rule2Ranges_sorted (S : NatSet) (p : Nat) (rs : List Range) (bad : NatSet)
    (h : bad.Sorted (· < ·)) : (rule2Ranges S p rs bad).Sorted (· < ·) := by
  induction rs with
  | nil => exact h
  | cons r rs ih =>
    rw [rule2Ranges_cons]
    split
    · exact setInsert_sorted p bad h
    · exact ih

theorem rule2Step_sorted (heap : Heap) (S : NatSet) (bad : NatSet) (p : Ptr)
    (h : bad.Sorted (· < ·)) : (rule2Step heap S bad p).Sorted (· < ·) := by
  unfold rule2Step
  split
  · exact h
  · split
    · exact h
    · exact rule2Ranges_sorted S p _ bad h

theorem rule3Outcome_sorted (heap : Heap) (st res : SubprogramIndex × NatSet) (p : Ptr)
    (ho : Rule3Outcome heap st p res) (h : st.2.Sorted (· < ·)) : res.2.Sorted (· < ·) := by
  rcases ho with ⟨_, rfl⟩ | ⟨_, _, _, _, rfl⟩ | ⟨_, _, _, _, ov, _, rfl⟩
  · exact h
  · exact setInsert_sorted p st.2 h
  · exact evict_sorted heap ov st h

theorem rule4Step_sorted (heap : Heap) (bad : NatSet) (p : Ptr) (h : bad.Sorted (· < ·)) :
    (rule4Step heap bad p).Sorted (· < ·) := by
  unfold rule4Step
  split
  · exact h
  · split
    · exact setInsert_sorted p bad h
    · exact h

theorem FindBadSubprogramsWith_sorted (enum : NatSet → List Ptr) (henum : Enumerates enum)
    (heap : Heap) (v : Nat) (order : List Ptr) (bad0 : NatSet) (h : bad0.Sorted (· < ·)) :
    (FindBadSubprogramsWith enum heap v order bad0).Sorted (· < ·) := by
  unfold FindBadSubprogramsWith rule4 rule3With rule2 rule1
  apply foldl_preserves (rule4Step heap) _ (fun s a hs => rule4Step_sorted heap s a hs)
  apply foldl_preserves (rule3StepWith enum heap) (fun st => st.2.Sorted (· < ·))
    (fun st a hs => rule3Outcome_sorted heap st _ a (rule3StepWith_outcome enum henum heap st a) hs)
  apply foldl_preserves (rule2Step heap _) _ (fun s a hs => rule2Step_sorted heap _ s a hs)
  exact foldl_preserves (rule1Step heap v) _
    (fun s a hs => rule1Ranges_sorted v a _ s hs) order bad0 h

theorem rule3RangesWith_id (heap : Heap) (index : SubprogramIndex) (p : Ptr)
    (rs : List Range) :
    ∀ ov : NatSet, rule3RangesWith (fun s => s) heap index p rs ov =
      rule3Ranges heap index p rs ov := by
  induction rs with
  | nil => intro ov; rfl
  | cons r rs ih =>
    intro ov
    rw [rule3RangesWith, rule3Ranges]
    cases rule3Others heap p (index r.1) ov with
    | mk k ovm =>
      cases k with
      | false => rfl
      | true => exact ih ovm

theorem FindBadSubprogramsWith_id (heap : Heap) (v : Nat) (order : List Ptr) (bad0 : NatSet) :
    FindBadSubprogramsWith (fun s => s) heap v order bad0 =
      FindBadSubprograms heap v order bad0 := by
  have hstep : rule3StepWith (fun s => s) heap = rule3Step heap := by
    funext st p
    unfold rule3StepWith rule3Step
    simp only [rule3RangesWith_id]
  unfold FindBadSubprogramsWith FindBadSubprograms rule3With rule3
  rw [hstep]

/-- C13. `FindBadSubprograms` is deterministic given the insertion order:
for the same records, the same insertion order and the same
`vaddr_of_first_load_segment`, any two orders of enumeration of the pointer
sets of rule 3 (the sets indexed under a range start and the set of
overlapping records) give the same bad set, which is the one computed with the
sets enumerated by address. -/
theorem FindBadSubprograms_deterministic (enum1 enum2 : NatSet → List Ptr)
    (h1 : Enumerates enum1) (h2 : Enumerates enum2) (heap : Heap) (v : Nat)
    (order : List Ptr) :
    FindBadSubprogramsWith enum1 heap v order [] =
      FindBadSubprogramsWith enum2 heap v order [] ∧
    FindBadSubprogramsWith enum1 heap v order [] = FindBadSubprograms heap v order [] := by
  have hid : Enumerates (fun s => s) := fun _ _ => Iff.rfl
  have key : ∀ enum, Enumerates enum →
      FindBadSubprogramsWith enum heap v order [] = FindBadSubprograms heap v order [] := by
    intro enum henum
    rw [← FindBadSubprogramsWith_id]
    apply sorted_ext
    · exact FindBadSubprogramsWith_sorted enum henum heap v order [] List.sorted_nil
    · exact FindBadSubprogramsWith_sorted _ hid heap v order [] List.sorted_nil
    · intro x
      rw [mem_FindBadSubprogramsWith enum henum, mem_FindBadSubprogramsWith _ hid]
  exact ⟨(key enum1 h1).trans (key enum2 h2).symm, key enum1 h1⟩

/-- Record 53 evicts records 51 and 52; with the sets listed in descending
instead of ascending order of address the bad set is the same. -/
theorem FindBadSubprograms_deterministic_witness :
    (Enumerates List.reverse ∧ Enumerates (fun s => s)) ∧
    (FindBadSubprogramsWith List.reverse duplicateHeap 0x10 [51, 52, 53] [] =
        FindBadSubprogramsWith (fun s => s) duplicateHeap 0x10 [51, 52, 53] [] ∧
      FindBadSubprogramsWith List.reverse duplicateHeap 0x10 [51, 52, 53] [] =
        FindBadSubprograms duplicateHeap 0x10 [51, 52, 53] []) ∧
    FindBadSubprogramsWith List.reverse duplicateHeap 0x10 [51, 52, 53] [] = [51, 52] :=
  ⟨⟨fun _ _ => List.mem_reverse, fun _ _ => Iff.rfl⟩,
    FindBadSubprograms_deterministic List.reverse (fun s => s)
      (fun _ _ => List.mem_reverse) (fun _ _ => Iff.rfl) duplicateHeap 0x10 [51, 52, 53],
    by decide⟩

/-! ## SortAndMerge and the covered addresses -/

theorem Covered_cons (r : Range) (rest : List Range) (x : Nat) :
    Covered (r :: rest) x ↔ (r.1 ≤ x ∧ x < r.2) ∨ Covered rest x := by
  simp [Covered]

/-- The merge loop covers what its current range and the remaining sorted
input cover: a range is fused only when it starts inside the current one. -/
theorem mergeFrom_covered (x : Nat) (rest : List Range) :
    ∀ cur : Range, (∀ r ∈ rest, cur.1 ≤ r.1) → rest.Pairwise (fun p q => p.1 ≤ q.1) →
      (Covered (mergeFrom cur rest) x ↔ Covered (cur :: rest) x) := by
  induction rest with
  | nil => intro cur _ _; simp [mergeFrom]
  | cons r rest ih =>
    intro cur hcur hs
    have hs' := List.pairwise_cons.mp hs
    have hr : cur.1 ≤ r.1 := hcur r (List.mem_cons_self _ _)
    by_cases h : r.1 ≥ cur.2
    · simp only [mergeFrom, h, if_true]
      rw [Covered_cons, ih r hs'.1 hs'.2, Covered_cons cur]
    · simp only [mergeFrom, h, if_false]
      rw [ih (cur.1, max r.2 cur.2)
        (fun q hq => le_trans hr (hs'.1 q hq)) hs'.2]
      rw [Covered_cons, Covered_cons cur, Covered_cons r]
      simp only [lt_max_iff]
      constructor
      · rintro ((⟨h1, h2 | h2⟩) | h3)
        · by_cases hx : r.1 ≤ x
          · exact Or.inr (Or.inl ⟨hx, h2⟩)
          · exact Or.inl ⟨h1, by omega⟩
        · exact Or.inl ⟨h1, h2⟩
        · exact Or.inr (Or.inr h3)
      · rintro (⟨h1, h2⟩ | ⟨h1, h2⟩ | h3)
        · exact Or.inl ⟨h1, Or.inr h2⟩
        · exact Or.inl ⟨le_trans hr h1, Or.inl h2⟩
        · exact Or.inr h3

theorem Covered_sortRanges (xs : List Range) (x : Nat) :
    Covered (sortRanges xs) x ↔ Covered xs x := by
  unfold Covered sortRanges
  constructor
  · rintro ⟨r, hr, h⟩
    exact ⟨r, (List.perm_insertionSort pairLe xs).mem_iff.mp hr, h⟩
  · rintro ⟨r, hr, h⟩
    exact ⟨r, (List.perm_insertionSort pairLe xs).mem_iff.mpr hr, h⟩

/-- C24: `SortAndMerge` preserves the covered address set.  For every input
list (ranges with `hi ≤ lo` included), every counter value and every address
`x`: `x` lies in some input range `[lo, hi)` if and only if `x` lies in some
range `[lo, hi)` of the output. -/
theorem SortAndMerge_preserves_covered (overlap_count : Nat) (rangelist : List Range)
    (x : Nat) :
    Covered rangelist x ↔ Covered (SortAndMerge overlap_count rangelist).1 x := by
  rw [← Covered_sortRanges rangelist x]
  show Covered (sortRanges rangelist) x ↔
    Covered ((sortRanges rangelist).foldl mergeStep []) x
  have hs := sortRanges_sorted rangelist
  cases hsort : sortRanges rangelist with
  | nil => simp
  | cons r rest =>
    rw [hsort] at hs
    have hs' := List.pairwise_cons.mp hs
    rw [foldl_mergeStep_cons]
    exact (mergeFrom_covered x rest r (fun q hq => pairLe_fst (hs'.1 q hq))
      (hs'.2.imp (fun h => pairLe_fst h))).symm

/-! ## SubprogramContains and the covered addresses -/

/-- When `SubprogramContains a b` is true, every address covered by a range of
`b` is covered by a range of `a`. -/
theorem SubprogramContains_covered (a b : SubprogramInfo)
    (h : SubprogramContains a b = true) (x : Nat) (hx : Covered b.address_ranges x) :
    Covered a.address_ranges x := by
  obtain ⟨rb, hrb, h1, h2⟩ := hx
  obtain ⟨ra, hra, h3, h4⟩ := (SubprogramContains_iff a b).mp h rb hrb
  exact ⟨ra, hra, le_trans h3 h1, lt_of_lt_of_le h2 h4⟩

theorem pairwise_related (l : List Range) (R : Range → Range → Prop) (h : l.Pairwise R) :
    ∀ p ∈ l, ∀ q ∈ l, p = q ∨ R p q ∨ R q p := by
  induction l with
  | nil => intro p hp; cases hp
  | cons x xs ih =>
    have hx := List.pairwise_cons.mp h
    intro p hp q hq
    rcases List.mem_cons.mp hp with ep | hp1
    · rcases List.mem_cons.mp hq with eq | hq1
      · exact Or.inl (ep.trans eq.symm)
      · exact Or.inr (Or.inl (ep ▸ hx.1 q hq1))
    · rcases List.mem_cons.mp hq with eq | hq1
      · exact Or.inr (Or.inr (eq ▸ hx.1 p hp1))
      · exact ih hx.2 p hp1 q hq1

/-- Where no two ranges of `a` touch or overlap and no range of `b` is empty,
`SubprogramContains a b` is the subset test of the covered addresses. -/
theorem SubprogramContains_iff_covered_of_separated (a b : SubprogramInfo)
    (hsep : a.address_ranges.Pairwise (fun p q => p.2 < q.1))
    (hne : ∀ rb ∈ b.address_ranges, rb.1 < rb.2) :
    SubprogramContains a b = true ↔
      ∀ x, Covered b.address_ranges x → Covered a.address_ranges x := by
  constructor
  · exact fun h x hx => SubprogramContains_covered a b h x hx
  · intro hcov
    rw [SubprogramContains_iff]
    intro rb hrb
    have hb := hne rb hrb
    obtain ⟨ra, hra, h1, h2⟩ := hcov rb.1 ⟨rb, hrb, le_refl _, hb⟩
    refine ⟨ra, hra, h1, ?_⟩
    by_contra hlt
    have hlt1 : ra.2 < rb.2 := not_le.mp hlt
    obtain ⟨rc, hrc, h3, h4⟩ := hcov ra.2 ⟨rb, hrb, by omega, hlt1⟩
    rcases pairwise_related _ _ hsep ra hra rc hrc with e | hr | hr
    · subst e
      omega
    · omega
    · omega

/-- C23: `SubprogramContains` is not the subset test of the covered addresses
on outputs of `SortAndMerge`.  The range lists of `adjacentParent` and
`spanningChild` are outputs of `SortAndMerge`; every address covered by the
child's range `[0x1000, 0x1080)` is covered by one of the parent's ranges
`[0x1000, 0x1040)`, `[0x1040, 0x1080)`; and `SubprogramContains` returns
false, because no single range of the parent encloses the child's range. -/
theorem SubprogramContains_misses_adjacent_cover :
    adjacentParent.address_ranges = [(0x1000, 0x1040), (0x1040, 0x1080)] ∧
    spanningChild.address_ranges = [(0x1000, 0x1080)] ∧
    (SortAndMerge 0 adjacentParent.address_ranges).1 = adjacentParent.address_ranges ∧
    (SortAndMerge 0 spanningChild.address_ranges).1 = spanningChild.address_ranges ∧
    (∀ x, Covered spanningChild.address_ranges x ↔ Covered adjacentParent.address_ranges x) ∧
    SubprogramContains adjacentParent spanningChild = false := by
  have ha : adjacentParent.address_ranges = [(0x1000, 0x1040), (0x1040, 0x1080)] := by decide
  have hb : spanningChild.address_ranges = [(0x1000, 0x1080)] := by decide
  refine ⟨ha, hb, by decide, by decide, ?_, by decide⟩
  intro x
  rw [ha, hb]
  simp only [Covered, List.mem_cons, List.mem_singleton, List.not_mem_nil, or_false,
    exists_eq_left, exists_eq_or_imp]
  omega

/-! ## The signed attribute callback on an empty subprogram stack -/

/-- C22: with an empty subprogram stack `ProcessAttributeSigned` is not
safe.  For every handler state whose subprogram stack is empty: with
`DW_AT_call_line` and the form `DW_FORM_implicit_const` the function takes
`subprogram_stack_.back()` of the empty stack and fails, whatever the data;
with `DW_AT_call_file` it fails in the same way when the data is a valid
index of the file table other than zero, and returns with the state unchanged
when the data is zero; whereas `ProcessAttributeUnsigned`, which tests the
stack, returns with the state unchanged for `DW_AT_call_line` and
`DW_AT_call_file` inside any open DIE. -/
theorem ProcessAttributeSigned_empty_stack (c : Collaborators) (h : InlineStackHandler)
    (offset : Nat) (data : Int) (hempty : h.subprogram_stack = []) :
    ProcessAttributeSigned c h offset DwarfAttribute.DW_AT_call_line
      DwarfForm.DW_FORM_implicit_const data = none ∧
    (∀ file_names, c.file_names = some file_names → data ≠ 0 →
      (data % 2 ^ 64).toNat < file_names.length →
      ProcessAttributeSigned c h offset DwarfAttribute.DW_AT_call_file
        DwarfForm.DW_FORM_implicit_const data = none) ∧
    (data = 0 →
      ProcessAttributeSigned c h offset DwarfAttribute.DW_AT_call_file
        DwarfForm.DW_FORM_implicit_const data = some h) ∧
    (∀ (form : DwarfForm) (udata : Nat), h.die_stack ≠ [] →
      ProcessAttributeUnsigned c h offset DwarfAttribute.DW_AT_call_line form udata = some h ∧
      ProcessAttributeUnsigned c h offset DwarfAttribute.DW_AT_call_file form udata = some h) := by
  refine ⟨?_, ?_, ?_, ?_⟩
  · simp [ProcessAttributeSigned, hempty]
  · intro file_names hfiles hne hlt
    have hget : ∃ file, file_names.get? (data % 2 ^ 64).toNat = some file :=
      ⟨_, List.get?_eq_get hlt⟩
    obtain ⟨file, hfile⟩ := hget
    simp only [ProcessAttributeSigned, if_true, hne, if_false, hfiles, ge_iff_le,
      not_le.mpr hlt, setCallsiteFile, hfile, hempty]
  · intro hzero
    simp [ProcessAttributeSigned, hzero]
  · intro form udata hdie
    cases hd : h.die_stack with
    | nil => exact absurd hd hdie
    | cons die rest =>
      constructor
      · simp only [ProcessAttributeUnsigned, hempty, hd]
        split
        · rfl
        · rfl
      · simp only [ProcessAttributeUnsigned, hempty, hd]
        split
        · rfl
        · rfl

/-- Inside the compile-unit DIE of `unitHandler`, whose subprogram stack is
empty, the signed callback fails for `DW_AT_call_line` with the constant 7
and for `DW_AT_call_file` with the file number 1, and the unsigned callback
returns. -/
theorem ProcessAttributeSigned_empty_stack_witness :
    unitHandler.subprogram_stack = [] ∧
    ProcessAttributeSigned exampleCollaborators unitHandler 0x0b DwarfAttribute.DW_AT_call_line
      DwarfForm.DW_FORM_implicit_const 7 = none ∧
    ProcessAttributeSigned exampleCollaborators unitHandler 0x0b DwarfAttribute.DW_AT_call_file
      DwarfForm.DW_FORM_implicit_const 1 = none ∧
    ProcessAttributeUnsigned exampleCollaborators unitHandler 0x0b
      DwarfAttribute.DW_AT_call_line DwarfForm.DW_FORM_data1 7 = some unitHandler :=
  ⟨rfl,
    (ProcessAttributeSigned_empty_stack exampleCollaborators unitHandler 0x0b 7 rfl).1,
    (ProcessAttributeSigned_empty_stack exampleCollaborators unitHandler 0x0b 1 rfl).2.1
      _ rfl (by decide) (by decide),
    ((ProcessAttributeSigned_empty_stack exampleCollaborators unitHandler 0x0b 7 rfl).2.2.2
      DwarfForm.DW_FORM_data1 7 (by decide)).1⟩

/-! ## The insertion order of a traversal -/

theorem SameShape_refl (h : InlineStackHandler) : SameShape h h :=
  ⟨rfl, rfl, fun _ => ⟨rfl, id⟩⟩

theorem SameShape_trans {h h1 h2 : InlineStackHandler} (h01 : SameShape h h1)
    (h12 : SameShape h1 h2) : SameShape h h2 :=
  ⟨h12.1.trans h01.1, h12.2.1.trans h01.2.1, fun p =>
    ⟨((h12.2.2 p).1).trans ((h01.2.2 p).1), fun hu => (h12.2.2 p).2 ((h01.2.2 p).2 hu)⟩⟩

theorem storeRecord_shape (h : InlineStackHandler) (p : Ptr) (info : SubprogramInfo)
    (hparent : info.parent = (h.heap p).parent)
    (hused : (h.heap p).used = true → info.used = true) :
    SameShape h (storeRecord h p info) := by
  refine ⟨rfl, rfl, fun q => ?_⟩
  simp only [storeRecord, heapStore]
  by_cases hq : q = p
  · subst hq
    simp only [if_true]
    exact ⟨hparent, hused⟩
  · simp [hq]

theorem setUsed_shape (h : InlineStackHandler) (p : Ptr) :
    SameShape h { h with heap := setUsed h.heap p } := by
  refine ⟨rfl, rfl, fun q => ?_⟩
  simp only [setUsed]
  by_cases hq : q = p
  · simp [hq]
  · simp [hq]

theorem SetSingletonRangeLow_fields (info info1 : SubprogramInfo) (addr : Nat)
    (h : SetSingletonRangeLow info addr = some info1) :
    info1.parent = info.parent ∧ info1.used = info.used := by
  unfold SetSingletonRangeLow at h
  split at h
  · cases h; exact ⟨rfl, rfl⟩
  · cases h; exact ⟨rfl, rfl⟩
  · cases h

theorem SetSingletonRangeHigh_fields (info info1 : SubprogramInfo) (addr : Nat) (b : Bool)
    (h : SetSingletonRangeHigh info addr b = some info1) :
    info1.parent = info.parent ∧ info1.used = info.used := by
  unfold SetSingletonRangeHigh at h
  split at h
  · cases h; exact ⟨rfl, rfl⟩
  · split at h
    · cases h; exact ⟨rfl, rfl⟩
    · cases h; exact ⟨rfl, rfl⟩
  · cases h

theorem setCallsiteFile_shape (c : Collaborators) (h h1 : InlineStackHandler)
    (file_names : List (Int × Option String)) (index : Nat)
    (hrun : setCallsiteFile c h file_names index = some h1) : SameShape h h1 := by
  unfold setCallsiteFile at hrun
  split at hrun
  · cases hrun
  · split at hrun
    · cases hrun
    · cases hrun
      apply storeRecord_shape
      · simp only
        split
        · split <;> rfl
        · rfl
      · simp only
        split
        · split <;> exact id
        · exact id

theorem ProcessAttributeString_shape (h : InlineStackHandler) (offset : Nat)
    (attr : DwarfAttribute) (form : DwarfForm) (data : String) :
    SameShape h (ProcessAttributeString h offset attr form data) := by
  by_cases hattr : attr = DwarfAttribute.DW_AT_comp_dir
  · subst hattr
    simp only [ProcessAttributeString, if_true]
    split
    · exact ⟨rfl, rfl, fun _ => ⟨rfl, id⟩⟩
    · simp only [reduceCtorEq, or_self, false_and, if_false]
      exact ⟨rfl, rfl, fun _ => ⟨rfl, id⟩⟩
  · simp only [ProcessAttributeString, hattr, if_false]
    split
    · exact SameShape_refl _
    · split
      · exact storeRecord_shape h _ _ rfl id
      · split
        · exact storeRecord_shape h _ _ rfl id
        · exact SameShape_refl _

theorem ProcessAttributeSigned_shape (c : Collaborators) (h h1 : InlineStackHandler)
    (offset : Nat) (attr : DwarfAttribute) (form : DwarfForm) (data : Int)
    (hrun : ProcessAttributeSigned c h offset attr form data = some h1) : SameShape h h1 := by
  unfold ProcessAttributeSigned at hrun
  split at hrun
  · split at hrun
    · split at hrun
      · cases hrun; exact SameShape_refl _
      · split at hrun
        · cases hrun
        · split at hrun
          · cases hrun; exact SameShape_refl _
          · exact setCallsiteFile_shape c h h1 _ _ hrun
    · cases hrun
  · split at hrun
    · split at hrun
      · cases hrun
      · cases hrun
        exact storeRecord_shape _ _ _ rfl id
    · cases hrun
  · cases hrun; exact SameShape_refl _
theorem field_shape (h h1 : InlineStackHandler) (hs : h1.subprogram_stack = h.subprogram_stack)
    (ho : h1.subprogram_insert_order = h.subprogram_insert_order) (hh : h1.heap = h.heap) :
    SameShape h h1 :=
  ⟨hs, ho, fun p => by rw [hh]; exact ⟨rfl, id⟩⟩

theorem processUnitAttribute_shape (c : Collaborators) (h h1 : InlineStackHandler)
    (attr : DwarfAttribute) (form : DwarfForm) (data : Nat)
    (hrun : processUnitAttribute c h attr form data = some h1) : SameShape h h1 := by
  unfold processUnitAttribute at hrun
  cases attr <;> simp only [] at hrun <;>
    (try split at hrun) <;> (try split at hrun) <;>
    first
    | (cases hrun; exact field_shape _ _ rfl rfl rfl)
    | cases hrun

theorem markThenStore_shape (h : InlineStackHandler) (cond : Prop) [Decidable cond]
    (front back : Ptr) (ranges : List Range) (n : Nat) :
    SameShape h { h with
      heap := heapStore (if cond then setUsed h.heap front else h.heap) back
        { (if cond then setUsed h.heap front else h.heap) back with address_ranges := ranges },
      overlap_count := n } := by
  by_cases hc : cond
  · simp only [hc, if_true]
    refine ⟨rfl, rfl, fun q => ?_⟩
    simp only [heapStore, setUsed]
    by_cases hq : q = back
    · subst hq
      simp only [if_true]
      by_cases hf : q = front <;> simp [hf]
    · simp only [hq, if_false]
      by_cases hf : q = front <;> simp [hf]
  · simp only [hc, if_false]
    refine ⟨rfl, rfl, fun q => ?_⟩
    simp only [heapStore]
    by_cases hq : q = back
    · subst hq
      simp
    · simp [hq]

theorem processSubprogramAttribute_shape (c : Collaborators) (h h1 : InlineStackHandler)
    (back : Ptr) (attr : DwarfAttribute) (form : DwarfForm) (data : Nat)
    (hrun : processSubprogramAttribute c h back attr form data = some h1) :
    SameShape h h1 := by
  unfold processSubprogramAttribute at hrun
  cases attr with
  | DW_AT_call_file =>
    simp only [] at hrun
    split at hrun
    · cases hrun; exact SameShape_refl _
    · split at hrun
      · cases hrun
      · split at hrun
        · cases hrun; exact SameShape_refl _
        · exact setCallsiteFile_shape c h h1 _ _ hrun
  | DW_AT_call_line =>
    simp only [] at hrun
    split at hrun
    · cases hrun; exact storeRecord_shape _ _ _ rfl id
    · cases hrun
  | DW_AT_GNU_discriminator =>
    simp only [] at hrun
    split at hrun
    · cases hrun; exact storeRecord_shape _ _ _ rfl id
    · cases hrun
  | DW_AT_abstract_origin =>
    simp only [] at hrun
    split at hrun
    · cases hrun; exact storeRecord_shape _ _ _ rfl id
    · split at hrun
      · cases hrun; exact storeRecord_shape _ _ _ rfl id
      · cases hrun
  | DW_AT_specification =>
    simp only [] at hrun
    split at hrun
    · cases hrun; exact storeRecord_shape _ _ _ rfl id
    · split at hrun
      · cases hrun; exact storeRecord_shape _ _ _ rfl id
      · cases hrun
  | DW_AT_low_pc =>
    simp only [] at hrun
    split at hrun
    · cases hrun
    · rename_i info hlow
      have hf := SetSingletonRangeLow_fields _ _ _ hlow
      have hstore : SameShape h (storeRecord h back info) :=
        storeRecord_shape h back info hf.1 (fun hu => by rw [hf.2]; exact hu)
      split at hrun
      · cases hrun; exact hstore
      · split at hrun
        · cases hrun
        · split at hrun
          · split at hrun
            · cases hrun; exact SameShape_trans hstore (setUsed_shape _ _)
            · cases hrun; exact hstore
          · split at hrun
            · cases hrun; exact SameShape_trans hstore (setUsed_shape _ _)
            · cases hrun; exact hstore
  | DW_AT_high_pc =>
    simp only [] at hrun
    split at hrun
    · cases hrun
    · rename_i info hhigh
      have hf := SetSingletonRangeHigh_fields _ _ _ _ hhigh
      cases hrun
      exact storeRecord_shape h back info hf.1 (fun hu => by rw [hf.2]; exact hu)
  | DW_AT_ranges =>
    simp only [] at hrun
    split at hrun
    · split at hrun
      · cases hrun
      · split at hrun
        · cases hrun
        · cases hrun
          exact markThenStore_shape h _ _ back _ _
    · cases hrun
  | DW_AT_decl_line =>
    simp only [] at hrun
    split at hrun
    · cases hrun
    · split at hrun
      · cases hrun; exact storeRecord_shape _ _ _ rfl id
      · cases hrun; exact SameShape_refl _
  | DW_AT_GNU_addr_base => cases hrun; exact field_shape _ _ rfl rfl rfl
  | DW_AT_addr_base => cases hrun; exact field_shape _ _ rfl rfl rfl
  | DW_AT_GNU_ranges_base => cases hrun; exact field_shape _ _ rfl rfl rfl
  | DW_AT_rnglists_base => cases hrun; exact field_shape _ _ rfl rfl rfl
  | _ => cases hrun; exact SameShape_refl _

theorem ProcessAttributeUnsigned_shape (c : Collaborators) (h h1 : InlineStackHandler)
    (offset : Nat) (attr : DwarfAttribute) (form : DwarfForm) (data : Nat)
    (hrun : ProcessAttributeUnsigned c h offset attr form data = some h1) : SameShape h h1 := by
  unfold ProcessAttributeUnsigned at hrun
  split at hrun
  · exact processSubprogramAttribute_shape c h h1 _ attr form data hrun
  · split at hrun
    · cases hrun
    · split at hrun
      · exact processUnitAttribute_shape c h h1 attr form data hrun
      · cases hrun; exact SameShape_refl _
theorem StackChain_congr (heap heap1 : Heap) (stack : List Ptr)
    (hsame : ∀ x ∈ stack, (heap1 x).parent = (heap x).parent)
    (hc : StackChain heap stack) : StackChain heap1 stack := by
  induction stack with
  | nil => trivial
  | cons s rest ih =>
    refine ⟨?_, ih (fun x hx => hsame x (List.mem_cons_of_mem _ hx)) hc.2⟩
    rw [hsame s (List.mem_cons_self _ _)]
    exact hc.1

theorem Precedes_append (order : List Ptr) (r p : Ptr) (tail : List Ptr)
    (h : Precedes order r p) : Precedes (order ++ tail) r p := by
  obtain ⟨l1, l2, l3, e⟩ := h
  exact ⟨l1, l2, l3 ++ tail, by rw [e]; simp⟩

theorem Precedes_snoc (order : List Ptr) (r p : Ptr) (h : r ∈ order) :
    Precedes (order ++ [p]) r p := by
  obtain ⟨l1, l2, e⟩ := List.append_of_mem h
  exact ⟨l1, l2, [], by rw [e]; simp⟩

theorem Precedes_mem (order : List Ptr) (r p : Ptr) (h : Precedes order r p) : p ∈ order := by
  obtain ⟨l1, l2, l3, e⟩ := h
  rw [e]
  simp

/-- A callback that keeps the shape of the state keeps the invariant. -/
theorem TraversalInv_shape (taken : List Ptr) (h h1 : InlineStackHandler)
    (hs : SameShape h h1) (inv : TraversalInv taken h) : TraversalInv taken h1 := by
  obtain ⟨hstack, horder, hheap⟩ := hs
  refine ⟨?_, ?_, ?_, ?_, ?_, ?_, ?_, ?_⟩
  · rw [horder]; exact inv.order_nodup
  · rw [hstack]; exact inv.stack_nodup
  · rw [hstack, horder]; exact inv.stack_not_listed
  · rw [hstack]; exact inv.stack_taken
  · rw [horder]; exact inv.order_taken
  · rw [hstack]
    exact StackChain_congr h.heap h1.heap _ (fun x _ => (hheap x).1) inv.chain
  · rw [hstack, horder]
    intro r hr p hp
    rw [(hheap r).1] at hp
    exact inv.parents r hr p hp
  · rw [hstack, horder]
    rintro ⟨r, hr, p, hp, hpar⟩
    rw [(hheap r).1] at hpar
    obtain ⟨front, hf, hu⟩ := inv.front_used ⟨r, hr, p, hp, hpar⟩
    exact ⟨front, hf, (hheap front).2 hu⟩

theorem TraversalInv_mono (taken taken1 : List Ptr) (h : InlineStackHandler)
    (hsub : ∀ x ∈ taken, x ∈ taken1) (inv : TraversalInv taken h) : TraversalInv taken1 h :=
  ⟨inv.order_nodup, inv.stack_nodup, inv.stack_not_listed,
    fun x hx => hsub x (inv.stack_taken x hx), fun x hx => hsub x (inv.order_taken x hx),
    inv.chain, inv.parents, inv.front_used⟩

/-- What `StartDIE` does to the shape of the state: nothing, or it pushes the
new record, whose parent is the former top of the stack, at a stored address. -/
theorem StartDIE_cases (h h1 : InlineStackHandler) (offset : Nat) (tag : DwarfTag)
    (child : Ptr) (b : Bool) (hrun : StartDIE h offset tag child = some (h1, b)) :
    SameShape h h1 ∨
    ((tag = DwarfTag.DW_TAG_subprogram ∨ tag = DwarfTag.DW_TAG_inlined_subroutine) ∧
      h1.subprogram_stack = child :: h.subprogram_stack ∧
      h1.subprogram_insert_order = h.subprogram_insert_order ∧
      ∃ info, h1.heap = heapStore h.heap child info ∧
        info.parent = h.subprogram_stack.head?) := by
  unfold StartDIE at hrun
  simp only [] at hrun
  split at hrun
  · rename_i htag
    split at hrun
    · cases hrun
      exact Or.inl (field_shape _ _ rfl rfl rfl)
    · split at hrun
      · split at hrun
        · cases hrun
        · cases hrun
          refine Or.inr ⟨htag, rfl, rfl, _, rfl, ?_⟩
          split <;> rfl
      · cases hrun
  · split at hrun
    · cases hrun
      exact Or.inl (field_shape _ _ rfl rfl rfl)
    · cases hrun
      exact Or.inl (field_shape _ _ rfl rfl rfl)

/-- What `EndDIE` does to the shape of the state: nothing, or it pops the
top of the stack, which it marks used and appends to the insertion order
exactly when the bottom of the stack is used. -/
theorem EndDIE_cases (h h1 : InlineStackHandler) (offset : Nat)
    (hrun : EndDIE h offset = some h1) :
    SameShape h h1 ∨
    ∃ front back rest, h.subprogram_stack = back :: rest ∧
      h.subprogram_stack.getLast? = some front ∧ h1.subprogram_stack = rest ∧
      (((h.heap front).used = true ∧ h1.heap = setUsed h.heap back ∧
          h1.subprogram_insert_order = h.subprogram_insert_order ++ [back]) ∨
        ((h.heap front).used = false ∧ h1.heap = h.heap ∧
          h1.subprogram_insert_order = h.subprogram_insert_order)) := by
  unfold EndDIE at hrun
  split at hrun
  · cases hrun
  · simp only [] at hrun
    split at hrun
    · split at hrun
      · rename_i front back rest hfront hstack
        cases hrun
        refine Or.inr ⟨front, back, rest, hstack, hfront, rfl, ?_⟩
        cases hu : (h.heap front).used with
        | true =>
          refine Or.inl ⟨rfl, by simp [hu], ?_⟩
          have : (setUsed h.heap back front).used = true := by
            unfold setUsed
            split
            · rfl
            · exact hu
          simp [hu, this]
        | false => exact Or.inr ⟨rfl, by simp [hu], by simp [hu]⟩
      · cases hrun
    · cases hrun
      exact Or.inl (field_shape _ _ rfl rfl rfl)
theorem getLast?_cons_of_mem (x y : Ptr) (rest : List Ptr) (hy : y ∈ rest) :
    (x :: rest).getLast? = rest.getLast? := by
  cases rest with
  | nil => cases hy
  | cons z zs => simp [List.getLast?_cons_cons]

/-- The push of `StartDIE` keeps the invariant when the new address is not
taken. -/
theorem TraversalInv_push (taken : List Ptr) (h h1 : InlineStackHandler) (child : Ptr)
    (info : SubprogramInfo) (hfresh : child ∉ taken)
    (hstack : h1.subprogram_stack = child :: h.subprogram_stack)
    (horder : h1.subprogram_insert_order = h.subprogram_insert_order)
    (hheap : h1.heap = heapStore h.heap child info)
    (hparent : info.parent = h.subprogram_stack.head?)
    (inv : TraversalInv taken h) : TraversalInv (child :: taken) h1 := by
  have hchild_stack : child ∉ h.subprogram_stack := fun hx => hfresh (inv.stack_taken _ hx)
  have hchild_order : child ∉ h.subprogram_insert_order :=
    fun hx => hfresh (inv.order_taken _ hx)
  have hother : ∀ x, x ≠ child → h1.heap x = h.heap x := by
    intro x hx
    rw [hheap]
    simp [heapStore, hx]
  have hself : h1.heap child = info := by
    rw [hheap]
    simp [heapStore]
  have horder_ne : ∀ r ∈ h.subprogram_insert_order, r ≠ child :=
    fun r hr e => hchild_order (e ▸ hr)
  have hstack_ne : ∀ r ∈ h.subprogram_stack, r ≠ child :=
    fun r hr e => hchild_stack (e ▸ hr)
  have hparent_taken : ∀ r ∈ h.subprogram_insert_order, ∀ p,
      (h.heap r).parent = some p → p ≠ child := by
    intro r hr p hp e
    rcases inv.parents r hr p hp with hps | hpo
    · exact hstack_ne p hps e
    · exact horder_ne p (Precedes_mem _ _ _ hpo) e
  refine ⟨?_, ?_, ?_, ?_, ?_, ?_, ?_, ?_⟩
  · rw [horder]; exact inv.order_nodup
  · rw [hstack]; exact List.nodup_cons.mpr ⟨hchild_stack, inv.stack_nodup⟩
  · rw [hstack, horder]
    intro x hx
    rcases List.mem_cons.mp hx with e | hx1
    · rw [e]; exact hchild_order
    · exact inv.stack_not_listed x hx1
  · rw [hstack]
    intro x hx
    rcases List.mem_cons.mp hx with e | hx1
    · rw [e]; exact List.mem_cons_self _ _
    · exact List.mem_cons_of_mem _ (inv.stack_taken x hx1)
  · rw [horder]
    exact fun x hx => List.mem_cons_of_mem _ (inv.order_taken x hx)
  · rw [hstack]
    refine ⟨by rw [hself]; exact hparent, ?_⟩
    exact StackChain_congr h.heap h1.heap _
      (fun x hx => by rw [hother x (hstack_ne x hx)]) inv.chain
  · rw [hstack, horder]
    intro r hr p hp
    rw [hother r (horder_ne r hr)] at hp
    rcases inv.parents r hr p hp with hps | hpo
    · exact Or.inl (List.mem_cons_of_mem _ hps)
    · exact Or.inr hpo
  · rw [hstack, horder]
    rintro ⟨r, hr, p, hp, hpar⟩
    rw [hother r (horder_ne r hr)] at hpar
    have hp1 : p ∈ h.subprogram_stack := by
      rcases List.mem_cons.mp hp with e | hp1
      · exact absurd e (hparent_taken r hr p hpar)
      · exact hp1
    obtain ⟨front, hf, hu⟩ := inv.front_used ⟨r, hr, p, hp1, hpar⟩
    refine ⟨front, ?_, ?_⟩
    · rw [getLast?_cons_of_mem child p _ hp1]; exact hf
    · rw [hother front (hstack_ne front (List.mem_of_getLast?_eq_some hf))]; exact hu

/-- The pop of `EndDIE` keeps the invariant. -/
theorem TraversalInv_pop (taken : List Ptr) (h h1 : InlineStackHandler)
    (front back : Ptr) (rest : List Ptr)
    (hstack : h.subprogram_stack = back :: rest)
    (hfront : h.subprogram_stack.getLast? = some front)
    (hstack1 : h1.subprogram_stack = rest)
    (hcase : ((h.heap front).used = true ∧ h1.heap = setUsed h.heap back ∧
          h1.subprogram_insert_order = h.subprogram_insert_order ++ [back]) ∨
        ((h.heap front).used = false ∧ h1.heap = h.heap ∧
          h1.subprogram_insert_order = h.subprogram_insert_order))
    (inv : TraversalInv taken h) : TraversalInv taken h1 := by
  have hnodup : back ∉ rest ∧ rest.Nodup := by
    have := inv.stack_nodup
    rw [hstack] at this
    exact List.nodup_cons.mp this
  have hback_order : back ∉ h.subprogram_insert_order :=
    inv.stack_not_listed back (by rw [hstack]; exact List.mem_cons_self _ _)
  have hchain : (h.heap back).parent = rest.head? ∧ StackChain h.heap rest := by
    have := inv.chain
    rw [hstack] at this
    exact this
  have hrest_last : ∀ p ∈ rest, rest.getLast? = some front := by
    intro p hp
    rw [← getLast?_cons_of_mem back p rest hp, ← hstack]
    exact hfront
  rcases hcase with ⟨hused, hheap, horder⟩ | ⟨hunused, hheap, horder⟩
  · have hpar : ∀ x, (h1.heap x).parent = (h.heap x).parent := by
      intro x
      rw [hheap]
      unfold setUsed
      split <;> rfl
    have hmono : ∀ x, (h.heap x).used = true → (h1.heap x).used = true := by
      intro x hx
      rw [hheap]
      unfold setUsed
      split
      · rfl
      · exact hx
    refine ⟨?_, ?_, ?_, ?_, ?_, ?_, ?_, ?_⟩
    · rw [horder]
      exact List.Nodup.append inv.order_nodup (List.nodup_singleton _)
        (by
          intro x hx hx1
          rw [List.mem_singleton] at hx1
          exact hback_order (hx1 ▸ hx))
    · rw [hstack1]; exact hnodup.2
    · rw [hstack1, horder]
      intro x hx hmem
      rcases List.mem_append.mp hmem with hm | hm
      · exact inv.stack_not_listed x (by rw [hstack]; exact List.mem_cons_of_mem _ hx) hm
      · rw [List.mem_singleton] at hm
        exact hnodup.1 (hm ▸ hx)
    · rw [hstack1]
      exact fun x hx => inv.stack_taken x (by rw [hstack]; exact List.mem_cons_of_mem _ hx)
    · rw [horder]
      intro x hx
      rcases List.mem_append.mp hx with hm | hm
      · exact inv.order_taken x hm
      · rw [List.mem_singleton] at hm
        rw [hm]
        exact inv.stack_taken back (by rw [hstack]; exact List.mem_cons_self _ _)
    · rw [hstack1]
      exact StackChain_congr h.heap h1.heap _ (fun x _ => hpar x) hchain.2
    · rw [hstack1, horder]
      intro r hr p hp
      rw [hpar r] at hp
      rcases List.mem_append.mp hr with hm | hm
      · rcases inv.parents r hm p hp with hps | hpo
        · rw [hstack] at hps
          rcases List.mem_cons.mp hps with e | hp1
          · rw [e]
            exact Or.inr (Precedes_snoc _ _ _ hm)
          · exact Or.inl hp1
        · exact Or.inr (Precedes_append _ _ _ _ hpo)
      · rw [List.mem_singleton] at hm
        rw [hm, hchain.1] at hp
        exact Or.inl (List.mem_of_mem_head? hp)
    · rw [hstack1]
      rintro ⟨r, _, p, hp, _⟩
      exact ⟨front, hrest_last p hp, hmono front hused⟩
  · have hnone : ¬ ∃ r ∈ h.subprogram_insert_order, ∃ p ∈ h.subprogram_stack,
        (h.heap r).parent = some p := by
      intro hex
      obtain ⟨front1, hf1, hu1⟩ := inv.front_used hex
      rw [hfront] at hf1
      cases hf1
      rw [hunused] at hu1
      cases hu1
    refine ⟨?_, ?_, ?_, ?_, ?_, ?_, ?_, ?_⟩
    · rw [horder]; exact inv.order_nodup
    · rw [hstack1]; exact hnodup.2
    · rw [hstack1, horder]
      exact fun x hx =>
        inv.stack_not_listed x (by rw [hstack]; exact List.mem_cons_of_mem _ hx)
    · rw [hstack1]
      exact fun x hx => inv.stack_taken x (by rw [hstack]; exact List.mem_cons_of_mem _ hx)
    · rw [horder]; exact inv.order_taken
    · rw [hstack1, hheap]; exact hchain.2
    · rw [hstack1, horder, hheap]
      intro r hr p hp
      rcases inv.parents r hr p hp with hps | hpo
      · exact absurd ⟨r, hr, p, hps, hp⟩ hnone
      · exact Or.inr hpo
    · rw [hstack1, horder, hheap]
      rintro ⟨r, hr, p, hp, hpar⟩
      exact absurd ⟨r, hr, p, by rw [hstack]; exact List.mem_cons_of_mem _ hp, hpar⟩ hnone

/-- The invariant is kept by every sequence of callbacks whose allocations
return addresses that are not taken, each once. -/
theorem deliverAll_inv (c : Collaborators) (events : List DieEvent) :
    ∀ (taken : List Ptr) (h h1 : InlineStackHandler), TraversalInv taken h →
      (allocations events).Nodup → (∀ x ∈ allocations events, x ∉ taken) →
      deliverAll c h events = some h1 → ∃ taken1, TraversalInv taken1 h1 := by
  induction events with
  | nil =>
    intro taken h h1 inv _ _ hrun
    simp only [deliverAll, Option.some.injEq] at hrun
    exact ⟨taken, hrun ▸ inv⟩
  | cons e events ih =>
    intro taken h h1 inv hnodup hfresh hrun
    simp only [deliverAll] at hrun
    cases hstep : deliver c h e with
    | none => rw [hstep] at hrun; cases hrun
    | some h2 =>
      rw [hstep] at hrun
      simp only [] at hrun
      cases e with
      | StartDIE offset tag child =>
        have hex : ∃ b, StartDIE h offset tag child = some (h2, b) := by
          simp only [deliver] at hstep
          cases hs : StartDIE h offset tag child with
          | none => rw [hs] at hstep; cases hstep
          | some s =>
            rw [hs] at hstep
            simp only [Option.map_some', Option.some.injEq] at hstep
            exact ⟨s.2, by rw [← hstep]⟩
        obtain ⟨b, hstart⟩ := hex
        rcases StartDIE_cases h h2 offset tag child b hstart with hs | ⟨htag, hst, hor, info, hhp, hpar⟩
        · have hsub : ∀ x ∈ allocations events,
              x ∈ allocations (DieEvent.StartDIE offset tag child :: events) := by
            intro x hx
            simp only [allocations]
            split
            · exact List.mem_cons_of_mem _ hx
            · exact hx
          have hnd : (allocations events).Nodup := by
            simp only [allocations] at hnodup
            split at hnodup
            · exact (List.nodup_cons.mp hnodup).2
            · exact hnodup
          exact ih taken h2 h1 (TraversalInv_shape taken h h2 hs inv) hnd
            (fun x hx => hfresh x (hsub x hx)) hrun
        · simp only [allocations, htag, if_true] at hnodup hfresh
          have hnd := List.nodup_cons.mp hnodup
          refine ih (child :: taken) h2 h1
            (TraversalInv_push taken h h2 child info
              (hfresh child (List.mem_cons_self _ _)) hst hor hhp hpar inv) hnd.2 ?_ hrun
          intro x hx hmem
          rcases List.mem_cons.mp hmem with e1 | hm
          · exact hnd.1 (e1 ▸ hx)
          · exact hfresh x (List.mem_cons_of_mem _ hx) hm
      | ProcessAttributeUnsigned offset attr form data =>
        exact ih taken h2 h1
          (TraversalInv_shape taken h h2
            (ProcessAttributeUnsigned_shape c h h2 offset attr form data hstep) inv)
          hnodup hfresh hrun
      | ProcessAttributeSigned offset attr form data =>
        exact ih taken h2 h1
          (TraversalInv_shape taken h h2
            (ProcessAttributeSigned_shape c h h2 offset attr form data hstep) inv)
          hnodup hfresh hrun
      | ProcessAttributeString offset attr form data =>
        simp only [deliver, Option.some.injEq] at hstep
        subst hstep
        exact ih taken _ h1
          (TraversalInv_shape taken h _
            (ProcessAttributeString_shape h offset attr form data) inv)
          hnodup hfresh hrun
      | EndDIE offset =>
        rcases EndDIE_cases h h2 offset hstep with hs | ⟨front, back, rest, hst, hfr, hst1, hcase⟩
        · exact ih taken h2 h1 (TraversalInv_shape taken h h2 hs inv) hnodup hfresh hrun
        · exact ih taken h2 h1
            (TraversalInv_pop taken h h2 front back rest hst hfr hst1 hcase inv)
            hnodup hfresh hrun

/-- `StartCompilationUnit` requires an empty subprogram stack and keeps the
shape of the state. -/
theorem StartCompilationUnit_shape (h h1 : InlineStackHandler) (offset dwarf_version : Nat)
    (b : Bool) (hrun : StartCompilationUnit h offset dwarf_version = some (h1, b)) :
    h.subprogram_stack = [] ∧ SameShape h h1 := by
  unfold StartCompilationUnit at hrun
  split at hrun
  · rename_i hempty
    refine ⟨hempty, ?_⟩
    simp only [] at hrun
    cases hrun
    split
    · exact field_shape _ _ rfl rfl rfl
    · exact field_shape _ _ rfl rfl rfl
  · cases hrun

/-- C21: the insertion order is leaf-to-root.  Let the insertion order of
the handler list no record twice and every listed record before its listed
parent (as it does when it is empty); let `StartCompilationUnit` return, and
let a sequence of `StartDIE`, attribute and `EndDIE` callbacks return in
which every allocation gives an address that is not in the insertion order
and that no other allocation of the sequence gives.  Then whenever the
subprogram stack is empty again (every top-level subprogram DIE opened so far
has ended), the insertion order lists no record twice, and every listed
record that has a parent stands before that parent, which is listed. -/
theorem insertion_order_leaf_to_root (c : Collaborators) (h0 hcu h : InlineStackHandler)
    (offset dwarf_version : Nat) (events : List DieEvent)
    (hbefore : ParentsFollow h0.heap h0.subprogram_insert_order)
    (hstart : StartCompilationUnit h0 offset dwarf_version = some (hcu, true))
    (hnodup : (allocations events).Nodup)
    (hfresh : ∀ x ∈ allocations events, x ∉ h0.subprogram_insert_order)
    (hrun : deliverAll c hcu events = some h)
    (hended : h.subprogram_stack = []) :
    ParentsFollow h.heap h.subprogram_insert_order := by
  obtain ⟨hempty, hshape⟩ := StartCompilationUnit_shape h0 hcu offset dwarf_version true hstart
  have inv0 : TraversalInv h0.subprogram_insert_order h0 := by
    refine ⟨hbefore.1, ?_, ?_, ?_, fun x hx => hx, ?_, ?_, ?_⟩
    · rw [hempty]; exact List.nodup_nil
    · rw [hempty]; intro x hx; cases hx
    · rw [hempty]; intro x hx; cases hx
    · rw [hempty]; trivial
    · exact fun r hr p hp => Or.inr (hbefore.2 r hr p hp)
    · rw [hempty]
      rintro ⟨_, _, p, hp, _⟩
      cases hp
  obtain ⟨taken1, inv⟩ := deliverAll_inv c events _ hcu h
    (TraversalInv_shape _ h0 hcu hshape inv0) hnodup hfresh hrun
  refine ⟨inv.order_nodup, fun r hr p hp => ?_⟩
  rcases inv.parents r hr p hp with hps | hpo
  · rw [hended] at hps
    cases hps
  · exact hpo
/-- The three nested records of `nestedEvents` are listed innermost first:
3 (inlined into 2), 2 (inlined into 1), 1. -/
theorem insertion_order_leaf_to_root_witness :
    (StartCompilationUnit (initialHandler (heapOfList []) 0x1000) 0 5 =
        some (nestedStart, true) ∧
      deliverAll exampleCollaborators nestedStart nestedEvents = some nestedFinal) ∧
    (nestedFinal.subprogram_stack = [] ∧ nestedFinal.subprogram_insert_order = [3, 2, 1] ∧
      (nestedFinal.heap 3).parent = some 2 ∧ (nestedFinal.heap 2).parent = some 1 ∧
      (nestedFinal.heap 1).parent = none) ∧
    ParentsFollow nestedFinal.heap nestedFinal.subprogram_insert_order := by
  have hstart : StartCompilationUnit (initialHandler (heapOfList []) 0x1000) 0 5 =
      some (nestedStart, true) := rfl
  have hrun : deliverAll exampleCollaborators nestedStart nestedEvents = some nestedFinal := by
    have hsome : (deliverAll exampleCollaborators nestedStart nestedEvents).isSome = true := by
      decide
    cases hd : deliverAll exampleCollaborators nestedStart nestedEvents with
    | none => rw [hd] at hsome; cases hsome
    | some x => simp [nestedFinal, hd]
  exact ⟨⟨hstart, hrun⟩, by decide,
    insertion_order_leaf_to_root exampleCollaborators (initialHandler (heapOfList []) 0x1000)
      nestedStart nestedFinal 0 5 nestedEvents
      ⟨List.nodup_nil, fun _ hr => absurd hr (List.not_mem_nil _)⟩ hstart (by decide)
      (fun _ _ hx => absurd hx (List.not_mem_nil _)) hrun (by decide)⟩

end Addr2line
